import Mathlib

/-!
Interstrapolator: analysis / resynthesis

A shallow embedding of `analysis-resynthesis.cpp` (sinusoidal analysis of a
recording by a windowed FFT, peak picking, voice assignment, loudness
normalisation, resynthesis by a bank of sine oscillators) and of
`interstrap_util.h`, together with theorems about them.

Modelling conventions
* `double` values are elements of a linearly ordered field `R` (exact
  arithmetic, no rounding, no NaN); `std::complex<double>` values are elements
  of a commutative ring `C`.
* The C library primitives that have no exact counterpart in a field
  (`cos`, `M_PI`, `std::polar`, `std::abs`, the conversion `double -> Complex`)
  are the fields of `Numerics`, so every definition below is executable once
  they are supplied.
* `int` values that are counts or indices are `Nat`.
* The single-precision conversion in the frame count is modelled exactly
  (24-bit significand, round to nearest, ties to even).
* A division whose divisor is zero does not produce a number (IEEE gives NaN
  or an infinity): `fdiv` returns `none`.
* The `float` variables of the audio callback `onSound` (`t_val`, `frac_ind`,
  the two weights, `freq`, `amp`, `f`) hold values rounded to single precision
  by `to_float` (24-bit significand, round to nearest, ties to even, exponent
  range not bounded); the `double` operations between them stay exact. The
  conversion `(int)x` is truncation; both need a floor function on `R`. An
  access outside a vector has no result (`none`).
* The frame position of `onSound` is also modelled over the natural numbers
  (`t_val_f32`, `frac_ind_f32`), where it can be evaluated by `decide`;
  `interpolation_at_13312` compares the two models.
* `load` and `main` are embedded with the file system as a parameter: a
  decoder for `load`, and the set of files that can be opened for `main`.
-/

set_option linter.unusedSectionVars false
set_option linter.dupNamespace false

namespace Interstrapolator

/-! ## Constants and data model -/

/-- `const double SAMPLE_RATE = 48000.0;` -/
def SAMPLE_RATE {R : Type} [LinearOrderedField R] : R := 48000

/-- `int hop_size = 1024;` -/
def hop_size : Nat := 1024

/-- `int nfft = 8192;` -/
def nfft : Nat := 8192

/-- `int window_size = 2048;` -/
def window_size : Nat := 2048

/-- `struct Entry { double frequency, amplitude; };` -/
structure Entry (R : Type) where
  frequency : R
  amplitude : R
deriving DecidableEq, Repr

/-- The library primitives used by the analysis code, over the scalar type `R`
(for `double`) and the complex type `C` (for `std::complex<double>`). -/
structure Numerics (R C : Type) where
  /-- `cos` from `<cmath>` -/
  cos : R → R
  /-- `M_PI` -/
  pi : R
  /-- `std::polar(rho, theta)` -/
  polar : R → R → C
  /-- `std::abs` on `Complex` -/
  abs : C → R
  /-- the implicit conversion `double -> Complex` -/
  ofReal : R → C

section Sorting

variable {α : Type}

/-- `std::sort(first, last, comp)`: the result is a rearrangement of the input
in which no element is `comp`-smaller than an element before it. The standard
leaves the order of equivalent elements open; this model is a merge sort, and
the theorems below use only that the result is a sorted permutation. -/
def std_sort (comp : α → α → Bool) (xs : List α) : List α :=
  xs.mergeSort (fun a b => !comp b a)

end Sorting

section Peaks

variable {R : Type} [LinearOrderedField R]

/-- `bool entry_comparator(const Entry& l, const Entry& r)` : sort ascending -/
def entry_comparator (l r : Entry R) : Bool := decide (l.frequency < r.frequency)

/-- `bool amp_freq_comparator(const amp_and_freq& l, const amp_and_freq& r)` :
sort descending; a pair is `(amplitude, frequency)`. -/
def amp_freq_comparator (l r : R × R) : Bool := decide (l.1 > r.1)

/-- The peak rule of line 185 at bin `j`. -/
def is_peak (mag : Nat → R) (j : Nat) : Prop :=
  mag j > mag (j - 1) ∧ mag j ≥ mag (j + 1)

instance (mag : Nat → R) (j : Nat) : Decidable (is_peak mag j) := by
  unfold is_peak; infer_instance

/-- PART 3 of `stft_peaks` (lines 177-188): the scan of the bins
`1 .. nfft/2 - 1` of the transformed buffer; `mag j` is `std::abs(fft_buf[j])`.
A detected peak is pushed as the pair `(amplitude, j * bin_step)`. -/
def find_peaks (nfft : Nat) (bin_step : R) (mag : Nat → R) : List (R × R) :=
  (List.range' 1 (nfft / 2 - 1)).foldl
    (fun peaks j =>
      let amp := mag j
      if amp > mag (j - 1) ∧ amp ≥ mag (j + 1) then
        peaks ++ [(mag j, (j : R) * bin_step)]
      else peaks)
    []

/-- Lines 192-204 of `stft_peaks`: voice slot `i < N` gets the `i`-th ranked
peak when there is one and the sentinel `{SAMPLE_RATE / 2, 0}` otherwise. -/
def select_entries (peaks : List (R × R)) (N : Nat) : List (Entry R) :=
  (List.range N).map fun i =>
    if h : i < peaks.length then
      Entry.mk (peaks.get ⟨i, h⟩).2 (peaks.get ⟨i, h⟩).1
    else
      Entry.mk (SAMPLE_RATE / 2) 0

/-- The `Entry` built from a ranked pair `(amplitude, frequency)` (lines
199-202). -/
def entry_of_peak (p : R × R) : Entry R := Entry.mk p.2 p.1

/-- The pair `(amplitude, frequency)` held by an `Entry`. -/
def peak_of_entry (e : Entry R) : R × R := (e.amplitude, e.frequency)

/-- The padding entry `{SAMPLE_RATE / 2.0, 0.0}` (lines 196-197). -/
def sentinel : Entry R := Entry.mk (SAMPLE_RATE / 2) 0

/-- Lines 177-207 of `stft_peaks` for one frame: detect the peaks, rank them by
descending amplitude, keep `N` entries, re-sort them by ascending frequency. -/
def frame_entries (nfft : Nat) (mag : Nat → R) (N : Nat) : List (Entry R) :=
  let bin_step : R := SAMPLE_RATE / (nfft : R)
  let peaks := find_peaks nfft bin_step mag
  let peaks := std_sort amp_freq_comparator peaks
  std_sort entry_comparator (select_entries peaks N)

/-- Bin `j` is reported by the scan of `find_peaks`: the pair pushed for bin
`j` is among the detected peaks. -/
def reported (nfft : Nat) (mag : Nat → R) (j : Nat) : Prop :=
  (mag j, (j : R) * (SAMPLE_RATE / (nfft : R)))
    ∈ find_peaks nfft (SAMPLE_RATE / (nfft : R)) mag

/-- The bins `a .. b` form a flat plateau of `mag`: a maximal run of two or
more consecutive bins of equal magnitude. -/
def is_plateau (mag : Nat → R) (a b : Nat) : Prop :=
  a < b ∧ (∀ j, a ≤ j → j ≤ b → mag j = mag a) ∧ mag (a - 1) ≠ mag a ∧ mag (b + 1) ≠ mag a

/-- A table with one frame of two voices, used to exercise the normalisation. -/
def sample_table : List (List (Entry ℚ)) :=
  [[Entry.mk 24000 2, Entry.mk 3 4]]

/-- The table of one frame and one voice that holds only the sentinel: the
analysis of a frame without peaks. -/
def silent_table : List (List (Entry ℚ)) :=
  [[Entry.mk 24000 0]]

/-- A table of two frames and two voices that holds only sentinels. -/
def zero_table : List (List (Entry ℚ)) :=
  [[Entry.mk 24000 0, Entry.mk 24000 0], [Entry.mk 24000 0, Entry.mk 24000 0]]

/-- A spectrum whose bins 2 and 3 form a plateau below both neighbours. -/
def valley_spectrum (j : Nat) : ℚ :=
  if j = 2 ∨ j = 3 then 3 else 5

/-- A spectrum used to exercise the peak extractor: magnitudes of the bins
`0 .. 8` of a 16-point transform, with peaks at the bins 2, 5 and 7. -/
def sample_spectrum (j : Nat) : ℚ :=
  ([0, 1, 3, 3, 2, 5, 1, 7, 7] : List ℚ).getD j 0

end Peaks

/-! ## Spectral transform -/

section Transform

variable {R : Type} [LinearOrderedField R] {C : Type} [CommRing C]

/-- `x[std::slice(start, size, stride)]`: the `size` elements
`x[start], x[start + stride], ...` copied into a new array. -/
def slice (x : List C) (start size stride : Nat) : List C :=
  (List.range size).map fun i => x.getD (start + i * stride) 0

/-- The combine loop of `fft` (lines 118-123): for `k < N/2`,
`t = polar(1, -2 pi k / N) * odd[k]`, `x[k] = even[k] + t`,
`x[k + N/2] = even[k] - t`, written into `x` in place. -/
def fft_combine (P : Numerics R C) (N : Nat) (even odd x : List C) : List C :=
  (List.range (N / 2)).foldl
    (fun (x : List C) (k : Nat) =>
      let t := P.polar 1 (-2 * P.pi * (k : R) / (N : R)) * odd.getD k 0
      (x.set k (even.getD k 0 + t)).set (k + N / 2) (even.getD k 0 - t))
    x

/-- `void fft(CArray& x)` (lines 104-124); the in-place update is returned as
the new contents of `x`. -/
def fft (P : Numerics R C) (x : List C) : List C :=
  if h : x.length ≤ 1 then x
  else
    let even := fft P (slice x 0 (x.length / 2) 2)
    let odd := fft P (slice x 1 (x.length / 2) 2)
    fft_combine P x.length even odd x
termination_by x.length
decreasing_by
  all_goals simp_wf
  all_goals simp only [slice, List.length_map, List.length_range]
  all_goals omega

/-- The discrete Fourier transform of `x` at index `k`, as the contract of the
transform states it: the sum over `j < n` of `x[j] * exp(-2 pi i k j / n)`,
where `ω n e` stands for the root of unity `exp(-2 pi i e / n)`. -/
def dft (ω : Nat → Nat → C) (x : List C) (k : Nat) : C :=
  ∑ j in Finset.range x.length, x.getD j 0 * ω x.length (k * j)

/-- The laws of the roots of unity `ω n e = exp(-2 pi i e / n)` that the
radix-2 recursion relies on. -/
def IsTwiddle (ω : Nat → Nat → C) : Prop :=
  (∀ n a b, ω n (a + b) = ω n a * ω n b)
  ∧ (∀ h e, ω (2 * h) (2 * e) = ω h e)
  ∧ (∀ h, 0 < h → ω (2 * h) h = -1)
  ∧ (∀ n j, ω n (n * j) = 1)

end Transform

/-! ## Analysis pipeline -/

section Pipeline

variable {R : Type} [LinearOrderedField R] {C : Type} [CommRing C]

/-- `double* hann_window()` (lines 127-135): coefficient `i` of the table. -/
def hann_window (P : Numerics R C) (i : Nat) : R :=
  (1 / 2) * (1 - P.cos (2 * P.pi * ((i : R) + 1) / 2049))

/-- The binary exponent of the unit in the last place of the `float` nearest to
`n`: the number of halvings that bring `n` below `2^24`. The first argument
bounds the number of halvings; 8 are enough for a 32-bit `int`. -/
def float_exponent : Nat → Nat → Nat
  | 0, _ => 0
  | fuel + 1, n => if n < 2 ^ 24 then 0 else float_exponent fuel (n / 2) + 1

/-- Round a non-negative `int` to the nearest `float` (24-bit significand,
round to nearest, ties to even); the value of the float is again a natural
number. -/
def int_to_float (n : Nat) : Nat :=
  if n < 2 ^ 24 then n
  else
    let e := float_exponent 8 n
    let q := n / 2 ^ e
    let r := n % 2 ^ e
    let half := 2 ^ (e - 1)
    if r < half then q * 2 ^ e
    else if half < r then (q + 1) * 2 ^ e
    else if q % 2 = 0 then q * 2 ^ e
    else (q + 1) * 2 ^ e

/-- `int nframes = ceil(data_length / float(hop_size));` (line 145): the
`int` is converted to `float`, the division by the power of two 1024 is exact,
and `ceil` of the quotient is taken. -/
def nframes (data_length : Nat) : Nat :=
  (int_to_float data_length + (hop_size - 1)) / hop_size

/-- Lines 156-160: `fft_buf[j] = data[i]` for `i` from `start_index` up to
`end_index`, with `j` counting from 0. -/
def copy_samples (P : Numerics R C) (data : Nat → R) (start_index end_index : Nat)
    (fft_buf : List C) : List C :=
  (List.range (end_index - start_index)).foldl
    (fun buf j => buf.set j (P.ofReal (data (start_index + j))))
    fft_buf

/-- Lines 163-166: `while (j < nfft) { fft_buf[j] = 0.0; j++; }` -/
def zero_pad (j : Nat) (fft_buf : List C) : List C :=
  (List.range' j (nfft - j)).foldl (fun buf j => buf.set j 0) fft_buf

/-- Lines 171-173: `fft_buf[i] *= window[i]` for `i < window_size`. -/
def apply_window (P : Numerics R C) (fft_buf : List C) : List C :=
  (List.range window_size).foldl
    (fun buf i => buf.set i (buf.getD i 0 * P.ofReal (hann_window P i)))
    fft_buf

/-- The variables of `stft_peaks` that live across iterations of the frame
loop. -/
structure LoopState (R C : Type) where
  fft_buf : List C
  start_index : Nat
  entries : List (List (Entry R))

/-- The buffer handed to `fft` in one iteration (PART 1 and the windowing of
PART 2). -/
def frame_buffer (P : Numerics R C) (data : Nat → R) (data_length start_index : Nat)
    (fft_buf : List C) : List C :=
  let end_index := min data_length (start_index + hop_size)
  let buf := copy_samples P data start_index end_index fft_buf
  let buf := zero_pad (end_index - start_index) buf
  apply_window P buf

/-- Entry `i` of the buffer handed to `fft` for the frame that starts at
`start_index`, in closed form: the windowed sample for the samples of the hop
that exist, zero elsewhere. -/
def windowed_sample (P : Numerics R C) (data : Nat → R) (data_length start_index i : Nat) : C :=
  if i < min data_length (start_index + hop_size) - start_index then
    P.ofReal (data (start_index + i)) * P.ofReal (hann_window P i)
  else 0

/-- One iteration of the frame loop of `stft_peaks` (lines 150-211). -/
def stft_frame (P : Numerics R C) (data : Nat → R) (data_length N : Nat)
    (st : LoopState R C) : LoopState R C :=
  let buf := fft P (frame_buffer P data data_length st.start_index st.fft_buf)
  let frame := frame_entries nfft (fun j => P.abs (buf.getD j 0)) N
  LoopState.mk buf (st.start_index + hop_size) (st.entries ++ [frame])

/-- The state of `stft_peaks` after `k` iterations of the frame loop. -/
def stft_loop (P : Numerics R C) (data : Nat → R) (data_length N : Nat) :
    Nat → LoopState R C
  | 0 => LoopState.mk (List.replicate nfft 0) 0 []
  | k + 1 => stft_frame P data data_length N (stft_loop P data data_length N k)

/-- The magnitude spectrum `std::abs(fft_buf[j])` of frame `fr`, that is of the
buffer left by `fft` in iteration `fr` of the frame loop. -/
def frame_spectrum (P : Numerics R C) (data : Nat → R) (data_length N fr : Nat) (j : Nat) : R :=
  P.abs ((stft_loop P data data_length N (fr + 1)).fft_buf.getD j 0)

/-- `std::vector<std::vector<Entry>> stft_peaks(float* data, int data_length, int N)` -/
def stft_peaks (P : Numerics R C) (data : Nat → R) (data_length N : Nat) :
    List (List (Entry R)) :=
  (stft_loop P data data_length N (nframes data_length)).entries

end Pipeline

/-! ## Loudness normalisation (constructor of `MyApp`, lines 287-309) -/

section Normalize

variable {R : Type} [LinearOrderedField R]

/-- `peaks[i][j]`; the index is in range for a table of `stft_peaks`. -/
def entry_at (frame : List (Entry R)) (j : Nat) : Entry R :=
  frame.getD j (Entry.mk 0 0)

/-- Lines 288-293: `max_amp = std::max(max_amp, peaks[i][j].amplitude)` over
all frames `i` and all `j < N`, starting from `0.0`. -/
def max_amp (peaks : List (List (Entry R))) (N : Nat) : R :=
  peaks.foldl
    (fun m frame => (List.range N).foldl (fun m j => max m (entry_at frame j).amplitude) m)
    0

/-- Floating-point division `a / b`: no number results when `b` is zero. -/
def fdiv (a b : R) : Option R :=
  if b = 0 then none else some (a / b)

/-- The inner loop of lines 294-298 for one frame:
`peaks[i][j].amplitude /= max_amp` for `j < N`. -/
def normalize_frame (m : R) (N : Nat) (frame : List (Entry R)) : Option (List (Entry R)) :=
  (List.range N).foldlM
    (fun f j => (fdiv (entry_at f j).amplitude m).map fun a =>
      f.set j (Entry.mk (entry_at f j).frequency a))
    frame

/-- The outer loop of lines 294-298: every frame in turn; no table results
when an amplitude is divided by zero. -/
def normalize_frames (m : R) (N : Nat) : List (List (Entry R)) → Option (List (List (Entry R)))
  | [] => some []
  | frame :: rest =>
    match normalize_frame m N frame, normalize_frames m N rest with
    | some f, some r => some (f :: r)
    | _, _ => none

/-- The normalisation pass over one table (lines 288-298 for `peaks1`,
lines 299-309 for `peaks2`); `none` when an amplitude is divided by zero. -/
def normalize (peaks : List (List (Entry R))) (N : Nat) : Option (List (List (Entry R))) :=
  normalize_frames (max_amp peaks N) N peaks

/-- Lines 287-309: both tables are normalised, each by its own maximum. -/
def normalize_tables (peaks1 peaks2 : List (List (Entry R))) (N : Nat) :
    Option (List (List (Entry R))) × Option (List (List (Entry R))) :=
  (normalize peaks1 N, normalize peaks2 N)

/-- `peaks[i][j]` of a table. -/
def table_entry (peaks : List (List (Entry R))) (i j : Nat) : Entry R :=
  entry_at (peaks.getD i []) j

/-- An entry with its amplitude divided by `m`. -/
def scale_entry (m : R) (e : Entry R) : Entry R :=
  Entry.mk e.frequency (e.amplitude / m)

/-- A frame with the amplitudes of its first `N` entries divided by `m`. -/
def scale_frame (m : R) (N : Nat) (frame : List (Entry R)) : List (Entry R) :=
  (frame.take N).map (scale_entry m) ++ frame.drop N

end Normalize

/-! ## Oscillator core -/

section Oscillator

variable {R : Type} [LinearOrderedField R] [FloorRing R]

/-- The conversion `(int)x` of a `float` or `double`: truncation toward zero. -/
def cast_int (x : R) : Int := if 0 ≤ x then ⌊x⌋ else ⌈x⌉

/-- An array access `v[i]` with an `int` index; there is no element when the
index is out of range. -/
def list_at {α : Type} (v : List α) (i : Int) : Option α :=
  if 0 ≤ i then v[i.toNat]? else none

/-- `struct SineTable` (lines 27-36): `data[i] = ::sin(M_PI * 2.0 * i / n)`
for `i < n`; `sin` and `pi` stand for `::sin` and `M_PI`. -/
def SineTable (sin : R → R) (pi : R) (n : Nat) : List R :=
  (List.range n).map fun (i : Nat) => sin (pi * 2 * (i : R) / (n : R))

/-- The two table indices `a` and `b` that `sine(p)` reads (lines 43-48). -/
def sine_indices (n : Int) (p : R) : Int × Int :=
  let a : Int := cast_int (p * (n : R))
  let b : Int := 1 + a
  let b : Int := if b = n then 0 else b
  (a, b)

/-- `double sine(double p)` (lines 41-51) over the table `table`. -/
def sine (table : List R) (p : R) : Option R :=
  let n : Int := (table.length : Int)
  let a : Int := (sine_indices n p).1
  let b : Int := (sine_indices n p).2
  let t : R := p * (n : R) - (a : R)
  match list_at table a, list_at table b with
  | some x, some y => some ((1 - t) * x + t * y)
  | _, _ => none

/-- `struct Phasor { double phase = 0; double increment = 0; ... }` -/
structure Phasor (R : Type) where
  phase : R
  increment : R
deriving DecidableEq, Repr

/-- `void Phasor::frequency(double hz)` -/
def Phasor.frequency (ph : Phasor R) (hz : R) : Phasor R :=
  Phasor.mk ph.phase (hz / SAMPLE_RATE)

/-- `double Phasor::operator()()`: the value returned and the oscillator after
the call. -/
def Phasor.operator_call (ph : Phasor R) : R × Phasor R :=
  let value := ph.phase
  let phase := ph.phase + ph.increment
  let phase := if phase ≥ 1 then phase - 1 else phase
  (value, Phasor.mk phase ph.increment)

/-- `double Sine::operator()()`: `sine(Phasor::operator()())`. -/
def Sine.operator_call (table : List R) (osc : Phasor R) : Option (R × Phasor R) :=
  match sine table osc.operator_call.1 with
  | some v => some (v, osc.operator_call.2)
  | none => none

end Oscillator

/-! ## Single-precision rounding

The `float` variables of `onSound` hold values rounded to single precision.
`to_float` is that rounding: to the nearest value with a 24-bit significand,
ties to even. The exponent range is not bounded (no overflow, no subnormal
values); `double` operations stay exact. -/

section SinglePrecisionRounding

variable {R : Type} [LinearOrderedField R] [FloorRing R]

/-- The integer nearest to `x`, ties to the even one. -/
def round_even (x : R) : Int :=
  if 2 * (x - (⌊x⌋ : R)) < 1 then ⌊x⌋
  else if 1 < 2 * (x - (⌊x⌋ : R)) then ⌊x⌋ + 1
  else if ⌊x⌋ % 2 = 0 then ⌊x⌋
  else ⌊x⌋ + 1

/-- The binary exponent of the unit in the last place of the `float` nearest
to `x`: 23 below the exponent of `x`. -/
def ulp_exponent (x : R) : Int := Int.log 2 |x| - 23

/-- The conversion to `float`: the nearest value with a 24-bit significand,
ties to even (the exponent range is not bounded). -/
def to_float (x : R) : R :=
  if x = 0 then 0
  else (round_even (x / (2 : R) ^ ulp_exponent x) : R) * (2 : R) ^ ulp_exponent x

/-- The integer `n` is a nearest integer to `x`, and is even when `x` lies
halfway between two integers. -/
def nearest_even (x : R) (n : Int) : Prop :=
  |x - (n : R)| < 1 / 2 ∨ (|x - (n : R)| = 1 / 2 ∧ n % 2 = 0)

end SinglePrecisionRounding


/-! ## Resynthesis engine -/

section Engine

variable {R : Type} [LinearOrderedField R] [FloorRing R]

/-- The members of `struct MyApp` that the audio callback uses. -/
structure MyApp (R : Type) where
  N : Nat
  s : Nat
  s_limit : Nat
  frame_limit : Nat
  sine : List (Phasor R)
  peaks1 : List (List (Entry R))
  peaks2 : List (List (Entry R))

/-- The state left by the constructor (lines 283-285) and by `onInit` (lines
316-321) for the two analysis tables: `s = 0`, `frame_limit` the smaller frame
count, `s_limit = frame_limit * 1024`, and `N` oscillators with phase 0 tuned
to `220 * (1 + n)`. -/
def MyApp.start (N : Nat) (peaks1 peaks2 : List (List (Entry R))) : MyApp R :=
  MyApp.mk N 0 (min peaks1.length peaks2.length * 1024) (min peaks1.length peaks2.length)
    ((List.range N).map fun (n : Nat) => (Phasor.mk 0 0).frequency (220 * (1 + (n : R))))
    peaks1 peaks2

/-- Line 362: `float t_val = float(this->s) / this->s_limit;` both operands
are converted to `float`, the quotient is rounded to `float`; it is not a
number when `s_limit` is zero. -/
def t_val (s s_limit : Nat) : Option R :=
  (fdiv (to_float (s : R)) (to_float (s_limit : R))).map to_float

/-- Line 363: `float frac_ind = t_val * frame_limit;` -/
def frac_ind (t_val : R) (frame_limit : Nat) : R :=
  to_float (t_val * to_float (frame_limit : R))

/-- Lines 364-371: `low_ind = (int)frac_ind`, `high_ind = low_ind + 1`, both
clamped to `frame_limit - 1`. -/
def frame_indices (frame_limit : Nat) (frac_ind : R) : Int × Int :=
  let low_ind : Int := cast_int frac_ind
  let high_ind : Int := low_ind + 1
  let low_ind : Int := if low_ind ≥ (frame_limit : Int) then (frame_limit : Int) - 1 else low_ind
  let high_ind : Int :=
    if high_ind ≥ (frame_limit : Int) then (frame_limit : Int) - 1 else high_ind
  (low_ind, high_ind)

/-- Line 372: `float upper_weight = frac_ind - low_ind;` with the clamped
`low_ind` converted to `float`. -/
def upper_weight (frac_ind : R) (low_ind : Int) : R :=
  to_float (frac_ind - to_float (low_ind : R))

/-- Line 373: `float lower_weight = 1.0 - upper_weight;` -/
def lower_weight (upper_weight : R) : R :=
  to_float (1 - upper_weight)

/-- Lines 386-390: `s += 1; if (s == s_limit) s = 0;` -/
def next_s (s s_limit : Nat) : Nat :=
  if s + 1 = s_limit then 0 else s + 1

/-- Lines 378-381 for one voice: `float freq` and `float amp` are the rounded
interpolations, the frequency is given to the oscillator, which is advanced;
the result is the product `amp * sine[n]()` and the oscillator after the
call. -/
def voice (table : List R) (lower_weight upper_weight : R) (el eh : Entry R)
    (osc : Phasor R) : Option (R × Phasor R) :=
  let freq := to_float (lower_weight * el.frequency + upper_weight * eh.frequency)
  let amp := to_float (lower_weight * el.amplitude + upper_weight * eh.amplitude)
  match Sine.operator_call table (osc.frequency freq) with
  | some r => some (amp * r.1, r.2)
  | none => none

/-- One iteration of the loop over the voices (lines 377-382), on the running
sum `float f` and the oscillator bank: `f += amp * sine[n]()` stores the
rounded sum. -/
def voice_step (table : List R) (lower_weight upper_weight : R) (lo hi : List (Entry R))
    (st : R × List (Phasor R)) (n : Nat) : Option (R × List (Phasor R)) :=
  match lo[n]?, hi[n]?, st.2[n]? with
  | some el, some eh, some osc =>
    match voice table lower_weight upper_weight el eh osc with
    | some r => some (to_float (st.1 + r.1), st.2.set n r.2)
    | none => none
  | _, _, _ => none

/-- Lines 362-373 and the two frames read in lines 378-379: the frames
`peaks1[low_ind]` and `peaks1[high_ind]` with `lower_weight` and
`upper_weight`. There is no result when the frame position is not a number
(`s_limit = 0`) or a frame index is out of range. -/
def interpolation (app : MyApp R) : Option (List (Entry R) × List (Entry R) × R × R) :=
  match t_val app.s app.s_limit with
  | none => none
  | some t =>
    let frac := frac_ind t app.frame_limit
    let idx := frame_indices app.frame_limit frac
    let uw := upper_weight frac idx.1
    let lw := lower_weight uw
    match list_at app.peaks1 idx.1, list_at app.peaks1 idx.2 with
    | some lo, some hi => some (lo, hi, lw, uw)
    | _, _ => none

/-- Lines 384-385: `f /= N; io.out(0) = f; io.out(1) = f;` the quotient of
the `float` `f` by `N` converted to `float`, rounded to `float`; it is not a
number when `N` is zero. -/
def output_sample (f : R) (N : Nat) : Option R :=
  (fdiv f (to_float (N : R))).map to_float

/-- The body of the loop of `onSound` (lines 362-390) for one sample: the pair
written to `io.out(0)` and `io.out(1)`, and the state after the sample. There
is no result when `interpolation` has none or a voice index or a table index
of the sine lookup is out of range. -/
def onSound_sample (table : List R) (app : MyApp R) :
    Option ((Option R × Option R) × MyApp R) :=
  match interpolation app with
  | none => none
  | some (lo, hi, lw, uw) =>
    match (List.range app.N).foldlM (voice_step table lw uw lo hi) (0, app.sine) with
    | some r =>
      some ((output_sample r.1 app.N, output_sample r.1 app.N),
        MyApp.mk app.N (next_s app.s app.s_limit) app.s_limit app.frame_limit r.2
          app.peaks1 app.peaks2)
    | none => none

/-- `void onSound(AudioIOData &io)` for a block of `k` samples: the samples
written and the state after the block. -/
def onSound (table : List R) :
    Nat → MyApp R → Option (List (Option R × Option R) × MyApp R)
  | 0, app => some ([], app)
  | k + 1, app =>
    match onSound_sample table app with
    | none => none
    | some r =>
      match onSound table k r.2 with
      | none => none
      | some rest => some (r.1 :: rest.1, rest.2)

/-- The engine state with table 2 replaced by another table. -/
def MyApp.replace_peaks2 (app : MyApp R) (peaks2 : List (List (Entry R))) : MyApp R :=
  MyApp.mk app.N app.s app.s_limit app.frame_limit app.sine app.peaks1 peaks2

/-- A table of analysis frames as `stft_peaks` produces them for `N` voices:
every frame has `N` entries and every frequency lies in `[0, SAMPLE_RATE / 2]`. -/
def table_ok (N : Nat) (peaks : List (List (Entry R))) : Prop :=
  ∀ frame ∈ peaks, frame.length = N
    ∧ ∀ e ∈ frame, 0 ≤ e.frequency ∧ e.frequency ≤ SAMPLE_RATE / 2

/-- Every amplitude of the table lies in `[0, 1]`. -/
def amplitudes_ok (peaks : List (List (Entry R))) : Prop :=
  ∀ frame ∈ peaks, ∀ e ∈ frame, 0 ≤ e.amplitude ∧ e.amplitude ≤ 1

/-- The condition under which the audio callback runs without an invalid
access: a non-empty sine table, at least one frame, the counter inside
`[0, s_limit)`, a well-formed table 1 with at least `frame_limit` frames, and
`N` oscillators with phases in `[0, 1)`. -/
def engine_ok (table : List R) (app : MyApp R) : Prop :=
  0 < table.length ∧ 1 ≤ app.frame_limit ∧ app.s_limit = app.frame_limit * 1024
    ∧ app.s < app.s_limit ∧ app.frame_limit ≤ app.peaks1.length
    ∧ table_ok app.N app.peaks1 ∧ app.sine.length = app.N
    ∧ ∀ osc ∈ app.sine, 0 ≤ osc.phase ∧ osc.phase < 1

/-- The two interpolation weights are in `[0, 1]` and sum to at most
`1 + 2^-25` (the sum is 1 up to the rounding of `lower_weight`). -/
def weights_convex (lw uw : R) : Prop :=
  0 ≤ lw ∧ lw ≤ 1 ∧ 0 ≤ uw ∧ uw ≤ 1 ∧ lw + uw ≤ 1 + 1 / 33554432

/-- The product `amp * sine[n]()` of voice `n` (lines 379-381): the rounded
interpolated amplitude times the table lookup at the phase of oscillator `n`. -/
def voice_product (table : List R) (lw uw : R) (lo hi : List (Entry R))
    (sines : List (Phasor R)) (n : Nat) : R :=
  to_float (lw * (entry_at lo n).amplitude + uw * (entry_at hi n).amplitude)
    * (sine table (sines.getD n (Phasor.mk 0 0)).phase).getD 0

/-- The running sum `float f` after `n` iterations of `f += x_n`, every sum
rounded to single precision. -/
def accumulate (x : Nat → R) : Nat → R
  | 0 => 0
  | n + 1 => to_float (accumulate x n + x n)

end Engine

/-! ## Single-precision frame position

The frame position of `onSound` is computed in `float`. The definitions below
follow lines 362-372 with every operation rounded to single precision (24-bit
significand, round to nearest, ties to even, normal range); a positive `float`
is a pair of a numerator and a power-of-two denominator. -/

section SinglePrecision

/-- The integer nearest to `n / d`, ties to the even one. -/
def round_half_even (n d : Nat) : Nat :=
  let q := n / d
  let r := n % d
  if 2 * r < d then q
  else if d < 2 * r then q + 1
  else if q % 2 = 0 then q
  else q + 1

/-- The number of doublings of `n` that bring `n / d` up to `2^23`; the first
argument bounds the number of doublings. -/
def shift_up : Nat → Nat → Nat → Nat
  | 0, _, _ => 0
  | fuel + 1, n, d => if 2 ^ 23 * d ≤ n then 0 else shift_up fuel (2 * n) d + 1

/-- The number of doublings of `d` that bring `n / d` below `2^24`; the first
argument bounds the number of doublings. -/
def shift_down : Nat → Nat → Nat → Nat
  | 0, _, _ => 0
  | fuel + 1, n, d => if n < 2 ^ 24 * d then 0 else shift_down fuel n (2 * d) + 1

/-- The `float` nearest to the quotient `n / d`: the quotient is scaled by a
power of two into `[2^23, 2^24)`, rounded to an integer, and scaled back. -/
def f32_round (n d : Nat) : Nat × Nat :=
  if n = 0 then (0, 1)
  else
    let k := shift_up 64 n d
    let e := shift_down 64 n d
    (round_half_even (n * 2 ^ k) (d * 2 ^ e) * 2 ^ e, 2 ^ k)

/-- `float t_val = float(this->s) / this->s_limit;` (line 362) -/
def t_val_f32 (s s_limit : Nat) : Nat × Nat :=
  f32_round (int_to_float s) (int_to_float s_limit)

/-- `float frac_ind = t_val * frame_limit;` (line 363) -/
def frac_ind_f32 (s s_limit frame_limit : Nat) : Nat × Nat :=
  let t_val := t_val_f32 s s_limit
  f32_round (t_val.1 * int_to_float frame_limit) t_val.2

/-- `int low_ind = (int)frac_ind;` with the clamp of lines 366-368. -/
def low_ind_f32 (s s_limit frame_limit : Nat) : Nat :=
  let frac_ind := frac_ind_f32 s s_limit frame_limit
  let low_ind := frac_ind.1 / frac_ind.2
  if low_ind ≥ frame_limit then frame_limit - 1 else low_ind

/-- `float upper_weight = frac_ind - low_ind;` (line 372) -/
def upper_weight_f32 (s s_limit frame_limit : Nat) : Nat × Nat :=
  let frac_ind := frac_ind_f32 s s_limit frame_limit
  let low_ind := low_ind_f32 s s_limit frame_limit
  f32_round (frac_ind.1 - int_to_float low_ind * frac_ind.2) frac_ind.2

end SinglePrecision

/-! ## Loading a recording (`interstrap_util.h`) -/

section Loader

variable {R : Type} [LinearOrderedField R]

end Loader

/-! ## Command line (`main` and the start of the constructor) -/

section CommandLine

/-- How far an invocation gets: `main` prints the usage message and returns
`status`; the constructor throws `MyAppCreationException`; the constructor
reads `argv[index]` although `index >= argc`; or the constructor obtains the
voice count `N`. -/
inductive Outcome where
  | usage (status : Nat)
  | creation_exception
  | absent_argument (index : Nat)
  | constructed (N : Int)
deriving DecidableEq, Repr

/-- The constructor `MyApp(int argc, char* argv[])` up to line 277: the two
files `argv[1]` and `argv[2]` are opened, then `N = std::atoi(argv[3])`.
`argv` holds the `argc` arguments, `can_open` tells whether `drwav_open_file`
succeeds on a path. -/
def MyApp.MyApp (can_open : String → Bool) (atoi : String → Int) (argv : List String) :
    Outcome :=
  match argv[1]? with
  | none => Outcome.absent_argument 1
  | some path1 =>
    if can_open path1 = false then Outcome.creation_exception
    else
      match argv[2]? with
      | none => Outcome.absent_argument 2
      | some path2 =>
        if can_open path2 = false then Outcome.creation_exception
        else
          match argv[3]? with
          | none => Outcome.absent_argument 3
          | some arg => Outcome.constructed (atoi arg)

/-- `int main(int argc, char* argv[])` up to the construction of the
application (lines 403-411). -/
def main (can_open : String → Bool) (atoi : String → Int) (argv : List String) : Outcome :=
  if argv.length < 3 then Outcome.usage 1
  else MyApp.MyApp can_open atoi argv

end CommandLine

/-! ## Sample data -/

/-- A sine table of four entries, `sin (2 * pi * i / 4)`. -/
def quarter_table : List ℚ := [0, 1, 0, -1]

/-- A table of two frames and one voice with amplitudes in `[0, 1]`. -/
def ramp_table : List (List (Entry ℚ)) :=
  [[Entry.mk 440 1], [Entry.mk 880 (1 / 2)]]

section SortingLemmas

variable {α : Type} {R : Type} [LinearOrderedField R]

theorem std_sort_perm (comp : α → α → Bool) (xs : List α) :
    (std_sort comp xs).Perm xs :=
  List.mergeSort_perm xs _

theorem length_std_sort (comp : α → α → Bool) (xs : List α) :
    (std_sort comp xs).length = xs.length :=
  (std_sort_perm comp xs).length_eq

theorem mem_std_sort (comp : α → α → Bool) (xs : List α) (a : α) :
    a ∈ std_sort comp xs ↔ a ∈ xs :=
  (std_sort_perm comp xs).mem_iff

/-- Sorting with `entry_comparator` leaves the frequencies ascending. -/
theorem sorted_entry_sort (xs : List (Entry R)) :
    (std_sort entry_comparator xs).Pairwise (fun a b => a.frequency ≤ b.frequency) := by
  have h := @List.sorted_mergeSort (Entry R) (fun a b => !entry_comparator b a)
    (by
      intro a b c hab hbc
      simp only [entry_comparator, Bool.not_eq_true', decide_eq_false_iff_not, not_lt] at *
      exact le_trans hab hbc)
    (by
      intro a b
      simp only [entry_comparator, Bool.or_eq_true, Bool.not_eq_true', decide_eq_false_iff_not,
        not_lt]
      exact le_total _ _)
    xs
  refine List.Pairwise.imp ?_ h
  intro a b hab
  simpa [entry_comparator] using hab

/-- Sorting with `amp_freq_comparator` leaves the amplitudes descending. -/
theorem sorted_amp_sort (xs : List (R × R)) :
    (std_sort amp_freq_comparator xs).Pairwise (fun a b => b.1 ≤ a.1) := by
  have h := @List.sorted_mergeSort (R × R) (fun a b => !amp_freq_comparator b a)
    (by
      intro a b c hab hbc
      simp only [amp_freq_comparator, Bool.not_eq_true', decide_eq_false_iff_not, not_lt,
        gt_iff_lt] at *
      exact le_trans hbc hab)
    (by
      intro a b
      simp only [amp_freq_comparator, Bool.or_eq_true, Bool.not_eq_true',
        decide_eq_false_iff_not, not_lt, gt_iff_lt]
      exact le_total _ _)
    xs
  refine List.Pairwise.imp ?_ h
  intro a b hab
  simpa [amp_freq_comparator] using hab

end SortingLemmas

/-! ## Lemmas: peak detection and voice assignment -/

section PeakLemmas

variable {R : Type} [LinearOrderedField R]

theorem find_peaks_loop (bin_step : R) (mag : Nat → R) (l : List Nat) (acc : List (R × R)) :
    l.foldl
      (fun peaks j =>
        let amp := mag j
        if amp > mag (j - 1) ∧ amp ≥ mag (j + 1) then
          peaks ++ [(mag j, (j : R) * bin_step)]
        else peaks)
      acc
    = acc ++ (l.filter fun j => decide (is_peak mag j)).map
        fun j => (mag j, (j : R) * bin_step) := by
  induction l generalizing acc with
  | nil => simp
  | cons j l ih =>
    simp only [List.foldl_cons, List.filter_cons]
    rw [ih]
    by_cases h : is_peak mag j
    · have h2 := h
      unfold is_peak at h2
      simp [h, h2]
    · have h2 := h
      unfold is_peak at h2
      simp [h, h2]

/-- The scan of `find_peaks` in closed form: the bins `1 .. nfft/2 - 1` that
satisfy the peak rule, in ascending order of bin index. -/
theorem find_peaks_eq (nfft : Nat) (bin_step : R) (mag : Nat → R) :
    find_peaks nfft bin_step mag
    = ((List.range' 1 (nfft / 2 - 1)).filter fun j => decide (is_peak mag j)).map
        fun j => (mag j, (j : R) * bin_step) := by
  unfold find_peaks
  rw [find_peaks_loop]
  simp

theorem mem_find_peaks (nfft : Nat) (bin_step : R) (mag : Nat → R) (p : R × R) :
    p ∈ find_peaks nfft bin_step mag ↔
      ∃ j, 1 ≤ j ∧ j + 1 ≤ nfft / 2 ∧ is_peak mag j ∧ p = (mag j, (j : R) * bin_step) := by
  rw [find_peaks_eq]
  simp only [List.mem_map, List.mem_filter, List.mem_range', decide_eq_true_eq]
  constructor
  · rintro ⟨j, ⟨⟨i, hi, rfl⟩, hp⟩, rfl⟩
    exact ⟨1 + 1 * i, by omega, by omega, hp, rfl⟩
  · rintro ⟨j, h1, h2, hp, rfl⟩
    exact ⟨j, ⟨⟨j - 1, by omega, by omega⟩, hp⟩, rfl⟩

theorem length_select_entries (peaks : List (R × R)) (N : Nat) :
    (select_entries peaks N).length = N := by
  simp [select_entries]

theorem length_frame_entries (nfft : Nat) (mag : Nat → R) (N : Nat) :
    (frame_entries nfft mag N).length = N := by
  simp [frame_entries, length_std_sort, length_select_entries]

/-- The `N` chosen entries: the first `N` ranked peaks, then sentinels. -/
theorem select_entries_eq (peaks : List (R × R)) (N : Nat) :
    select_entries peaks N
    = (peaks.take N).map entry_of_peak ++ List.replicate (N - peaks.length) sentinel := by
  apply List.ext_getElem
  · simp [select_entries]
    omega
  · intro i h1 h2
    simp only [select_entries, List.getElem_map, List.getElem_range, List.get_eq_getElem]
    by_cases h : i < peaks.length
    · have hN : i < N := by simpa [select_entries] using h1
      rw [List.getElem_append_left (by simp; omega)]
      simp [h, entry_of_peak]
    · rw [List.getElem_append_right (by simp; omega)]
      simp [h, sentinel]

theorem peak_of_entry_of_peak (p : R × R) : peak_of_entry (entry_of_peak p) = p := rfl

theorem map_peak_of_entry_of_peak (l : List (R × R)) :
    (l.map entry_of_peak).map peak_of_entry = l := by
  simp [List.map_map, Function.comp_def, peak_of_entry_of_peak]

/-- A list sorted by ascending frequency splits at a threshold `t`: first the
entries below `t`, then the others. -/
theorem sorted_split (t : R) (l : List (Entry R))
    (hs : l.Pairwise fun a b => a.frequency ≤ b.frequency) :
    l = (l.filter fun e => decide (e.frequency < t))
          ++ (l.filter fun e => !decide (e.frequency < t)) := by
  induction l with
  | nil => simp
  | cons a l ih =>
    rw [List.pairwise_cons] at hs
    by_cases h : a.frequency < t
    · simp only [List.filter_cons, h, decide_True, Bool.not_true, if_true, List.cons_append]
      simp only [Bool.false_eq_true, if_false]
      rw [← ih hs.2]
    · have hnil : (l.filter fun e => decide (e.frequency < t)) = [] := by
        rw [List.filter_eq_nil_iff]
        intro b hb
        have := hs.1 b hb
        simp only [decide_eq_true_eq, not_lt]
        exact le_trans (not_lt.mp h) this
      have hall : (l.filter fun e => !decide (e.frequency < t)) = l := by
        rw [List.filter_eq_self]
        intro b hb
        have := hs.1 b hb
        simp only [Bool.not_eq_true', decide_eq_false_iff_not, not_lt]
        exact le_trans (not_lt.mp h) this
      simp [List.filter_cons, h, hnil, hall]

/-- A frequency-sorted rearrangement of real entries (all below `t`) followed by
`m` copies of an entry at frequency `t` keeps the copies at the end. -/
theorem sorted_perm_append_replicate (frame A : List (Entry R)) (m : Nat) (s : Entry R)
    (hs : frame.Pairwise fun a b => a.frequency ≤ b.frequency)
    (hp : frame.Perm (A ++ List.replicate m s))
    (hA : ∀ e ∈ A, e.frequency < s.frequency) :
    (frame.take A.length).Perm A ∧ frame.drop A.length = List.replicate m s := by
  have hsplit := sorted_split s.frequency frame hs
  have h1 : (frame.filter fun e => decide (e.frequency < s.frequency)).Perm A := by
    have := hp.filter fun e => decide (e.frequency < s.frequency)
    rw [List.filter_append] at this
    have hA2 : (A.filter fun e => decide (e.frequency < s.frequency)) = A := by
      rw [List.filter_eq_self]
      intro e he
      simpa using hA e he
    have hR : ((List.replicate m s).filter fun e => decide (e.frequency < s.frequency)) = [] := by
      rw [List.filter_eq_nil_iff]
      intro e he
      rw [List.eq_of_mem_replicate he]
      simp
    rw [hA2, hR, List.append_nil] at this
    exact this
  have h2 : (frame.filter fun e => !decide (e.frequency < s.frequency))
      = List.replicate m s := by
    have := hp.filter fun e => !decide (e.frequency < s.frequency)
    rw [List.filter_append] at this
    have hA2 : (A.filter fun e => !decide (e.frequency < s.frequency)) = [] := by
      rw [List.filter_eq_nil_iff]
      intro e he
      simpa using hA e he
    have hR : ((List.replicate m s).filter fun e => !decide (e.frequency < s.frequency))
        = List.replicate m s := by
      rw [List.filter_eq_self]
      intro e he
      rw [List.eq_of_mem_replicate he]
      simp
    rw [hA2, hR, List.nil_append] at this
    exact (List.replicate_perm.mp this.symm).symm
  have hlen : (frame.filter fun e => decide (e.frequency < s.frequency)).length = A.length :=
    h1.length_eq
  constructor
  · rw [hsplit, List.take_left' hlen]
    exact h1
  · rw [hsplit, List.drop_left' hlen]
    exact h2

/-- Bin `j` is reported exactly when it is scanned and satisfies the peak rule. -/
theorem reported_iff (nfft : Nat) (mag : Nat → R) (j : Nat) :
    reported nfft mag j ↔ 1 ≤ j ∧ j + 1 ≤ nfft / 2 ∧ is_peak mag j := by
  unfold reported
  rw [mem_find_peaks]
  constructor
  · rintro ⟨i, h1, h2, hp, heq⟩
    have hn : (nfft : R) ≠ 0 := by
      have : nfft ≠ 0 := by omega
      exact_mod_cast this
    have hbs : (SAMPLE_RATE / (nfft : R) : R) ≠ 0 := by
      simp only [SAMPLE_RATE]
      exact div_ne_zero (by norm_num) hn
    have h3 : (j : R) = (i : R) := mul_right_cancel₀ hbs (Prod.mk.inj heq).2
    have h4 : j = i := by exact_mod_cast h3
    subst h4
    exact ⟨h1, h2, hp⟩
  · rintro ⟨h1, h2, hp⟩
    exact ⟨j, h1, h2, hp, rfl⟩

/-- Every detected peak lies strictly below the sentinel frequency. -/
theorem find_peaks_frequency_lt (nfft : Nat) (mag : Nat → R) (p : R × R)
    (hp : p ∈ find_peaks nfft (SAMPLE_RATE / (nfft : R)) mag) :
    p.2 < SAMPLE_RATE / 2 := by
  rw [mem_find_peaks] at hp
  obtain ⟨j, h1, h2, -, rfl⟩ := hp
  have hn : (0 : R) < (nfft : R) := by
    have : 0 < nfft := by omega
    exact_mod_cast this
  have hj : (2 : R) * (j : R) + 2 ≤ (nfft : R) := by
    have : 2 * j + 2 ≤ nfft := by omega
    exact_mod_cast this
  simp only [SAMPLE_RATE]
  rw [← mul_div_assoc, div_lt_div_iff₀ hn (by norm_num)]
  nlinarith

end PeakLemmas

/-! ## Lemmas: the frame loop -/

section LoopLemmas

variable {R : Type} [LinearOrderedField R] {C : Type} [CommRing C]

theorem length_slice (x : List C) (start size stride : Nat) :
    (slice x start size stride).length = size := by
  simp [slice]

theorem stft_loop_entries (P : Numerics R C) (data : Nat → R) (data_length N : Nat) (k : Nat) :
    (stft_loop P data data_length N k).entries
    = (List.range k).map fun fr =>
        frame_entries nfft (frame_spectrum P data data_length N fr) N := by
  induction k with
  | zero => simp [stft_loop]
  | succ k ih =>
    rw [List.range_succ, List.map_append]
    simp only [List.map_cons, List.map_nil]
    rw [← ih]
    rfl

/-- The table of `stft_peaks`, frame by frame. -/
theorem stft_peaks_eq (P : Numerics R C) (data : Nat → R) (data_length N : Nat) :
    stft_peaks P data data_length N
    = (List.range (nframes data_length)).map fun fr =>
        frame_entries nfft (frame_spectrum P data data_length N fr) N :=
  stft_loop_entries P data data_length N _

theorem fft_of_length_le_one (P : Numerics R C) (x : List C) (h : x.length ≤ 1) :
    fft P x = x := by
  rw [fft]
  simp [h]

theorem fft_of_one_lt_length (P : Numerics R C) (x : List C) (h : 1 < x.length) :
    fft P x = fft_combine P x.length (fft P (slice x 0 (x.length / 2) 2))
      (fft P (slice x 1 (x.length / 2) 2)) x := by
  rw [fft]
  simp [Nat.not_le.mpr h]

/-- A loop `buf[j] = f(j, buf[j])` over distinct indices `j`, slot by slot. -/
theorem set_loop_getElem? {α : Type} (d : α) (f : Nat → α → α) (l : List Nat) (hl : l.Nodup)
    (buf : List α) (i : Nat) :
    (l.foldl (fun b j => b.set j (f j (b.getD j d))) buf)[i]?
      = if i ∈ l then (buf[i]?).map (f i) else buf[i]? := by
  induction l generalizing buf with
  | nil => simp
  | cons j l ih =>
    rw [List.nodup_cons] at hl
    rw [List.foldl_cons, ih hl.2, List.getElem?_set]
    by_cases hij : j = i
    · subst hij
      rcases Nat.lt_or_ge j buf.length with hlt | hge
      · simp [hl.1, hlt, List.getD_eq_getElem?_getD, List.getElem?_eq_getElem hlt]
      · simp [hl.1, Nat.not_lt.mpr hge, List.getElem?_eq_none hge]
    · have hmem : (i ∈ j :: l) = (i ∈ l) := by
        apply propext
        rw [List.mem_cons]
        constructor
        · rintro (h | h)
          · exact absurd h.symm hij
          · exact h
        · exact Or.inr
      simp only [if_neg hij, hmem]

theorem copy_samples_getElem? (P : Numerics R C) (data : Nat → R) (start_index end_index : Nat)
    (fft_buf : List C) (i : Nat) :
    (copy_samples P data start_index end_index fft_buf)[i]?
      = if i < end_index - start_index then
          (fft_buf[i]?).map fun _ => P.ofReal (data (start_index + i))
        else fft_buf[i]? := by
  have h := set_loop_getElem? (0 : C) (fun j _ => P.ofReal (data (start_index + j)))
    (List.range (end_index - start_index)) (List.nodup_range _) fft_buf i
  simp only [List.mem_range] at h
  exact h

theorem zero_pad_getElem? (j : Nat) (fft_buf : List C) (i : Nat) :
    (zero_pad j fft_buf)[i]?
      = if j ≤ i ∧ i < nfft then (fft_buf[i]?).map fun _ => (0 : C) else fft_buf[i]? := by
  have h := set_loop_getElem? (0 : C) (fun _ _ => (0 : C))
    (List.range' j (nfft - j)) (List.nodup_range' _ _) fft_buf i
  have hmem : i ∈ List.range' j (nfft - j) ↔ (j ≤ i ∧ i < nfft) := by
    rw [List.mem_range'_1]
    constructor <;> intro hh <;> omega
  by_cases hc : j ≤ i ∧ i < nfft
  · rw [if_pos (hmem.mpr hc)] at h
    rw [if_pos hc]
    exact h
  · rw [if_neg (fun hh => hc (hmem.mp hh))] at h
    rw [if_neg hc]
    exact h

theorem apply_window_getElem? (P : Numerics R C) (fft_buf : List C) (i : Nat) :
    (apply_window P fft_buf)[i]?
      = if i < window_size then (fft_buf[i]?).map fun v => v * P.ofReal (hann_window P i)
        else fft_buf[i]? := by
  have h := set_loop_getElem? (0 : C) (fun j v => v * P.ofReal (hann_window P j))
    (List.range window_size) (List.nodup_range _) fft_buf i
  simp only [List.mem_range] at h
  exact h

/-- The buffer handed to `fft` does not depend on what the buffer held before:
every one of its `nfft` entries is written in PART 1. -/
theorem frame_buffer_eq (P : Numerics R C) (data : Nat → R) (data_length start_index : Nat)
    (fft_buf : List C) (hbuf : fft_buf.length = nfft) :
    frame_buffer P data data_length start_index fft_buf
      = (List.range nfft).map (windowed_sample P data data_length start_index) := by
  apply List.ext_getElem?
  intro i
  unfold frame_buffer
  simp only [apply_window_getElem?, zero_pad_getElem?, copy_samples_getElem?,
    List.getElem?_map]
  have hcnt : min data_length (start_index + hop_size) - start_index ≤ 1024 := by
    simp only [hop_size]; omega
  rcases Nat.lt_or_ge i nfft with hi | hi
  · have hsome : fft_buf[i]? = some fft_buf[i] := List.getElem?_eq_getElem (by omega)
    rw [List.getElem?_range hi, hsome]
    unfold windowed_sample
    by_cases h1 : i < min data_length (start_index + hop_size) - start_index
    · have h2 : i < window_size := by simp only [window_size]; omega
      have h3 : ¬ (min data_length (start_index + hop_size) - start_index ≤ i ∧ i < nfft) := by
        omega
      simp only [if_pos h1, if_pos h2, if_neg h3, Option.map_some']
    · have h3 : min data_length (start_index + hop_size) - start_index ≤ i ∧ i < nfft := by
        omega
      by_cases h2 : i < window_size
      · simp only [if_neg h1, if_pos h2, if_pos h3, Option.map_some', zero_mul]
      · simp only [if_neg h1, if_neg h2, if_pos h3, Option.map_some']
  · have hnone : fft_buf[i]? = none := List.getElem?_eq_none (by omega)
    have hnone2 : (List.range nfft)[i]? = none := List.getElem?_eq_none (by simpa using hi)
    rw [hnone, hnone2]
    simp

theorem length_fft_combine (P : Numerics R C) (N : Nat) (even odd x : List C) :
    (fft_combine P N even odd x).length = x.length := by
  unfold fft_combine
  generalize List.range (N / 2) = l
  induction l generalizing x with
  | nil => rfl
  | cons k l ih =>
    rw [List.foldl_cons, ih]
    simp

/-- The transform keeps the length of the buffer, whatever the length is. -/
theorem length_fft (P : Numerics R C) (x : List C) : (fft P x).length = x.length := by
  rcases Nat.lt_or_ge 1 x.length with h | h
  · rw [fft_of_one_lt_length P x h, length_fft_combine]
  · rw [fft_of_length_le_one P x h]

theorem stft_loop_buf_length (P : Numerics R C) (data : Nat → R) (data_length N k : Nat) :
    (stft_loop P data data_length N k).fft_buf.length = nfft := by
  induction k with
  | zero => simp [stft_loop]
  | succ k ih =>
    simp only [stft_loop, stft_frame]
    rw [length_fft, frame_buffer_eq P data data_length _ _ ih]
    simp

theorem stft_loop_start_index (P : Numerics R C) (data : Nat → R) (data_length N k : Nat) :
    (stft_loop P data data_length N k).start_index = k * hop_size := by
  induction k with
  | zero => simp [stft_loop]
  | succ k ih =>
    simp only [stft_loop, stft_frame, ih]
    ring

/-- The buffer after iteration `fr` of the frame loop: the transform of the
windowed samples of hop `fr`. -/
theorem stft_loop_buf (P : Numerics R C) (data : Nat → R) (data_length N fr : Nat) :
    (stft_loop P data data_length N (fr + 1)).fft_buf
      = fft P ((List.range nfft).map
          (windowed_sample P data data_length (fr * hop_size))) := by
  simp only [stft_loop, stft_frame]
  rw [frame_buffer_eq P data data_length _ _ (stft_loop_buf_length P data data_length N fr),
    stft_loop_start_index]

/-- The butterfly loop after `c` iterations, slot by slot: the slots `k < c`
hold `E k + T k`, the slots `h + k` with `k < c` hold `E k - T k`, the others
are untouched. -/
theorem combine_loop (E T : Nat → C) (h : Nat) (x : List C) (hx : x.length = 2 * h)
    (c : Nat) (hc : c ≤ h) :
    ((List.range c).foldl (fun (y : List C) (k : Nat) =>
        (y.set k (E k + T k)).set (k + h) (E k - T k)) x).length = 2 * h
    ∧ ∀ i, ((List.range c).foldl (fun (y : List C) (k : Nat) =>
        (y.set k (E k + T k)).set (k + h) (E k - T k)) x)[i]?
      = if i < c then some (E i + T i)
        else if h ≤ i ∧ i < h + c then some (E (i - h) - T (i - h))
        else x[i]? := by
  induction c with
  | zero =>
    refine ⟨by simpa using hx, ?_⟩
    intro i
    have h0 : ¬ (h ≤ i ∧ i < h + 0) := by omega
    simp only [List.range_zero, List.foldl_nil, Nat.not_lt_zero, if_false, if_neg h0]
  | succ c ih =>
    obtain ⟨hlen, hget⟩ := ih (by omega)
    rw [List.range_succ, List.foldl_append]
    simp only [List.foldl_cons, List.foldl_nil]
    generalize (List.range c).foldl (fun (y : List C) (k : Nat) =>
        (y.set k (E k + T k)).set (k + h) (E k - T k)) x = prev at hlen hget
    refine ⟨by simp [hlen], ?_⟩
    intro i
    rw [List.getElem?_set, List.getElem?_set, hget i]
    simp only [List.length_set, hlen]
    by_cases h1 : c + h = i
    · subst h1
      have e1 : c + h - h = c := by omega
      have c1 : c + h < 2 * h := by omega
      have c2 : ¬ c + h < c + 1 := by omega
      have c3 : h ≤ c + h ∧ c + h < h + (c + 1) := by omega
      simp [e1, c1, c2, c3]
    · by_cases h2 : c = i
      · subst h2
        have c1 : c < 2 * h := by omega
        simp [h1, c1]
      · have c1 : (i < c + 1) = (i < c) := by
          apply propext; constructor <;> intro hh <;> omega
        have c2 : (h ≤ i ∧ i < h + (c + 1)) = (h ≤ i ∧ i < h + c) := by
          apply propext; constructor <;> intro hh <;> omega
        simp only [if_neg h1, if_neg h2, c1, c2]

theorem getD_slice (x : List C) (start size j : Nat) (hj : j < size) :
    (slice x start size 2).getD j 0 = x.getD (start + j * 2) 0 := by
  simp [slice, List.getD_eq_getElem?_getD, List.getElem?_map, List.getElem?_range hj]

theorem sum_even_odd (f : Nat → C) (h : Nat) :
    ∑ j in Finset.range (2 * h), f j
      = ∑ j in Finset.range h, f (2 * j) + ∑ j in Finset.range h, f (2 * j + 1) := by
  induction h with
  | zero => simp
  | succ h ih =>
    rw [show 2 * (h + 1) = 2 * h + 1 + 1 from by ring, Finset.sum_range_succ,
      Finset.sum_range_succ, ih, Finset.sum_range_succ, Finset.sum_range_succ]
    ring

/-- Even/odd decimation of the transform: the step behind the butterfly. -/
theorem dft_split (ω : Nat → Nat → C) (hω : IsTwiddle ω) (x : List C) (h : Nat)
    (hx : x.length = 2 * h) (k : Nat) :
    dft ω x k = dft ω (slice x 0 h 2) k + ω (2 * h) k * dft ω (slice x 1 h 2) k := by
  obtain ⟨hadd, hhalf, -, -⟩ := hω
  unfold dft
  rw [hx, sum_even_odd, length_slice, length_slice, Finset.mul_sum]
  congr 1
  · apply Finset.sum_congr rfl
    intro j hj
    rw [getD_slice x 0 h j (Finset.mem_range.mp hj)]
    rw [show k * (2 * j) = 2 * (k * j) from by ring, hhalf]
    rw [show 0 + j * 2 = 2 * j from by ring]
  · apply Finset.sum_congr rfl
    intro j hj
    rw [getD_slice x 1 h j (Finset.mem_range.mp hj)]
    rw [show k * (2 * j + 1) = 2 * (k * j) + k from by ring, hadd, hhalf]
    rw [show 1 + j * 2 = 2 * j + 1 from by ring]
    ring

/-- The transform of a buffer of length `h` has period `h` in its index. -/
theorem dft_add_length (ω : Nat → Nat → C) (hω : IsTwiddle ω) (y : List C) (k : Nat) :
    dft ω y (k + y.length) = dft ω y k := by
  obtain ⟨hadd, -, -, hone⟩ := hω
  unfold dft
  apply Finset.sum_congr rfl
  intro j _
  rw [show (k + y.length) * j = k * j + y.length * j from by ring, hadd, hone, mul_one]

/-- The recursion of `fft` computes the transform `dft`, for every family `ω`
of roots of unity that the twiddle factors of the code agree with. -/
theorem fft_eq_dft (P : Numerics R C) (ω : Nat → Nat → C) (hω : IsTwiddle ω)
    (htw : ∀ N k : Nat, P.polar 1 (-2 * P.pi * (k : R) / (N : R)) = ω N k)
    (m : Nat) (x : List C) (hx : x.length = 2 ^ m) :
    (fft P x).length = x.length ∧ ∀ k, k < x.length → (fft P x).getD k 0 = dft ω x k := by
  induction m generalizing x with
  | zero =>
    have h1 : x.length = 1 := by simpa using hx
    rw [fft_of_length_le_one P x (by omega)]
    refine ⟨rfl, ?_⟩
    intro k hk
    have hk0 : k = 0 := by omega
    subst hk0
    have hone : ω 1 0 = 1 := by
      have := hω.2.2.2 1 0
      simpa using this
    simp [dft, h1, hone]
  | succ m ih =>
    have hlen : x.length = 2 * 2 ^ m := by rw [hx, pow_succ]; ring
    have hpos : 0 < 2 ^ m := Nat.two_pow_pos m
    have hhalf : x.length / 2 = 2 ^ m := by omega
    obtain ⟨hel, heg⟩ := ih (slice x 0 (2 ^ m) 2) (length_slice _ _ _ _)
    obtain ⟨hol, hog⟩ := ih (slice x 1 (2 ^ m) 2) (length_slice _ _ _ _)
    rw [length_slice] at hel hol
    rw [fft_of_one_lt_length P x (by omega), hhalf]
    unfold fft_combine
    rw [hhalf]
    obtain ⟨hcl, hcg⟩ := combine_loop
      (fun k => (fft P (slice x 0 (2 ^ m) 2)).getD k 0)
      (fun k => P.polar 1 (-2 * P.pi * (k : R) / (x.length : R))
        * (fft P (slice x 1 (2 ^ m) 2)).getD k 0)
      (2 ^ m) x hlen (2 ^ m) (le_refl _)
    refine ⟨by rw [hcl, hlen], ?_⟩
    intro k hk
    rw [List.getD_eq_getElem?_getD, hcg k, dft_split ω hω x (2 ^ m) hlen k]
    by_cases h1 : k < 2 ^ m
    · rw [if_pos h1]
      simp only [Option.getD_some]
      rw [heg k (by rw [length_slice]; exact h1), hog k (by rw [length_slice]; exact h1),
        htw, hlen]
    · have h2 : 2 ^ m ≤ k ∧ k < 2 ^ m + 2 ^ m := by omega
      rw [if_neg h1, if_pos h2]
      simp only [Option.getD_some]
      have hk2 : k - 2 ^ m < 2 ^ m := by omega
      rw [heg _ (by rw [length_slice]; exact hk2), hog _ (by rw [length_slice]; exact hk2),
        htw, hlen]
      have e1 := dft_add_length ω hω (slice x 0 (2 ^ m) 2) (k - 2 ^ m)
      have e2 := dft_add_length ω hω (slice x 1 (2 ^ m) 2) (k - 2 ^ m)
      rw [length_slice, Nat.sub_add_cancel h2.1] at e1 e2
      rw [e1, e2]
      have e3 : ω (2 * 2 ^ m) k = - ω (2 * 2 ^ m) (k - 2 ^ m) := by
        have := hω.1 (2 * 2 ^ m) (k - 2 ^ m) (2 ^ m)
        rw [Nat.sub_add_cancel h2.1, hω.2.2.1 (2 ^ m) hpos] at this
        rw [this]; ring
      rw [e3]
      ring

/-- The complex roots of unity `exp(-2 pi i e / n)` satisfy the laws the
recursion relies on. -/
theorem isTwiddle_exp :
    IsTwiddle (fun (n e : Nat) => Complex.exp (-2 * Real.pi * Complex.I * (e : ℂ) / (n : ℂ))) := by
  refine ⟨?_, ?_, ?_, ?_⟩
  · intro n a b
    show Complex.exp _ = Complex.exp _ * Complex.exp _
    rw [← Complex.exp_add]
    congr 1
    push_cast
    ring
  · intro h e
    show Complex.exp _ = Complex.exp _
    congr 1
    push_cast
    rcases Nat.eq_zero_or_pos h with h0 | h0
    · subst h0; simp
    · have : (h : ℂ) ≠ 0 := by exact_mod_cast (Nat.pos_iff_ne_zero.mp h0)
      field_simp
      ring
  · intro h h0
    show Complex.exp _ = -1
    have hne : (h : ℂ) ≠ 0 := by exact_mod_cast (Nat.pos_iff_ne_zero.mp h0)
    have harg : -2 * Real.pi * Complex.I * (h : ℂ) / ((2 * h : Nat) : ℂ)
        = -(Real.pi * Complex.I) := by
      push_cast
      field_simp
      ring
    rw [harg, Complex.exp_neg, Complex.exp_pi_mul_I]
    norm_num
  · intro n j
    show Complex.exp _ = 1
    rcases Nat.eq_zero_or_pos n with h0 | h0
    · subst h0; simp
    · have hne : (n : ℂ) ≠ 0 := by exact_mod_cast (Nat.pos_iff_ne_zero.mp h0)
      have harg : -2 * Real.pi * Complex.I * ((n * j : Nat) : ℂ) / (n : ℂ)
          = -((j : ℂ) * (2 * Real.pi * Complex.I)) := by
        push_cast
        field_simp
        ring
      rw [harg, Complex.exp_neg, Complex.exp_nat_mul_two_pi_mul_I]
      norm_num

theorem slice_replicate_zero (n start size : Nat) :
    slice (List.replicate n (0 : C)) start size 2 = List.replicate size 0 := by
  apply List.ext_getElem
  · simp [slice]
  · intro i h1 h2
    simp only [slice, List.getElem_map, List.getElem_range, List.getElem_replicate,
      List.getD_eq_getElem?_getD]
    rcases Nat.lt_or_ge (start + i * 2) n with h | h
    · rw [List.getElem?_eq_getElem (by simpa using h)]
      simp
    · rw [List.getElem?_eq_none (by simpa using h)]
      rfl

theorem set_replicate_zero (n k : Nat) :
    (List.replicate n (0 : C)).set k 0 = List.replicate n 0 := by
  apply List.ext_getElem?
  intro i
  rw [List.getElem?_set]
  by_cases h : k = i
  · subst h
    rcases Nat.lt_or_ge k n with hl | hl
    · simp [hl]
    · simp [hl, Nat.not_lt.mpr hl]
  · simp [h]

/-- The transform of a buffer of zeros is the buffer of zeros. -/
theorem fft_replicate_zero (P : Numerics R C) (n : Nat) :
    fft P (List.replicate n 0) = List.replicate n 0 := by
  induction n using Nat.strong_induction_on with
  | _ n ih =>
    rcases Nat.lt_or_ge 1 n with h | h
    · rw [fft_of_one_lt_length P _ (by simpa using h)]
      simp only [List.length_replicate, slice_replicate_zero]
      rw [ih (n / 2) (by omega)]
      unfold fft_combine
      generalize List.range (n / 2) = l
      induction l with
      | nil => rfl
      | cons k l ihl =>
        rw [List.foldl_cons]
        have hz : (List.replicate (n / 2) (0 : C)).getD k 0 = 0 := by
          rw [List.getD_eq_getElem?_getD]
          rcases Nat.lt_or_ge k (n / 2) with hk | hk
          · rw [List.getElem?_eq_getElem (by simpa using hk)]
            simp
          · rw [List.getElem?_eq_none (by simpa using hk)]
            rfl
        simp only [hz, mul_zero, add_zero, sub_zero, set_replicate_zero]
        exact ihl
    · rw [fft_of_length_le_one P _ (by simpa using h)]

/-- A flat spectrum has no peak, so the frame holds only sentinels. -/
theorem frame_entries_const (nfft N : Nat) (c : R) :
    frame_entries nfft (fun _ => c) N = List.replicate N sentinel := by
  have hpk : find_peaks nfft (SAMPLE_RATE / (nfft : R)) (fun _ => c) = [] := by
    rw [find_peaks_eq]
    have hnil : ((List.range' 1 (nfft / 2 - 1)).filter
        fun j => decide (is_peak (fun _ => c) j)) = [] := by
      rw [List.filter_eq_nil_iff]
      intro j _
      simp [is_peak]
    rw [hnil]
    rfl
  have hsort : std_sort amp_freq_comparator ([] : List (R × R)) = [] :=
    List.length_eq_zero.mp (length_std_sort _ _)
  simp only [frame_entries, hpk, hsort]
  rw [select_entries_eq]
  simp only [List.take_nil, List.map_nil, List.nil_append, List.length_nil, Nat.sub_zero]
  exact List.replicate_perm.mp (std_sort_perm _ _).symm |>.symm

/-- The analysis of a silent recording: every frame holds only sentinels. -/
theorem stft_peaks_silent (P : Numerics R C) (h0 : P.ofReal 0 = 0) (data_length N : Nat) :
    stft_peaks P (fun _ => 0) data_length N
      = List.replicate (nframes data_length) (List.replicate N sentinel) := by
  rw [stft_peaks_eq]
  have hspec : ∀ fr, frame_spectrum P (fun _ => (0 : R)) data_length N fr
      = fun _ => P.abs 0 := by
    intro fr
    funext j
    unfold frame_spectrum
    rw [stft_loop_buf]
    have hbuf : (List.range nfft).map
        (windowed_sample P (fun _ => (0 : R)) data_length (fr * hop_size))
        = List.replicate nfft 0 := by
      apply List.ext_getElem
      · simp
      · intro i h1 h2
        simp [windowed_sample, h0]
    rw [hbuf, fft_replicate_zero, List.getD_eq_getElem?_getD]
    rcases Nat.lt_or_ge j nfft with hj | hj
    · rw [List.getElem?_eq_getElem (by simpa using hj)]
      simp
    · rw [List.getElem?_eq_none (by simpa using hj)]
      rfl
  simp only [hspec, frame_entries_const]
  apply List.ext_getElem
  · simp
  · intro i h1 h2
    simp

/-- The frame count of a 16777217-sample input, as the code computes it. -/
theorem nframes_16777217 : nframes 16777217 = 16384 := by
  decide

end LoopLemmas

/-! ## Lemmas: loudness normalisation -/

section NormalizeLemmas

variable {R : Type} [LinearOrderedField R]

theorem foldlM_some {α β : Type} (f : β → α → Option β) (g : β → α → β)
    (h : ∀ b a, f b a = some (g b a)) (l : List α) (b : β) :
    l.foldlM f b = some (l.foldl g b) := by
  induction l generalizing b with
  | nil => rfl
  | cons a l ih =>
    rw [List.foldlM_cons, h b a, List.foldl_cons]
    exact ih (g b a)

/-- The in-place loop over the slots `0 .. n-1`, slot by slot. -/
theorem scale_loop_getElem? (m : R) (frame : List (Entry R)) (n i : Nat) :
    ((List.range n).foldl (fun f j => f.set j (scale_entry m (entry_at f j))) frame)[i]?
      = if i < n then (frame[i]?).map (scale_entry m) else frame[i]? := by
  induction n generalizing i with
  | zero => simp
  | succ n ih =>
    rw [List.range_succ, List.foldl_append]
    simp only [List.foldl_cons, List.foldl_nil]
    generalize hprev :
      (List.range n).foldl (fun f j => f.set j (scale_entry m (entry_at f j))) frame = prev at ih
    have hn : prev[n]? = frame[n]? := by
      rw [ih n]; simp
    have hat : entry_at prev n = entry_at frame n := by
      simp only [entry_at, List.getD_eq_getElem?_getD, hn]
    rw [List.getElem?_set, hat]
    by_cases hin : n = i
    · subst hin
      rcases Nat.lt_or_ge n prev.length with hl | hl
      · have hsome : prev[n]? = some prev[n] := List.getElem?_eq_getElem hl
        rw [hn] at hsome
        simp [hl, entry_at, List.getD_eq_getElem?_getD, hsome]
      · have hnone : prev[n]? = none := List.getElem?_eq_none hl
        rw [hn] at hnone
        simp [Nat.not_lt.mpr hl, hnone]
    · rw [if_neg hin, ih i]
      by_cases h1 : i < n
      · simp [h1, Nat.lt_succ_of_lt h1]
      · have h2 : ¬ i < n + 1 := by omega
        simp [h1, h2]

theorem scale_loop_eq (m : R) (N : Nat) (frame : List (Entry R)) :
    (List.range N).foldl (fun f j => f.set j (scale_entry m (entry_at f j))) frame
      = scale_frame m N frame := by
  apply List.ext_getElem?
  intro i
  rw [scale_loop_getElem?, scale_frame, List.getElem?_append]
  simp only [List.length_map, List.length_take, List.getElem?_map, List.getElem?_take,
    List.getElem?_drop]
  by_cases h1 : i < N
  · by_cases h2 : i < frame.length
    · simp [h1, h2]
    · have hnone : frame[i]? = none := List.getElem?_eq_none (by omega)
      have hnone2 : frame[N + (i - min N frame.length)]? = none :=
        List.getElem?_eq_none (by omega)
      simp [h1, h2, hnone, hnone2]
  · have h3 : ¬ i < min N frame.length := by omega
    have h4 : N + (i - min N frame.length) = i ∨ frame.length ≤ i := by omega
    rcases h4 with h4 | h4
    · simp [h1, h4]
    · have hnone : frame[i]? = none := List.getElem?_eq_none h4
      have hnone2 : frame[N + (i - min N frame.length)]? = none :=
        List.getElem?_eq_none (by omega)
      simp [h1, hnone, hnone2]

/-- With a nonzero divisor the frame loop succeeds and scales the frame. -/
theorem normalize_frame_eq (m : R) (hm : m ≠ 0) (N : Nat) (frame : List (Entry R)) :
    normalize_frame m N frame = some (scale_frame m N frame) := by
  unfold normalize_frame
  rw [foldlM_some _ (fun f j => f.set j (scale_entry m (entry_at f j)))]
  · rw [scale_loop_eq]
  · intro f j
    simp [fdiv, hm, scale_entry]

theorem normalize_frames_eq (m : R) (hm : m ≠ 0) (N : Nat) (peaks : List (List (Entry R))) :
    normalize_frames m N peaks = some (peaks.map (scale_frame m N)) := by
  induction peaks with
  | nil => rfl
  | cons frame rest ih =>
    simp only [normalize_frames, normalize_frame_eq m hm, ih, List.map_cons]

theorem entry_at_scale_frame (m : R) (N : Nat) (frame : List (Entry R)) (j : Nat) :
    (entry_at (scale_frame m N frame) j).frequency = (entry_at frame j).frequency
    ∧ (j < N → (entry_at (scale_frame m N frame) j).amplitude
                = (entry_at frame j).amplitude / m) := by
  have hget := scale_loop_getElem? m frame N j
  rw [scale_loop_eq] at hget
  simp only [entry_at, List.getD_eq_getElem?_getD, hget]
  by_cases h1 : j < N
  · rcases Nat.lt_or_ge j frame.length with hl | hl
    · simp [h1, List.getElem?_eq_getElem hl, scale_entry]
    · simp [h1, List.getElem?_eq_none hl]
  · simp [h1]

theorem length_scale_frame (m : R) (N : Nat) (frame : List (Entry R)) :
    (scale_frame m N frame).length = frame.length := by
  simp only [scale_frame, List.length_append, List.length_map, List.length_take,
    List.length_drop]
  omega

/-- The scan of one frame for the maximum never decreases the running maximum. -/
theorem le_frame_max (amp : Nat → R) (l : List Nat) (a : R) :
    a ≤ l.foldl (fun m j => max m (amp j)) a := by
  induction l generalizing a with
  | nil => exact le_refl _
  | cons j l ih => exact le_trans (le_max_left _ _) (ih _)

theorem max_amp_loop_nonneg (N : Nat) (peaks : List (List (Entry R))) (a : R) :
    a ≤ peaks.foldl
      (fun m frame => (List.range N).foldl (fun m j => max m (entry_at frame j).amplitude) m)
      a := by
  induction peaks generalizing a with
  | nil => exact le_refl _
  | cons frame rest ih =>
    exact le_trans (le_frame_max (fun j => (entry_at frame j).amplitude) _ a) (ih _)

theorem max_amp_nonneg (peaks : List (List (Entry R))) (N : Nat) : 0 ≤ max_amp peaks N :=
  max_amp_loop_nonneg N peaks 0

/-- Dividing every amplitude of a frame by `m > 0` divides the frame maximum. -/
theorem frame_max_scale (m : R) (hm : 0 < m) (N : Nat) (amp amp2 : Nat → R)
    (h : ∀ j, j < N → amp2 j = amp j / m) (l : List Nat) (hl : ∀ j ∈ l, j < N) (a : R) :
    l.foldl (fun x j => max x (amp2 j)) (a / m) = l.foldl (fun x j => max x (amp j)) a / m := by
  induction l generalizing a with
  | nil => rfl
  | cons j l ih =>
    simp only [List.foldl_cons]
    rw [h j (hl j (List.mem_cons_self _ _)), max_div_div_right (le_of_lt hm)]
    exact ih (fun k hk => hl k (List.mem_cons_of_mem _ hk)) _

theorem max_amp_loop_scale (m : R) (hm : 0 < m) (N : Nat) (peaks : List (List (Entry R)))
    (a : R) :
    (peaks.map (scale_frame m N)).foldl
      (fun x frame => (List.range N).foldl (fun x j => max x (entry_at frame j).amplitude) x)
      (a / m)
    = peaks.foldl
      (fun x frame => (List.range N).foldl (fun x j => max x (entry_at frame j).amplitude) x)
      a / m := by
  induction peaks generalizing a with
  | nil => rfl
  | cons frame rest ih =>
    simp only [List.map_cons, List.foldl_cons]
    rw [frame_max_scale m hm N (fun j => (entry_at frame j).amplitude)
      (fun j => (entry_at (scale_frame m N frame) j).amplitude)
      (fun j hj => (entry_at_scale_frame m N frame j).2 hj) (List.range N)
      (fun j hj => List.mem_range.mp hj) a]
    exact ih _

/-- Dividing every amplitude of a table by `m > 0` divides its maximum. -/
theorem max_amp_scale (m : R) (hm : 0 < m) (N : Nat) (peaks : List (List (Entry R))) :
    max_amp (peaks.map (scale_frame m N)) N = max_amp peaks N / m := by
  have h := max_amp_loop_scale m hm N peaks 0
  rw [zero_div] at h
  exact h

/-- With a zero divisor the first division of a frame already fails. -/
theorem normalize_frame_zero (N : Nat) (hN : 0 < N) (frame : List (Entry R)) :
    normalize_frame 0 N frame = none := by
  obtain ⟨n, rfl⟩ : ∃ n, N = n + 1 := ⟨N - 1, by omega⟩
  unfold normalize_frame
  rw [List.range_succ_eq_map, List.foldlM_cons]
  simp [fdiv]

theorem normalize_frames_zero (N : Nat) (hN : 0 < N) (frame : List (Entry R))
    (rest : List (List (Entry R))) :
    normalize_frames 0 N (frame :: rest) = none := by
  simp only [normalize_frames, normalize_frame_zero N hN]

theorem table_entry_scale (m : R) (N : Nat) (peaks : List (List (Entry R))) (i j : Nat) :
    table_entry (peaks.map (scale_frame m N)) i j
      = entry_at (scale_frame m N (peaks.getD i [])) j := by
  unfold table_entry
  congr 1
  simp only [List.getD_eq_getElem?_getD, List.getElem?_map]
  cases peaks[i]? with
  | none => simp [scale_frame]
  | some f => simp

/-- With a nonzero maximum the pass succeeds and scales every frame. -/
theorem normalize_eq (peaks : List (List (Entry R))) (N : Nat) (h : max_amp peaks N ≠ 0) :
    normalize peaks N = some (peaks.map (scale_frame (max_amp peaks N) N)) :=
  normalize_frames_eq _ h N peaks

end NormalizeLemmas

/-! ## Peak extractor: cardinality, order, detection rule -/

section PeakTheorems

variable {R : Type} [LinearOrderedField R] {C : Type} [CommRing C]

/-- C1: for every input `data` of every length and every voice count `N`, the
table returned by `stft_peaks` consists of `nframes data_length` frames and
each of them has exactly `N` entries, whatever the spectrum of the frame is. -/
theorem stft_peaks_frame_lengths (P : Numerics R C) (data : Nat → R) (data_length N : Nat) :
    (stft_peaks P data data_length N).map List.length
      = List.replicate (nframes data_length) N := by
  rw [stft_peaks_eq, List.map_map]
  apply List.ext_getElem
  · simp
  · intro i h1 h2
    simp [length_frame_entries]

/-- C2: frame `fr` of the table returned by `stft_peaks` is the list
`frame_entries` of that frame's spectrum; it has `N` entries, they are in
ascending order of frequency (for slots `i < j` the frequency at `i` is at
most the one at `j`), and the frame is a permutation of the `N` chosen
entries, so every frequency stays paired with its own amplitude. -/
theorem stft_peaks_frame_sorted (P : Numerics R C) (data : Nat → R)
    (data_length N fr : Nat) :
    (stft_peaks P data data_length N)[fr]?
        = (if fr < nframes data_length then
            some (frame_entries nfft (frame_spectrum P data data_length N fr) N)
          else none)
    ∧ (frame_entries nfft (frame_spectrum P data data_length N fr) N).length = N
    ∧ (frame_entries nfft (frame_spectrum P data data_length N fr) N).Pairwise
        (fun a b => a.frequency ≤ b.frequency)
    ∧ (frame_entries nfft (frame_spectrum P data data_length N fr) N).Perm
        (select_entries
          (std_sort amp_freq_comparator
            (find_peaks nfft (SAMPLE_RATE / (nfft : R))
              (frame_spectrum P data data_length N fr)))
          N) := by
  refine ⟨?_, length_frame_entries _ _ _, sorted_entry_sort _, std_sort_perm _ _⟩
  rw [stft_peaks_eq]
  by_cases h : fr < nframes data_length
  · simp [h]
  · simp [h]
    omega

/-- C3: with `nfft = 8192` and `mag j = |X[j]|`, the peaks detected by
`stft_peaks` are, in ascending bin order, exactly the bins `j` with
`1 <= j <= nfft/2 - 1`, `|X[j]| > |X[j-1]|` and `|X[j]| >= |X[j+1]|`; each is
reported as the pair (amplitude `|X[j]|`, frequency `j * 48000 / 8192`), and
nothing else is reported (so no bin 0, no bin `nfft/2` or above). -/
theorem find_peaks_spec (mag : Nat → R) (p : R × R) :
    find_peaks nfft (SAMPLE_RATE / (nfft : R)) mag
      = ((List.range' 1 4095).filter fun j =>
            decide (mag j > mag (j - 1) ∧ mag j ≥ mag (j + 1))).map
          (fun j => (mag j, (j : R) * 48000 / 8192))
    ∧ (p ∈ find_peaks nfft (SAMPLE_RATE / (nfft : R)) mag ↔
        ∃ j, 1 ≤ j ∧ j ≤ 8192 / 2 - 1 ∧ mag j > mag (j - 1) ∧ mag j ≥ mag (j + 1)
          ∧ p = (mag j, (j : R) * 48000 / 8192)) := by
  have hf : ∀ j : Nat, (j : R) * (SAMPLE_RATE / ((nfft : Nat) : R)) = (j : R) * 48000 / 8192 := by
    intro j
    simp only [SAMPLE_RATE, nfft]
    push_cast
    ring
  constructor
  · rw [find_peaks_eq]
    simp only [hf]
    rfl
  · rw [mem_find_peaks]
    simp only [hf, is_peak]
    constructor
    · rintro ⟨j, h1, h2, hp, rfl⟩
      exact ⟨j, h1, by simp only [nfft] at h2; omega, hp.1, hp.2, rfl⟩
    · rintro ⟨j, h1, h2, hp1, hp2, rfl⟩
      exact ⟨j, h1, by simp only [nfft]; omega, ⟨hp1, hp2⟩, rfl⟩

/-- C4: when at least `N` peaks are detected in a frame, the `N` entries of
the frame are `N` of the detected peaks (together with the peaks `rest` that
were not kept they make up exactly the detected peaks, as multisets of
(magnitude, frequency) pairs), and every kept peak has a magnitude at least
that of every peak that was not kept. -/
theorem frame_entries_top (nfft : Nat) (mag : Nat → R) (N : Nat)
    (h : N ≤ (find_peaks nfft (SAMPLE_RATE / (nfft : R)) mag).length) :
    (frame_entries nfft mag N).length = N
    ∧ ∃ rest : List (R × R),
        ((frame_entries nfft mag N).map peak_of_entry ++ rest).Perm
          (find_peaks nfft (SAMPLE_RATE / (nfft : R)) mag)
        ∧ ∀ e ∈ frame_entries nfft mag N, ∀ p ∈ rest, p.1 ≤ e.amplitude := by
  refine ⟨length_frame_entries nfft mag N, ?_⟩
  have hlen : N ≤ (std_sort amp_freq_comparator
      (find_peaks nfft (SAMPLE_RATE / (nfft : R)) mag)).length := by
    rw [length_std_sort]; exact h
  have hsel : select_entries (std_sort amp_freq_comparator
        (find_peaks nfft (SAMPLE_RATE / (nfft : R)) mag)) N
      = ((std_sort amp_freq_comparator
        (find_peaks nfft (SAMPLE_RATE / (nfft : R)) mag)).take N).map entry_of_peak := by
    rw [select_entries_eq, Nat.sub_eq_zero_of_le hlen]
    simp
  have hframe : (frame_entries nfft mag N).Perm
      (((std_sort amp_freq_comparator
        (find_peaks nfft (SAMPLE_RATE / (nfft : R)) mag)).take N).map entry_of_peak) := by
    rw [← hsel]
    exact std_sort_perm _ _
  have hsorted := sorted_amp_sort (find_peaks nfft (SAMPLE_RATE / (nfft : R)) mag)
  rw [← List.take_append_drop N (std_sort amp_freq_comparator
      (find_peaks nfft (SAMPLE_RATE / (nfft : R)) mag)), List.pairwise_append] at hsorted
  refine ⟨(std_sort amp_freq_comparator
      (find_peaks nfft (SAMPLE_RATE / (nfft : R)) mag)).drop N, ?_, ?_⟩
  · have h1 := (hframe.map peak_of_entry).append_right
      ((std_sort amp_freq_comparator
        (find_peaks nfft (SAMPLE_RATE / (nfft : R)) mag)).drop N)
    rw [map_peak_of_entry_of_peak, List.take_append_drop] at h1
    exact h1.trans (std_sort_perm _ _)
  · intro e he p hp
    have he2 := hframe.mem_iff.mp he
    rw [List.mem_map] at he2
    obtain ⟨q, hq, rfl⟩ := he2
    exact hsorted.2.2 q hq p hp

theorem sample_spectrum_peaks :
    find_peaks 16 (SAMPLE_RATE / ((16 : Nat) : ℚ)) sample_spectrum
      = [(3, 6000), (5, 15000), (7, 21000)] := by
  rw [find_peaks_eq]
  have h : List.range' 1 (16 / 2 - 1) = [1, 2, 3, 4, 5, 6, 7] := by decide
  rw [h]
  norm_num [List.filter_cons, is_peak, sample_spectrum, SAMPLE_RATE]

/-- Witness of C4: the sample spectrum has three peaks and `N = 2`. -/
theorem frame_entries_top_witness :
    2 ≤ (find_peaks 16 (SAMPLE_RATE / ((16 : Nat) : ℚ)) sample_spectrum).length
    ∧ ((frame_entries 16 sample_spectrum 2).length = 2
      ∧ ∃ rest : List (ℚ × ℚ),
        ((frame_entries 16 sample_spectrum 2).map peak_of_entry ++ rest).Perm
          (find_peaks 16 (SAMPLE_RATE / ((16 : Nat) : ℚ)) sample_spectrum)
        ∧ ∀ e ∈ frame_entries 16 sample_spectrum 2, ∀ p ∈ rest, p.1 ≤ e.amplitude) :=
  ⟨by rw [sample_spectrum_peaks]; decide,
   frame_entries_top 16 sample_spectrum 2 (by rw [sample_spectrum_peaks]; decide)⟩

/-- C5: when `k < N` peaks are detected in a frame, the frame holds the `k`
detected peaks in the slots `0 .. k-1`, in ascending order of frequency, and
the sentinel `{24000, 0}` in each of the `N - k` slots `k .. N-1`; every real
peak has a frequency strictly below the sentinel frequency, and when `k >= 1`
slot 0 holds a real peak of lowest frequency. -/
theorem frame_entries_padded (nfft : Nat) (mag : Nat → R) (N : Nat)
    (h : (find_peaks nfft (SAMPLE_RATE / (nfft : R)) mag).length < N) :
    ((frame_entries nfft mag N).take
        (find_peaks nfft (SAMPLE_RATE / (nfft : R)) mag).length).Perm
      ((find_peaks nfft (SAMPLE_RATE / (nfft : R)) mag).map entry_of_peak)
    ∧ ((frame_entries nfft mag N).take
        (find_peaks nfft (SAMPLE_RATE / (nfft : R)) mag).length).Pairwise
          (fun a b => a.frequency ≤ b.frequency)
    ∧ (frame_entries nfft mag N).drop (find_peaks nfft (SAMPLE_RATE / (nfft : R)) mag).length
        = List.replicate (N - (find_peaks nfft (SAMPLE_RATE / (nfft : R)) mag).length)
            (Entry.mk 24000 0)
    ∧ (∀ p ∈ find_peaks nfft (SAMPLE_RATE / (nfft : R)) mag, p.2 < 24000)
    ∧ (0 < (find_peaks nfft (SAMPLE_RATE / (nfft : R)) mag).length →
        ∃ e, (frame_entries nfft mag N).head? = some e
          ∧ e ∈ (find_peaks nfft (SAMPLE_RATE / (nfft : R)) mag).map entry_of_peak
          ∧ ∀ p ∈ find_peaks nfft (SAMPLE_RATE / (nfft : R)) mag, e.frequency ≤ p.2) := by
  have h24 : (SAMPLE_RATE / 2 : R) = 24000 := by
    simp only [SAMPLE_RATE]; norm_num
  have hsent : (sentinel : Entry R) = Entry.mk 24000 0 := by
    simp only [sentinel, h24]
  have hlt : ∀ p ∈ find_peaks nfft (SAMPLE_RATE / (nfft : R)) mag, p.2 < 24000 := by
    intro p hp
    rw [← h24]
    exact find_peaks_frequency_lt nfft mag p hp
  generalize hpk : find_peaks nfft (SAMPLE_RATE / (nfft : R)) mag = peaks at h hlt ⊢
  have hfe : frame_entries nfft mag N
      = std_sort entry_comparator (select_entries (std_sort amp_freq_comparator peaks) N) := by
    simp only [frame_entries, hpk]
  generalize frame_entries nfft mag N = frame at hfe ⊢
  have hsl : (std_sort amp_freq_comparator peaks).length = peaks.length := length_std_sort _ _
  have hsel : select_entries (std_sort amp_freq_comparator peaks) N
      = (std_sort amp_freq_comparator peaks).map entry_of_peak
        ++ List.replicate (N - peaks.length) (Entry.mk 24000 0) := by
    rw [select_entries_eq, hsl, List.take_of_length_le (by omega), hsent]
  have hs : frame.Pairwise fun a b => a.frequency ≤ b.frequency := by
    rw [hfe]; exact sorted_entry_sort _
  have hp : frame.Perm ((std_sort amp_freq_comparator peaks).map entry_of_peak
      ++ List.replicate (N - peaks.length) (Entry.mk 24000 0)) := by
    rw [hfe, ← hsel]; exact std_sort_perm _ _
  have hA : ∀ e ∈ (std_sort amp_freq_comparator peaks).map entry_of_peak,
      e.frequency < (Entry.mk (24000 : R) 0).frequency := by
    intro e he
    rw [List.mem_map] at he
    obtain ⟨p, hp, rfl⟩ := he
    exact hlt p ((mem_std_sort _ _ _).mp hp)
  have key := sorted_perm_append_replicate frame _ _ _ hs hp hA
  rw [List.length_map, hsl] at key
  have hperm : (frame.take peaks.length).Perm (peaks.map entry_of_peak) :=
    key.1.trans ((std_sort_perm _ _).map entry_of_peak)
  have hst : (frame.take peaks.length).Pairwise fun a b => a.frequency ≤ b.frequency :=
    hs.sublist (List.take_sublist _ _)
  refine ⟨hperm, hst, key.2, hlt, ?_⟩
  intro hk
  have hlen : (frame.take peaks.length).length = peaks.length := by
    rw [hperm.length_eq, List.length_map]
  cases hfr : frame with
  | nil => simp [hfr] at hlen; omega
  | cons e rest =>
    refine ⟨e, rfl, ?_, ?_⟩
    · apply hperm.mem_iff.mp
      rw [hfr]
      obtain ⟨n, hn⟩ : ∃ n, peaks.length = n + 1 := ⟨peaks.length - 1, by omega⟩
      rw [hn, List.take_succ_cons]
      exact List.mem_cons_self _ _
    · intro p hp
      have hmem : entry_of_peak p ∈ frame.take peaks.length :=
        hperm.mem_iff.mpr (List.mem_map_of_mem _ hp)
      have hmem2 : entry_of_peak p ∈ e :: rest := by
        rw [← hfr]; exact List.mem_of_mem_take hmem
      rw [hfr, List.pairwise_cons] at hs
      rcases List.mem_cons.mp hmem2 with heq | hin
      · rw [← heq]; exact le_refl _
      · exact hs.1 _ hin

/-- Witness of C5: the sample spectrum has three peaks and `N = 5`. -/
theorem frame_entries_padded_witness :
    (find_peaks 16 (SAMPLE_RATE / ((16 : Nat) : ℚ)) sample_spectrum).length < 5
    ∧ (((frame_entries 16 sample_spectrum 5).take
        (find_peaks 16 (SAMPLE_RATE / ((16 : Nat) : ℚ)) sample_spectrum).length).Perm
      ((find_peaks 16 (SAMPLE_RATE / ((16 : Nat) : ℚ)) sample_spectrum).map entry_of_peak)
    ∧ ((frame_entries 16 sample_spectrum 5).take
        (find_peaks 16 (SAMPLE_RATE / ((16 : Nat) : ℚ)) sample_spectrum).length).Pairwise
          (fun a b => a.frequency ≤ b.frequency)
    ∧ (frame_entries 16 sample_spectrum 5).drop
        (find_peaks 16 (SAMPLE_RATE / ((16 : Nat) : ℚ)) sample_spectrum).length
        = List.replicate
            (5 - (find_peaks 16 (SAMPLE_RATE / ((16 : Nat) : ℚ)) sample_spectrum).length)
            (Entry.mk 24000 0)
    ∧ (∀ p ∈ find_peaks 16 (SAMPLE_RATE / ((16 : Nat) : ℚ)) sample_spectrum, p.2 < 24000)
    ∧ (0 < (find_peaks 16 (SAMPLE_RATE / ((16 : Nat) : ℚ)) sample_spectrum).length →
        ∃ e, (frame_entries 16 sample_spectrum 5).head? = some e
          ∧ e ∈ (find_peaks 16 (SAMPLE_RATE / ((16 : Nat) : ℚ)) sample_spectrum).map
              entry_of_peak
          ∧ ∀ p ∈ find_peaks 16 (SAMPLE_RATE / ((16 : Nat) : ℚ)) sample_spectrum,
              e.frequency ≤ p.2)) :=
  ⟨by rw [sample_spectrum_peaks]; decide,
   frame_entries_padded 16 sample_spectrum 5 (by rw [sample_spectrum_peaks]; decide)⟩

/-- C6 (as stated, refuted): bins 2 and 3 of `valley_spectrum` form a flat
plateau (magnitude 3 between neighbours of magnitude 5) inside the scanned
range of an 8192-point transform, and the peak rule reports neither of them,
so a plateau need not yield a peak. -/
theorem plateau_without_peak :
    is_plateau valley_spectrum 2 3 ∧ 1 ≤ 2 ∧ 3 ≤ nfft / 2 - 1
    ∧ ∀ j, 2 ≤ j → j ≤ 3 → ¬ reported nfft valley_spectrum j := by
  refine ⟨⟨by decide, ?_, by norm_num [valley_spectrum], by norm_num [valley_spectrum]⟩,
    by decide, by decide, ?_⟩
  · intro j h1 h2
    interval_cases j <;> simp [valley_spectrum]
  · intro j h1 h2
    rw [reported_iff]
    rintro ⟨-, -, hp⟩
    unfold is_peak at hp
    interval_cases j <;> norm_num [valley_spectrum] at hp

/-- C6 (amended): for a flat plateau `a .. b` inside the scanned range, the
peak rule reports no bin of the plateau after the first, and it reports the
first bin exactly when the bin before the plateau has a strictly smaller
magnitude; so a plateau yields at most one peak, at its first bin. -/
theorem plateau_at_most_one (nfft : Nat) (mag : Nat → R) (a b : Nat)
    (ha : 1 ≤ a) (hb : b ≤ nfft / 2 - 1) (hp : is_plateau mag a b) :
    (∀ j, a < j → j ≤ b → ¬ reported nfft mag j)
    ∧ (reported nfft mag a ↔ mag (a - 1) < mag a) := by
  obtain ⟨hab, hflat, -, -⟩ := hp
  constructor
  · intro j h1 h2
    rw [reported_iff]
    rintro ⟨-, -, hpk, -⟩
    have e1 : mag j = mag a := hflat j (by omega) h2
    have e2 : mag (j - 1) = mag a := hflat (j - 1) (by omega) (by omega)
    rw [e1, e2] at hpk
    exact lt_irrefl _ hpk
  · rw [reported_iff]
    unfold is_peak
    have e1 : mag (a + 1) = mag a := hflat (a + 1) (by omega) (by omega)
    constructor
    · rintro ⟨-, -, hpk, -⟩
      exact hpk
    · intro hlt
      exact ⟨ha, by omega, hlt, by rw [e1]⟩

/-- Witness of C6 (amended): bins 2 and 3 of the sample spectrum. -/
theorem plateau_at_most_one_witness :
    (1 ≤ 2 ∧ 3 ≤ 16 / 2 - 1 ∧ is_plateau sample_spectrum 2 3)
    ∧ ((∀ j, 2 < j → j ≤ 3 → ¬ reported 16 sample_spectrum j)
      ∧ (reported 16 sample_spectrum 2 ↔ sample_spectrum (2 - 1) < sample_spectrum 2)) :=
  have hp : is_plateau sample_spectrum 2 3 :=
    ⟨by decide,
     by intro j h1 h2; interval_cases j <;> simp [sample_spectrum],
     by norm_num [sample_spectrum],
     by norm_num [sample_spectrum]⟩
  ⟨⟨by decide, by decide, hp⟩,
   plateau_at_most_one 16 sample_spectrum 2 3 (by decide) (by decide) hp⟩

end PeakTheorems

/-! ## Spectral transform -/

section TransformTheorems

/-- C7: over the real and complex numbers, with `M_PI` the number pi and
`std::polar(1, theta) = exp(i theta)`, `fft` is a total function that, for a
buffer `x` whose length `n` is 0 or a power of two, returns a buffer of the
same length holding the discrete Fourier transform of `x`: entry `k < n` is the
sum over `j < n` of `x[j] * exp(-2 pi i k j / n)`; a buffer of length 0 or 1
is returned unchanged. -/
theorem fft_computes_dft (P : Numerics ℝ ℂ) (hpi : P.pi = Real.pi)
    (hpolar : ∀ θ : ℝ, P.polar 1 θ = Complex.exp (θ * Complex.I))
    (x : List ℂ) (m : Nat) (hx : x.length = 0 ∨ x.length = 2 ^ m) :
    (fft P x).length = x.length
    ∧ (∀ k, k < x.length →
        (fft P x).getD k 0
          = ∑ j in Finset.range x.length,
              x.getD j 0
                * Complex.exp (-2 * Real.pi * Complex.I * (k : ℂ) * (j : ℂ) / (x.length : ℂ)))
    ∧ (x.length ≤ 1 → fft P x = x) := by
  have htw : ∀ N k : Nat, P.polar 1 (-2 * P.pi * (k : ℝ) / (N : ℝ))
      = (fun (n e : Nat) => Complex.exp (-2 * Real.pi * Complex.I * (e : ℂ) / (n : ℂ))) N k := by
    intro N k
    rw [hpolar, hpi]
    show Complex.exp _ = Complex.exp _
    apply congrArg
    push_cast
    ring
  refine ⟨?_, ?_, fun h => fft_of_length_le_one P x h⟩
  · rcases hx with h0 | hx
    · rw [fft_of_length_le_one P x (by omega)]
    · exact (fft_eq_dft P _ isTwiddle_exp htw m x hx).1
  · intro k hk
    rcases hx with h0 | hx
    · omega
    · rw [(fft_eq_dft P _ isTwiddle_exp htw m x hx).2 k hk]
      unfold dft
      apply Finset.sum_congr rfl
      intro j _
      have harg : -2 * Real.pi * Complex.I * ((k * j : Nat) : ℂ) / (x.length : ℂ)
          = -2 * Real.pi * Complex.I * (k : ℂ) * (j : ℂ) / (x.length : ℂ) := by
        push_cast
        ring
      show x.getD j 0 * Complex.exp _ = x.getD j 0 * Complex.exp _
      rw [harg]

/-- Witness of C7: the real and complex primitives, and a buffer of length 4. -/
theorem fft_computes_dft_witness :
    ((Numerics.mk Real.cos Real.pi (fun r θ => (r : ℂ) * Complex.exp (θ * Complex.I))
        (fun z => Complex.abs z) (fun r => (r : ℂ))).pi = Real.pi
      ∧ (∀ θ : ℝ, (Numerics.mk Real.cos Real.pi
          (fun r θ => (r : ℂ) * Complex.exp (θ * Complex.I))
          (fun z => Complex.abs z) (fun r => (r : ℂ))).polar 1 θ
            = Complex.exp (θ * Complex.I))
      ∧ (([1, 2, 3, 4] : List ℂ).length = 0 ∨ ([1, 2, 3, 4] : List ℂ).length = 2 ^ 2))
    ∧ ((fft (Numerics.mk Real.cos Real.pi (fun r θ => (r : ℂ) * Complex.exp (θ * Complex.I))
          (fun z => Complex.abs z) (fun r => (r : ℂ))) ([1, 2, 3, 4] : List ℂ)).length
        = ([1, 2, 3, 4] : List ℂ).length
      ∧ (∀ k, k < ([1, 2, 3, 4] : List ℂ).length →
          (fft (Numerics.mk Real.cos Real.pi
              (fun r θ => (r : ℂ) * Complex.exp (θ * Complex.I))
              (fun z => Complex.abs z) (fun r => (r : ℂ))) ([1, 2, 3, 4] : List ℂ)).getD k 0
            = ∑ j in Finset.range ([1, 2, 3, 4] : List ℂ).length,
                ([1, 2, 3, 4] : List ℂ).getD j 0
                  * Complex.exp (-2 * Real.pi * Complex.I * (k : ℂ) * (j : ℂ)
                      / (([1, 2, 3, 4] : List ℂ).length : ℂ)))
      ∧ (([1, 2, 3, 4] : List ℂ).length ≤ 1 →
          fft (Numerics.mk Real.cos Real.pi
              (fun r θ => (r : ℂ) * Complex.exp (θ * Complex.I))
              (fun z => Complex.abs z) (fun r => (r : ℂ))) ([1, 2, 3, 4] : List ℂ)
            = [1, 2, 3, 4])) :=
  ⟨⟨rfl, fun θ => by simp, Or.inr (by decide)⟩,
   fft_computes_dft _ rfl (fun θ => by simp) [1, 2, 3, 4] 2 (Or.inr (by decide))⟩

end TransformTheorems

/-! ## Frame count and loudness normalisation -/

section TableTheorems

variable {R : Type} [LinearOrderedField R] {C : Type} [CommRing C]

/-- C8 (defect of the code): for an input of 16777217 samples the conversion of
`data_length` to `float` rounds to 16777216, so `stft_peaks` returns 16384
frames, one fewer than `ceil(16777217 / 1024) = 16385`, and the frames cover
only `16384 * 1024 = 16777216` samples: the last sample falls in no frame. -/
theorem stft_peaks_drops_last_sample (P : Numerics R C) (data : Nat → R) (N : Nat) :
    (stft_peaks P data 16777217 N).length = 16384
    ∧ (16777217 + 1023) / 1024 = 16385
    ∧ (stft_peaks P data 16777217 N).length * hop_size < 16777217 := by
  have h : (stft_peaks P data 16777217 N).length = 16384 := by
    rw [stft_peaks_eq, List.length_map, List.length_range, nframes_16777217]
  rw [h]
  exact ⟨rfl, by decide, by decide⟩

/-- C9 (as stated, refuted): the analysis of a silent recording of one sample
with one voice (over the real and complex numbers) is the table of one frame
that holds the sentinel of amplitude 0; its maximum is 0, every amplitude is
divided by zero, and no table with maximum 1 results. -/
theorem normalize_silent_recording :
    stft_peaks (Numerics.mk Real.cos Real.pi (fun r θ => (r : ℂ) * Complex.exp (θ * Complex.I))
        (fun z => Complex.abs z) (fun r => (r : ℂ))) (fun _ => 0) 1 1
      = [[Entry.mk 24000 0]]
    ∧ ¬ ∃ t, normalize
          (stft_peaks (Numerics.mk Real.cos Real.pi
            (fun r θ => (r : ℂ) * Complex.exp (θ * Complex.I))
            (fun z => Complex.abs z) (fun r => (r : ℂ))) (fun _ => 0) 1 1) 1 = some t
        ∧ max_amp t 1 = 1 := by
  have htab : stft_peaks (Numerics.mk Real.cos Real.pi
        (fun r θ => (r : ℂ) * Complex.exp (θ * Complex.I))
        (fun z => Complex.abs z) (fun r => (r : ℂ))) (fun _ => 0) 1 1
      = [[Entry.mk 24000 0]] := by
    rw [stft_peaks_silent _ (by simp)]
    have h1 : nframes 1 = 1 := by decide
    have h2 : (sentinel : Entry ℝ) = Entry.mk 24000 0 := by
      simp only [sentinel, SAMPLE_RATE]; norm_num
    rw [h1, h2]
    rfl
  refine ⟨htab, ?_⟩
  rw [htab]
  have hmax : max_amp [[Entry.mk (24000 : ℝ) 0]] 1 = 0 := by
    simp [max_amp, entry_at, List.range_succ]
  rintro ⟨t, ht, -⟩
  rw [normalize, hmax, normalize_frames_zero 1 (by decide)] at ht
  exact Option.noConfusion ht

/-- C9 (amended): for every table whose maximum amplitude is not zero, the
normalisation pass produces a table, and the maximum amplitude over all frames
and all `N` voice slots of that table is 1. -/
theorem normalize_max_one (peaks : List (List (Entry R))) (N : Nat)
    (h : max_amp peaks N ≠ 0) :
    ∃ t, normalize peaks N = some t ∧ max_amp t N = 1 := by
  have hpos : 0 < max_amp peaks N := lt_of_le_of_ne (max_amp_nonneg peaks N) (Ne.symm h)
  refine ⟨_, normalize_eq peaks N h, ?_⟩
  rw [max_amp_scale _ hpos, div_self h]

theorem max_amp_sample_table : max_amp sample_table 2 = 4 := by
  norm_num [max_amp, sample_table, entry_at, List.range_succ]

/-- Witness of C9 (amended): the sample table has maximum 4. -/
theorem normalize_max_one_witness :
    max_amp sample_table 2 ≠ 0
    ∧ ∃ t, normalize sample_table 2 = some t ∧ max_amp t 2 = 1 :=
  ⟨by rw [max_amp_sample_table]; norm_num,
   normalize_max_one sample_table 2 (by rw [max_amp_sample_table]; norm_num)⟩

/-- C10 (as stated, refuted): the analysis of a silent recording of 1025 samples
with two voices (over the real and complex numbers) is a table of two frames
that hold only sentinels of amplitude 0; the pass divides zero by zero, so
there is no resulting table whose amplitudes are the old amplitudes divided by
the maximum. -/
theorem normalize_silent_frames :
    stft_peaks (Numerics.mk Real.cos Real.pi (fun r θ => (r : ℂ) * Complex.exp (θ * Complex.I))
        (fun z => Complex.abs z) (fun r => (r : ℂ))) (fun _ => 0) 1025 2
      = [[Entry.mk 24000 0, Entry.mk 24000 0], [Entry.mk 24000 0, Entry.mk 24000 0]]
    ∧ ¬ ∃ t, normalize
          (stft_peaks (Numerics.mk Real.cos Real.pi
            (fun r θ => (r : ℂ) * Complex.exp (θ * Complex.I))
            (fun z => Complex.abs z) (fun r => (r : ℂ))) (fun _ => 0) 1025 2) 2 = some t
        ∧ ∀ i j, j < 2 →
            (table_entry t i j).amplitude
              = (table_entry
                  [[Entry.mk (24000 : ℝ) 0, Entry.mk 24000 0],
                    [Entry.mk 24000 0, Entry.mk 24000 0]] i j).amplitude
                / max_amp
                    [[Entry.mk (24000 : ℝ) 0, Entry.mk 24000 0],
                      [Entry.mk 24000 0, Entry.mk 24000 0]] 2 := by
  have htab : stft_peaks (Numerics.mk Real.cos Real.pi
        (fun r θ => (r : ℂ) * Complex.exp (θ * Complex.I))
        (fun z => Complex.abs z) (fun r => (r : ℂ))) (fun _ => 0) 1025 2
      = [[Entry.mk 24000 0, Entry.mk 24000 0], [Entry.mk 24000 0, Entry.mk 24000 0]] := by
    rw [stft_peaks_silent _ (by simp)]
    have h1 : nframes 1025 = 2 := by decide
    have h2 : (sentinel : Entry ℝ) = Entry.mk 24000 0 := by
      simp only [sentinel, SAMPLE_RATE]; norm_num
    rw [h1, h2]
    rfl
  refine ⟨htab, ?_⟩
  rw [htab]
  have hmax : max_amp [[Entry.mk (24000 : ℝ) 0, Entry.mk 24000 0],
      [Entry.mk 24000 0, Entry.mk 24000 0]] 2 = 0 := by
    simp [max_amp, entry_at, List.range_succ]
  rintro ⟨t, ht, -⟩
  rw [normalize, hmax, normalize_frames_zero 2 (by decide)] at ht
  exact Option.noConfusion ht

/-- C10 (amended): for every table whose maximum amplitude is not zero, the
normalisation pass produces a table `t` with the same number of frames and the
same number of entries in every frame, in which every frequency is unchanged
and every amplitude of a voice slot `j < N` is the old amplitude divided by the
maximum old amplitude of that table; hence old and new amplitudes are
proportional, and the result of a table does not depend on the other table of
the pair. -/
theorem normalize_scales_amplitudes (peaks other other2 : List (List (Entry R))) (N : Nat)
    (h : max_amp peaks N ≠ 0) :
    ∃ t, normalize peaks N = some t
      ∧ t.map List.length = peaks.map List.length
      ∧ (∀ i j, (table_entry t i j).frequency = (table_entry peaks i j).frequency)
      ∧ (∀ i j, j < N →
          (table_entry t i j).amplitude = (table_entry peaks i j).amplitude / max_amp peaks N)
      ∧ (∀ i j k l, j < N → l < N →
          (table_entry t i j).amplitude * (table_entry peaks k l).amplitude
            = (table_entry t k l).amplitude * (table_entry peaks i j).amplitude)
      ∧ (normalize_tables peaks other N).1 = some t
      ∧ (normalize_tables peaks other2 N).1 = some t
      ∧ (normalize_tables other peaks N).2 = some t := by
  have hfreq : ∀ i j, (table_entry (peaks.map (scale_frame (max_amp peaks N) N)) i j).frequency
      = (table_entry peaks i j).frequency := by
    intro i j
    rw [table_entry_scale]
    exact (entry_at_scale_frame _ N _ j).1
  have hamp : ∀ i j, j < N →
      (table_entry (peaks.map (scale_frame (max_amp peaks N) N)) i j).amplitude
        = (table_entry peaks i j).amplitude / max_amp peaks N := by
    intro i j hj
    rw [table_entry_scale]
    exact (entry_at_scale_frame _ N _ j).2 hj
  refine ⟨_, normalize_eq peaks N h, ?_, hfreq, hamp, ?_, normalize_eq peaks N h,
    normalize_eq peaks N h, normalize_eq peaks N h⟩
  · rw [List.map_map]
    apply List.map_congr_left
    intro frame _
    exact length_scale_frame _ N frame
  · intro i j k l hj hl
    rw [hamp i j hj, hamp k l hl]
    ring

/-- Witness of C10 (amended): the sample table has maximum 4. -/
theorem normalize_scales_amplitudes_witness :
    max_amp sample_table 2 ≠ 0
    ∧ ∃ t, normalize sample_table 2 = some t
      ∧ t.map List.length = sample_table.map List.length
      ∧ (∀ i j, (table_entry t i j).frequency = (table_entry sample_table i j).frequency)
      ∧ (∀ i j, j < 2 →
          (table_entry t i j).amplitude
            = (table_entry sample_table i j).amplitude / max_amp sample_table 2)
      ∧ (∀ i j k l, j < 2 → l < 2 →
          (table_entry t i j).amplitude * (table_entry sample_table k l).amplitude
            = (table_entry t k l).amplitude * (table_entry sample_table i j).amplitude)
      ∧ (normalize_tables sample_table silent_table 2).1 = some t
      ∧ (normalize_tables sample_table zero_table 2).1 = some t
      ∧ (normalize_tables silent_table sample_table 2).2 = some t :=
  ⟨by rw [max_amp_sample_table]; norm_num,
   normalize_scales_amplitudes sample_table silent_table zero_table 2
     (by rw [max_amp_sample_table]; norm_num)⟩

end TableTheorems

/-! ## Lemmas: single-precision rounding -/

section RoundingLemmas

variable {R : Type} [LinearOrderedField R] [FloorRing R]

theorem round_even_spec (x : R) : nearest_even x (round_even x) := by
  have h1 : ((⌊x⌋ : Int) : R) ≤ x := Int.floor_le x
  have h2 : x < ((⌊x⌋ : Int) : R) + 1 := Int.lt_floor_add_one x
  unfold round_even nearest_even
  by_cases ha : 2 * (x - (⌊x⌋ : R)) < 1
  · rw [if_pos ha]
    left
    rw [abs_lt]
    constructor <;> linarith
  · rw [if_neg ha]
    by_cases hb : 1 < 2 * (x - (⌊x⌋ : R))
    · rw [if_pos hb]
      left
      push_cast
      rw [abs_lt]
      constructor <;> linarith
    · rw [if_neg hb]
      have heq : 2 * (x - (⌊x⌋ : R)) = 1 := le_antisymm (not_lt.mp hb) (not_lt.mp ha)
      by_cases hc : ⌊x⌋ % 2 = 0
      · rw [if_pos hc]
        right
        refine ⟨?_, hc⟩
        rw [abs_of_nonneg (by linarith)]
        linarith
      · rw [if_neg hc]
        right
        refine ⟨?_, by omega⟩
        push_cast
        rw [abs_of_nonpos (by linarith)]
        linarith

theorem nearest_even_le (x : R) (n : Int) (h : nearest_even x n) : |x - (n : R)| ≤ 1 / 2 := by
  rcases h with h | ⟨h, -⟩
  · exact le_of_lt h
  · exact le_of_eq h

theorem nearest_even_unique (x : R) (n m : Int) (hn : nearest_even x n)
    (hm : nearest_even x m) : n = m := by
  have h1 := nearest_even_le x n hn
  have h2 := nearest_even_le x m hm
  rw [abs_le] at h1 h2
  have h3 : (n : R) - (m : R) ≤ 1 := by linarith
  have h4 : (m : R) - (n : R) ≤ 1 := by linarith
  have h5 : n - m ≤ 1 := by exact_mod_cast h3
  have h6 : m - n ≤ 1 := by exact_mod_cast h4
  by_contra hne
  have hcase : n = m + 1 ∨ m = n + 1 := by omega
  have hstrict : ∀ a b : Int, a = b + 1 → nearest_even x a → nearest_even x b → False := by
    intro a b hab ha hb
    have hab2 : (a : R) = (b : R) + 1 := by exact_mod_cast hab
    rcases ha with ha | ⟨ha, hea⟩
    · have hb2 := nearest_even_le x b hb
      rw [abs_lt] at ha
      rw [abs_le] at hb2
      linarith
    · rcases hb with hb | ⟨hb, heb⟩
      · have ha2 : |x - (a : R)| ≤ 1 / 2 := le_of_eq ha
        rw [abs_lt] at hb
        rw [abs_le] at ha2
        linarith
      · omega
  rcases hcase with h | h
  · exact hstrict n m h hn hm
  · exact hstrict m n h hm hn

theorem round_even_eq (x : R) (n : Int) (h : nearest_even x n) : round_even x = n :=
  nearest_even_unique x _ _ (round_even_spec x) h

theorem round_even_intCast (n : Int) : round_even ((n : Int) : R) = n :=
  round_even_eq _ n (Or.inl (by simp))

theorem round_even_neg (x : R) : round_even (-x) = -round_even x := by
  apply round_even_eq
  rcases round_even_spec x with h | ⟨h, he⟩
  · left
    rw [Int.cast_neg, ← abs_neg]
    simpa [sub_eq_add_neg, add_comm] using h
  · right
    refine ⟨?_, by omega⟩
    rw [Int.cast_neg, ← abs_neg]
    simpa [sub_eq_add_neg, add_comm] using h

theorem round_even_mono (x y : R) (h : x ≤ y) : round_even x ≤ round_even y := by
  by_contra hlt
  have hlt2 : round_even y + 1 ≤ round_even x := by omega
  have hlt3 : ((round_even y : Int) : R) + 1 ≤ ((round_even x : Int) : R) := by
    exact_mod_cast hlt2
  have hx := round_even_spec x
  have hy := round_even_spec y
  have hx2 := nearest_even_le x _ hx
  have hy2 := nearest_even_le y _ hy
  rw [abs_le] at hx2 hy2
  have hxy : x = y := le_antisymm h (by linarith)
  subst hxy
  have := nearest_even_unique x _ _ hx hy
  omega

theorem abs_round_even_sub (x : R) : |x - (round_even x : R)| ≤ 1 / 2 :=
  nearest_even_le x _ (round_even_spec x)

/-- The nearest integer is at most as far as any other integer. -/
theorem round_even_nearest (x : R) (k : Int) :
    |x - (round_even x : R)| ≤ |x - (k : R)| := by
  have h := abs_round_even_sub x
  by_cases hk : k = round_even x
  · rw [hk]
  · have h1 : (1 : R) ≤ |((round_even x : Int) : R) - (k : R)| := by
      have h2 : (1 : Int) ≤ |round_even x - k| := by
        have : round_even x - k ≠ 0 := fun h0 => hk (by omega)
        exact Int.one_le_abs this
      have h3 : ((1 : Int) : R) ≤ ((|round_even x - k| : Int) : R) := by exact_mod_cast h2
      simpa using h3
    have h4 : |((round_even x : Int) : R) - (k : R)|
        ≤ |x - (round_even x : R)| + |x - (k : R)| := by
      have := abs_sub_le ((round_even x : Int) : R) x (k : R)
      rw [abs_sub_comm ((round_even x : Int) : R) x] at this
      exact this
    linarith

theorem two_zpow_pos (e : Int) : (0 : R) < (2 : R) ^ e := zpow_pos (by norm_num) e

theorem two_zpow_log_le (x : R) (hx : 0 < x) : (2 : R) ^ Int.log 2 x ≤ x := by
  have h := @Int.zpow_log_le_self R _ _ 2 x (by norm_num) hx
  simpa using h

theorem lt_two_zpow_log (x : R) : x < (2 : R) ^ (Int.log 2 x + 1) := by
  have h := @Int.lt_zpow_succ_log_self R _ _ 2 (by norm_num) x
  simpa using h

theorem log_two_eq (x : R) (e : Int) (h1 : (2 : R) ^ e ≤ x) (h2 : x < (2 : R) ^ (e + 1)) :
    Int.log 2 x = e := by
  have hx : 0 < x := lt_of_lt_of_le (two_zpow_pos e) h1
  have ha : e ≤ Int.log 2 x := by
    have := (@Int.zpow_le_iff_le_log R _ _ 2 (by norm_num) e x hx).mp (by simpa using h1)
    exact this
  have hb : Int.log 2 x < e + 1 := by
    have := (@Int.lt_zpow_iff_log_lt R _ _ 2 (by norm_num) (e + 1) x hx).mp (by simpa using h2)
    exact this
  omega

/-- The value scaled by its unit in the last place has 24 bits. -/
theorem scaled_bounds (x : R) (hx : 0 < x) :
    (8388608 : R) ≤ x / (2 : R) ^ ulp_exponent x
    ∧ x / (2 : R) ^ ulp_exponent x < (16777216 : R) := by
  have hu : (0 : R) < (2 : R) ^ ulp_exponent x := two_zpow_pos _
  have h1 := two_zpow_log_le x hx
  have h2 := lt_two_zpow_log x
  have hlog : Int.log 2 |x| = Int.log 2 x := by rw [abs_of_pos hx]
  have h23 : (2 : R) ^ (23 : Int) = 8388608 := by norm_num
  have h24 : (2 : R) ^ (24 : Int) = 16777216 := by norm_num
  have e1 : (2 : R) ^ Int.log 2 x = (8388608 : R) * (2 : R) ^ ulp_exponent x := by
    rw [← h23, ← zpow_add₀ (by norm_num : (2 : R) ≠ 0), ulp_exponent, hlog]
    congr 1
    ring
  have e2 : (2 : R) ^ (Int.log 2 x + 1) = (16777216 : R) * (2 : R) ^ ulp_exponent x := by
    rw [← h24, ← zpow_add₀ (by norm_num : (2 : R) ≠ 0), ulp_exponent, hlog]
    congr 1
    ring
  constructor
  · rw [le_div_iff₀ hu, ← e1]
    exact h1
  · rw [div_lt_iff₀ hu, ← e2]
    exact h2

theorem to_float_zero : to_float (0 : R) = 0 := by
  simp [to_float]

theorem ulp_exponent_neg (x : R) : ulp_exponent (-x) = ulp_exponent x := by
  simp [ulp_exponent]

theorem to_float_neg (x : R) : to_float (-x) = -to_float x := by
  by_cases hx : x = 0
  · subst hx
    simp [to_float_zero]
  · have hx2 : -x ≠ 0 := neg_ne_zero.mpr hx
    simp only [to_float, if_neg hx, if_neg hx2, ulp_exponent_neg, neg_div, round_even_neg]
    push_cast
    ring

/-- The significand of the `float` nearest to a positive value. -/
theorem significand_bounds (x : R) (hx : 0 < x) :
    8388608 ≤ round_even (x / (2 : R) ^ ulp_exponent x)
    ∧ round_even (x / (2 : R) ^ ulp_exponent x) ≤ 16777216 := by
  obtain ⟨h1, h2⟩ := scaled_bounds x hx
  have a := round_even_mono _ _ h1
  have b := round_even_mono _ _ (le_of_lt h2)
  have c1 : round_even (8388608 : R) = 8388608 := by
    have := @round_even_intCast R _ _ 8388608
    simpa using this
  have c2 : round_even (16777216 : R) = 16777216 := by
    have := @round_even_intCast R _ _ 16777216
    simpa using this
  rw [c1] at a
  rw [c2] at b
  exact ⟨a, b⟩

theorem to_float_of_pos (x : R) (hx : 0 < x) :
    to_float x = (round_even (x / (2 : R) ^ ulp_exponent x) : R) * (2 : R) ^ ulp_exponent x := by
  simp [to_float, ne_of_gt hx]

theorem to_float_pos (x : R) (hx : 0 < x) : 0 < to_float x := by
  rw [to_float_of_pos x hx]
  have h := (significand_bounds x hx).1
  have h2 : (0 : R) < (round_even (x / (2 : R) ^ ulp_exponent x) : R) := by
    have : (0 : Int) < round_even (x / (2 : R) ^ ulp_exponent x) :=
      lt_of_lt_of_le (by norm_num) h
    exact_mod_cast this
  exact mul_pos h2 (two_zpow_pos _)

theorem to_float_nonneg (x : R) (hx : 0 ≤ x) : 0 ≤ to_float x := by
  rcases eq_or_lt_of_le hx with h | h
  · rw [← h, to_float_zero]
  · exact le_of_lt (to_float_pos x h)

theorem to_float_ne_zero (x : R) (hx : x ≠ 0) : to_float x ≠ 0 := by
  rcases lt_or_gt_of_ne hx with h | h
  · have := to_float_pos (-x) (by linarith)
    rw [to_float_neg] at this
    linarith
  · exact ne_of_gt (to_float_pos x h)

/-- A value `m * 2^k` with a significand `m` below `2^24` is a `float`. -/
theorem to_float_exact (m k : Int) (hm : |m| < 16777216) :
    to_float ((m : R) * (2 : R) ^ k) = (m : R) * (2 : R) ^ k := by
  have hsym : ∀ m : Int, 0 < m → m < 16777216 →
      to_float ((m : R) * (2 : R) ^ k) = (m : R) * (2 : R) ^ k := by
    intro m hm0 hm1
    have hmR : (0 : R) < (m : R) := by exact_mod_cast hm0
    have hx : (0 : R) < (m : R) * (2 : R) ^ k := mul_pos hmR (two_zpow_pos k)
    have hlt : (m : R) * (2 : R) ^ k < (2 : R) ^ (k + 24) := by
      rw [zpow_add₀ (by norm_num : (2 : R) ≠ 0), mul_comm ((2 : R) ^ k)]
      apply mul_lt_mul_of_pos_right _ (two_zpow_pos k)
      have h24 : (2 : R) ^ (24 : Int) = 16777216 := by norm_num
      rw [h24]
      exact_mod_cast hm1
    have hlog : Int.log 2 ((m : R) * (2 : R) ^ k) < k + 24 :=
      (@Int.lt_zpow_iff_log_lt R _ _ 2 (by norm_num) (k + 24) _ hx).mp (by simpa using hlt)
    have hE : ulp_exponent ((m : R) * (2 : R) ^ k) ≤ k := by
      rw [ulp_exponent, abs_of_pos hx]
      omega
    obtain ⟨d, hd⟩ : ∃ d : Nat, k = ulp_exponent ((m : R) * (2 : R) ^ k) + (d : Int) :=
      ⟨(k - ulp_exponent ((m : R) * (2 : R) ^ k)).toNat, by omega⟩
    have hscaled : (m : R) * (2 : R) ^ k / (2 : R) ^ ulp_exponent ((m : R) * (2 : R) ^ k)
        = ((m * 2 ^ d : Int) : R) := by
      rw [eq_comm, eq_div_iff (ne_of_gt (two_zpow_pos _))]
      push_cast
      rw [mul_assoc, ← zpow_natCast, ← zpow_add₀ (by norm_num : (2 : R) ≠ 0)]
      congr 2
      omega
    rw [to_float_of_pos _ hx, hscaled, round_even_intCast]
    push_cast
    rw [mul_assoc, ← zpow_natCast, ← zpow_add₀ (by norm_num : (2 : R) ≠ 0)]
    congr 2
    omega
  rcases lt_trichotomy m 0 with h | h | h
  · have h1 := hsym (-m) (by omega) (by rw [abs_of_neg h] at hm; exact hm)
    have h2 : ((-m : Int) : R) * (2 : R) ^ k = -((m : R) * (2 : R) ^ k) := by
      push_cast
      ring
    rw [h2, to_float_neg] at h1
    linarith
  · subst h
    simp [to_float_zero]
  · exact hsym m h (by rw [abs_of_pos h] at hm; exact hm)

theorem to_float_intCast (n : Int) (hn : |n| ≤ 16777216) : to_float ((n : Int) : R) = n := by
  rcases lt_or_eq_of_le hn with h | h
  · have := @to_float_exact R _ _ n 0 h
    simpa using this
  · have hn2 : n = 8388608 * 2 ∨ n = -8388608 * 2 := by
      rcases abs_cases n with ⟨h1, -⟩ | ⟨h1, -⟩ <;> omega
    rcases hn2 with rfl | rfl
    · have := @to_float_exact R _ _ 8388608 1 (by norm_num)
      norm_num at this ⊢
      exact this
    · have := @to_float_exact R _ _ (-8388608) 1 (by norm_num)
      norm_num at this ⊢
      exact this

theorem to_float_natCast (n : Nat) (hn : n ≤ 16777216) : to_float ((n : Nat) : R) = n := by
  have := @to_float_intCast R _ _ (n : Int) (by rw [abs_of_nonneg (by omega)]; omega)
  simpa using this

theorem to_float_one : to_float (1 : R) = 1 := by
  have := @to_float_natCast R _ _ 1 (by norm_num)
  simpa using this

/-- The conversion of a positive value, from its binade and the nearest
integer of the scaled value. -/
theorem to_float_eq_of (x : R) (e m : Int) (h1 : (2 : R) ^ (e + 23) ≤ x)
    (h2 : x < (2 : R) ^ (e + 24)) (hm : nearest_even (x / (2 : R) ^ e) m) :
    to_float x = (m : R) * (2 : R) ^ e := by
  have hx : 0 < x := lt_of_lt_of_le (two_zpow_pos _) h1
  have hlog : Int.log 2 x = e + 23 := log_two_eq x (e + 23) h1 (by
    have : e + 23 + 1 = e + 24 := by ring
    rw [this]
    exact h2)
  have hE : ulp_exponent x = e := by
    rw [ulp_exponent, abs_of_pos hx, hlog]
    ring
  rw [to_float_of_pos x hx, hE, round_even_eq _ m hm]

/-- A `float` is idempotent under the conversion. -/
theorem to_float_idem (x : R) : to_float (to_float x) = to_float x := by
  have hpos : ∀ x : R, 0 < x → to_float (to_float x) = to_float x := by
    intro x hx
    obtain ⟨h1, h2⟩ := significand_bounds x hx
    rw [to_float_of_pos x hx]
    rcases lt_or_eq_of_le h2 with h | h
    · exact to_float_exact _ _ (by rw [abs_of_nonneg (by omega)]; exact h)
    · rw [h]
      have := @to_float_exact R _ _ 8388608 (ulp_exponent x + 1) (by norm_num)
      have e : ((16777216 : Int) : R) * (2 : R) ^ ulp_exponent x
          = ((8388608 : Int) : R) * (2 : R) ^ (ulp_exponent x + 1) := by
        rw [zpow_add₀ (by norm_num : (2 : R) ≠ 0)]
        push_cast
        ring
      rw [e]
      exact this
  rcases lt_trichotomy x 0 with h | h | h
  · have := hpos (-x) (by linarith)
    rw [to_float_neg, to_float_neg] at this
    linarith
  · subst h
    rw [to_float_zero, to_float_zero]
  · exact hpos x h

/-- The conversion gives a nearest `float`: no `float` is nearer. -/
theorem to_float_nearest (y g : R) (hg : to_float g = g) :
    |to_float y - y| ≤ |g - y| := by
  have hpos : ∀ y g : R, 0 < y → to_float g = g → |to_float y - y| ≤ |g - y| := by
    intro y g hy hg
    have hu : (0 : R) < (2 : R) ^ ulp_exponent y := two_zpow_pos _
    obtain ⟨hz1, hz2⟩ := scaled_bounds y hy
    have hfy : to_float y - y
        = ((round_even (y / (2 : R) ^ ulp_exponent y) : R) - y / (2 : R) ^ ulp_exponent y)
          * (2 : R) ^ ulp_exponent y := by
      rw [to_float_of_pos y hy]
      field_simp
    have hkey : ∀ k : Int, |to_float y - y|
        ≤ |(k : R) * (2 : R) ^ ulp_exponent y - y| := by
      intro k
      have hk : (k : R) * (2 : R) ^ ulp_exponent y - y
          = ((k : R) - y / (2 : R) ^ ulp_exponent y) * (2 : R) ^ ulp_exponent y := by
        field_simp
      rw [hfy, hk, abs_mul, abs_mul, abs_sub_comm (round_even _ : R), abs_sub_comm (k : R)]
      exact mul_le_mul_of_nonneg_right (round_even_nearest _ k) (abs_nonneg _)
    rcases lt_or_le g ((8388608 : R) * (2 : R) ^ ulp_exponent y) with hlo | hlo
    · have h1 := hkey 8388608
      have h2 : (8388608 : R) * (2 : R) ^ ulp_exponent y ≤ y := by
        rw [← le_div_iff₀ hu]
        exact hz1
      push_cast at h1
      have e1 : |(8388608 : R) * (2 : R) ^ ulp_exponent y - y|
          = y - (8388608 : R) * (2 : R) ^ ulp_exponent y := by
        rw [abs_of_nonpos (by linarith)]
        ring
      have e2 : |g - y| = y - g := by
        rw [abs_of_nonpos (by linarith)]
        ring
      rw [e1] at h1
      rw [e2]
      linarith
    · rcases lt_or_le g ((16777216 : R) * (2 : R) ^ ulp_exponent y) with hhi | hhi
      · have hgpos : 0 < g := lt_of_lt_of_le (mul_pos (by norm_num) hu) hlo
        have h23 : (2 : R) ^ (23 : Int) = 8388608 := by norm_num
        have h24 : (2 : R) ^ (24 : Int) = 16777216 := by norm_num
        have hlogg : Int.log 2 g = ulp_exponent y + 23 := by
          apply log_two_eq
          · rw [zpow_add₀ (by norm_num : (2 : R) ≠ 0), h23, mul_comm]
            exact hlo
          · have : ulp_exponent y + 23 + 1 = ulp_exponent y + 24 := by ring
            rw [this, zpow_add₀ (by norm_num : (2 : R) ≠ 0), h24, mul_comm]
            exact hhi
        have hEg : ulp_exponent g = ulp_exponent y := by
          rw [ulp_exponent, abs_of_pos hgpos, hlogg]
          ring
        have hgform := to_float_of_pos g hgpos
        rw [hg, hEg] at hgform
        rw [hgform]
        exact hkey _
      · have h1 := hkey 16777216
        have h2 : y < (16777216 : R) * (2 : R) ^ ulp_exponent y := by
          rw [← div_lt_iff₀ hu]
          exact hz2
        push_cast at h1
        have e1 : |(16777216 : R) * (2 : R) ^ ulp_exponent y - y|
            = (16777216 : R) * (2 : R) ^ ulp_exponent y - y :=
          abs_of_nonneg (by linarith)
        have e2 : |g - y| = g - y := abs_of_nonneg (by linarith)
        rw [e1] at h1
        rw [e2]
        linarith
  rcases lt_trichotomy y 0 with h | h | h
  · have := hpos (-y) (-g) (by linarith) (by rw [to_float_neg, hg])
    rw [to_float_neg] at this
    have e1 : -to_float y - -y = -(to_float y - y) := by ring
    have e2 : -g - -y = -(g - y) := by ring
    rw [e1, e2, abs_neg, abs_neg] at this
    exact this
  · subst h
    rw [to_float_zero]
    simp
  · exact hpos y g h hg

/-- The conversion is monotone. -/
theorem to_float_mono (x y : R) (h : x ≤ y) : to_float x ≤ to_float y := by
  by_contra hlt
  have hlt2 : to_float y < to_float x := not_le.mp hlt
  have h1 := to_float_nearest x (to_float y) (to_float_idem y)
  have h2 := to_float_nearest y (to_float x) (to_float_idem x)
  have hxy : x = y := by
    rcases abs_cases (to_float x - x) with ⟨e1, s1⟩ | ⟨e1, s1⟩ <;>
    rcases abs_cases (to_float y - x) with ⟨e2, s2⟩ | ⟨e2, s2⟩ <;>
    rcases abs_cases (to_float y - y) with ⟨e3, s3⟩ | ⟨e3, s3⟩ <;>
    rcases abs_cases (to_float x - y) with ⟨e4, s4⟩ | ⟨e4, s4⟩ <;>
    rw [e1, e2] at h1 <;> rw [e3, e4] at h2 <;> linarith
  subst hxy
  exact lt_irrefl _ hlt2

theorem to_float_le (x g : R) (h : x ≤ g) (hg : to_float g = g) : to_float x ≤ g := by
  rw [← hg]
  exact to_float_mono x g h

theorem le_to_float (x g : R) (h : g ≤ x) (hg : to_float g = g) : g ≤ to_float x := by
  rw [← hg]
  exact to_float_mono g x h

/-- The integer part of a non-negative `float` is a `float`. -/
theorem to_float_floor (x : R) (hx : 0 ≤ x) (hf : to_float x = x) :
    to_float ((⌊x⌋ : Int) : R) = ((⌊x⌋ : Int) : R) := by
  rcases lt_or_le x 16777216 with h | h
  · apply to_float_intCast
    have h0 : 0 ≤ ⌊x⌋ := Int.floor_nonneg.mpr hx
    have h1 : ⌊x⌋ < 16777216 := by
      rw [Int.floor_lt]
      exact_mod_cast h
    rw [abs_of_nonneg h0]
    omega
  · have hpos : 0 < x := lt_of_lt_of_le (by norm_num) h
    have h24 : (2 : R) ^ (24 : Int) = 16777216 := by norm_num
    have hlog : 24 ≤ Int.log 2 x :=
      (@Int.zpow_le_iff_le_log R _ _ 2 (by norm_num) 24 x hpos).mp (by
        have : ((2 : Nat) : R) ^ (24 : Int) = 16777216 := by norm_num
        rw [this]
        exact h)
    obtain ⟨d, hd⟩ : ∃ d : Nat, ulp_exponent x = (d : Int) :=
      ⟨(ulp_exponent x).toNat, by rw [ulp_exponent, abs_of_pos hpos]; omega⟩
    have hform := to_float_of_pos x hpos
    rw [hf, hd, zpow_natCast] at hform
    have hint : x = ((round_even (x / (2 : R) ^ (d : Int)) * 2 ^ d : Int) : R) := by
      push_cast
      rw [zpow_natCast]
      exact hform
    have hfl : ((⌊x⌋ : Int) : R) = x := by
      rw [hint, Int.floor_intCast]
    rw [hfl]
    exact hf

/-- A value below the midpoint of 24000 and the next `float` converts to at
most 24000. -/
theorem to_float_le_24000 (x : R) (h : x < 24000 + 1 / 1024) : to_float x ≤ 24000 := by
  have hex : to_float (24000 : R) = 24000 := by
    have := @to_float_natCast R _ _ 24000 (by norm_num)
    simpa using this
  rcases le_or_lt x 24000 with h1 | h1
  · exact to_float_le x 24000 h1 hex
  · have hp : (2 : R) ^ (-9 : Int) = 1 / 512 := by norm_num
    have := to_float_eq_of x (-9) 12288000 (by norm_num; linarith) (by norm_num; linarith)
      (by
        left
        rw [hp, abs_lt]
        constructor
        · push_cast
          linarith
        · push_cast
          linarith)
    rw [this, hp]
    norm_num

/-- A value below the midpoint of 1 and the next `float` converts to at most 1. -/
theorem to_float_le_one (x : R) (h : x < 1 + 1 / 16777216) : to_float x ≤ 1 := by
  rcases le_or_lt x 1 with h1 | h1
  · exact to_float_le x 1 h1 to_float_one
  · have hp : (2 : R) ^ (-23 : Int) = 1 / 8388608 := by norm_num
    have := to_float_eq_of x (-23) 8388608 (by norm_num; linarith) (by norm_num; linarith)
      (by
        left
        rw [hp, abs_lt]
        constructor
        · push_cast
          linarith
        · push_cast
          linarith)
    rw [this, hp]
    norm_num

/-- Adding at most 1 to `2^24` does not change the `float`. -/
theorem to_float_le_16777216 (x : R) (h : x ≤ 16777217) : to_float x ≤ 16777216 := by
  have hex : to_float (16777216 : R) = 16777216 := by
    have := @to_float_natCast R _ _ 16777216 (by norm_num)
    simpa using this
  rcases le_or_lt x 16777216 with h1 | h1
  · exact to_float_le x 16777216 h1 hex
  · have hp : (2 : R) ^ (1 : Int) = 2 := by norm_num
    have := to_float_eq_of x 1 8388608 (by norm_num; linarith) (by norm_num; linarith)
      (by
        rw [hp]
        rcases lt_or_eq_of_le h with h2 | h2
        · left
          rw [abs_lt]
          constructor
          · push_cast
            linarith
          · push_cast
            linarith
        · right
          refine ⟨?_, by norm_num⟩
          rw [h2]
          norm_num)
    rw [this, hp]
    norm_num

/-- On `[0, 1]` the conversion moves a value by at most `2^-25`. -/
theorem to_float_unit_error (x : R) (h0 : 0 ≤ x) (h1 : x ≤ 1) :
    to_float x ≤ x + 1 / 33554432 ∧ x - 1 / 33554432 ≤ to_float x := by
  rcases eq_or_lt_of_le h0 with h | hpos
  · rw [← h, to_float_zero]
    constructor <;> norm_num
  rcases eq_or_lt_of_le h1 with h | hlt
  · rw [h, to_float_one]
    constructor <;> norm_num
  have hu : (0 : R) < (2 : R) ^ ulp_exponent x := two_zpow_pos _
  have hlog : Int.log 2 x < 0 :=
    (@Int.lt_zpow_iff_log_lt R _ _ 2 (by norm_num) 0 x hpos).mp (by simpa using hlt)
  have hE : ulp_exponent x ≤ -24 := by
    rw [ulp_exponent, abs_of_pos hpos]
    omega
  have hule : (2 : R) ^ ulp_exponent x ≤ 1 / 16777216 := by
    have := zpow_le_zpow_right₀ (by norm_num : (1 : R) ≤ 2) hE
    have hp : (2 : R) ^ (-24 : Int) = 1 / 16777216 := by norm_num
    rw [hp] at this
    exact this
  have herr := abs_round_even_sub (x / (2 : R) ^ ulp_exponent x)
  have hfx : to_float x - x
      = ((round_even (x / (2 : R) ^ ulp_exponent x) : R) - x / (2 : R) ^ ulp_exponent x)
        * (2 : R) ^ ulp_exponent x := by
    rw [to_float_of_pos x hpos]
    field_simp
  rw [abs_le] at herr
  constructor
  · have : to_float x - x ≤ 1 / 2 * (2 : R) ^ ulp_exponent x := by
      rw [hfx]
      apply mul_le_mul_of_nonneg_right _ (le_of_lt hu)
      linarith
    linarith
  · have : -(1 / 2 * (2 : R) ^ ulp_exponent x) ≤ to_float x - x := by
      rw [hfx, ← neg_mul]
      apply mul_le_mul_of_nonneg_right _ (le_of_lt hu)
      linarith
    linarith

end RoundingLemmas

/-! ## Lemmas: oscillator and frame indices -/

section EngineLemmas

variable {R : Type} [LinearOrderedField R] [FloorRing R]

theorem cast_int_of_nonneg (x : R) (h : 0 ≤ x) : cast_int x = ⌊x⌋ := by
  simp [cast_int, h]

theorem cast_int_nonneg (x : R) (h : 0 ≤ x) : 0 ≤ cast_int x := by
  rw [cast_int_of_nonneg x h]
  exact Int.floor_nonneg.mpr h

/-- The clamped indices are valid frame indices, whatever the frame position. -/
theorem frame_indices_bounds (frame_limit : Nat) (frac_ind : R) (hfl : 1 ≤ frame_limit)
    (hfrac : 0 ≤ frac_ind) :
    0 ≤ (frame_indices frame_limit frac_ind).1
    ∧ (frame_indices frame_limit frac_ind).1 ≤ (frame_indices frame_limit frac_ind).2
    ∧ (frame_indices frame_limit frac_ind).2 ≤ (frame_limit : Int) - 1
    ∧ ((frame_indices frame_limit frac_ind).2 = (frame_indices frame_limit frac_ind).1
      ∨ (frame_indices frame_limit frac_ind).2 = (frame_indices frame_limit frac_ind).1 + 1) := by
  have h0 := cast_int_nonneg frac_ind hfrac
  have hfl2 : (1 : Int) ≤ (frame_limit : Int) := by exact_mod_cast hfl
  simp only [frame_indices]
  generalize cast_int frac_ind = low at h0
  by_cases h1 : low ≥ (frame_limit : Int)
  · have h2 : low + 1 ≥ (frame_limit : Int) := by omega
    simp only [if_pos h1, if_pos h2]
    refine ⟨?_, ?_, ?_, ?_⟩ <;> first | omega | simp
  · by_cases h2 : low + 1 ≥ (frame_limit : Int)
    · simp only [if_neg h1, if_pos h2]
      refine ⟨?_, ?_, ?_, ?_⟩ <;> omega
    · simp only [if_neg h1, if_neg h2]
      refine ⟨?_, ?_, ?_, ?_⟩ <;> first | omega | simp

/-- The frame position of sample `s` in exact arithmetic is `s / 1024`. -/
theorem frame_position_exact (frame_limit s : Nat) (hfl : 1 ≤ frame_limit) :
    fdiv (s : R) ((frame_limit * 1024 : Nat) : R) = some ((s : R) / ((frame_limit * 1024 : Nat) : R))
    ∧ (s : R) / ((frame_limit * 1024 : Nat) : R) * (frame_limit : R) = (s : R) / 1024 := by
  have hne : ((frame_limit : R)) ≠ 0 := by
    have : frame_limit ≠ 0 := by omega
    exact_mod_cast this
  constructor
  · have : ((frame_limit * 1024 : Nat) : R) ≠ 0 := by
      push_cast
      exact mul_ne_zero hne (by norm_num)
    rw [fdiv, if_neg this]
  · push_cast
    field_simp
    ring

theorem cast_int_div_1024 (s : Nat) : cast_int ((s : R) / 1024) = ((s / 1024 : Nat) : Int) := by
  have h0 : (0 : R) ≤ (s : R) / 1024 := by positivity
  rw [cast_int_of_nonneg _ h0]
  have : ((s : R) / 1024) = ((s : R) / ((1024 : Nat) : R)) := by norm_num
  rw [this, ← Nat.floor_div_eq_div (α := R), ← Int.natCast_floor_eq_floor]
  positivity

/-- One call of the oscillator with an increment in `[0, 1]`. -/
theorem phasor_step (ph : Phasor R) (hp0 : 0 ≤ ph.phase) (hp1 : ph.phase < 1)
    (hi0 : 0 ≤ ph.increment) (hi1 : ph.increment ≤ 1) :
    ph.operator_call.1 = ph.phase
    ∧ ph.operator_call.2.phase = Int.fract (ph.phase + ph.increment)
    ∧ 0 ≤ ph.operator_call.2.phase ∧ ph.operator_call.2.phase < 1
    ∧ ph.operator_call.2.increment = ph.increment := by
  have hfr : (if ph.phase + ph.increment ≥ 1 then ph.phase + ph.increment - 1
      else ph.phase + ph.increment) = Int.fract (ph.phase + ph.increment) := by
    symm
    rw [Int.fract_eq_iff]
    by_cases h : ph.phase + ph.increment ≥ 1
    · rw [if_pos h]
      refine ⟨by linarith, by linarith, 1, by push_cast; ring⟩
    · rw [if_neg h]
      refine ⟨by linarith, by linarith [not_le.mp h], 0, by push_cast; ring⟩
  refine ⟨rfl, hfr, ?_, ?_, rfl⟩
  · show 0 ≤ (if ph.phase + ph.increment ≥ 1 then ph.phase + ph.increment - 1
      else ph.phase + ph.increment)
    rw [hfr]; exact Int.fract_nonneg _
  · show (if ph.phase + ph.increment ≥ 1 then ph.phase + ph.increment - 1
      else ph.phase + ph.increment) < 1
    rw [hfr]; exact Int.fract_lt_one _

/-- The table indices read by `sine(p)` for a phase `p` in `[0, 1)`. -/
theorem sine_indices_bounds (n : Nat) (hn : 0 < n) (p : R) (hp0 : 0 ≤ p) (hp1 : p < 1) :
    (sine_indices (n : Int) p).1 = ⌊p * (n : R)⌋
    ∧ 0 ≤ (sine_indices (n : Int) p).1 ∧ (sine_indices (n : Int) p).1 ≤ (n : Int) - 1
    ∧ (sine_indices (n : Int) p).2 = ((sine_indices (n : Int) p).1 + 1) % (n : Int)
    ∧ 0 ≤ (sine_indices (n : Int) p).2 ∧ (sine_indices (n : Int) p).2 ≤ (n : Int) - 1 := by
  have hn0 : (0 : R) < (n : R) := by exact_mod_cast hn
  have hpn : 0 ≤ p * (n : R) := mul_nonneg hp0 (le_of_lt hn0)
  have hlt : p * (n : R) < (n : R) := by
    have := mul_lt_mul_of_pos_right hp1 hn0
    simpa using this
  have ha : cast_int (p * ((n : Int) : R)) = ⌊p * (n : R)⌋ := by
    rw [Int.cast_natCast, cast_int_of_nonneg _ hpn]
  have ha0 : 0 ≤ ⌊p * (n : R)⌋ := Int.floor_nonneg.mpr hpn
  have ha1 : ⌊p * (n : R)⌋ < (n : Int) := by
    rw [Int.floor_lt]
    exact_mod_cast hlt
  simp only [sine_indices, ha]
  generalize ⌊p * (n : R)⌋ = a at ha0 ha1
  have hn1 : (0 : Int) < (n : Int) := by exact_mod_cast hn
  by_cases hb : 1 + a = (n : Int)
  · have hmod : (a + 1) % (n : Int) = 0 := by
      rw [show a + 1 = (n : Int) from by omega]
      exact Int.emod_self
    simp only [if_pos hb, hmod]
    refine ⟨trivial, ha0, ?_, trivial, le_refl _, ?_⟩ <;> omega
  · have hmod : (a + 1) % (n : Int) = a + 1 := Int.emod_eq_of_lt (by omega) (by omega)
    simp only [if_neg hb, hmod]
    refine ⟨trivial, ha0, ?_, ?_, ?_, ?_⟩ <;> omega

theorem list_at_of_bounds {α : Type} (v : List α) (i : Int) (h0 : 0 ≤ i)
    (h1 : i ≤ (v.length : Int) - 1) : ∃ x, list_at v i = some x ∧ x ∈ v := by
  have hlt : i.toNat < v.length := by omega
  refine ⟨v[i.toNat], ?_, List.getElem_mem _⟩
  simp [list_at, h0, List.getElem?_eq_getElem hlt]

/-- For a phase in `[0, 1)` the lookup succeeds, and its value is a convex
combination of two entries of the table. -/
theorem sine_convex (table : List R) (hn : 0 < table.length) (p : R) (hp0 : 0 ≤ p)
    (hp1 : p < 1) :
    ∃ x y t, sine table p = some ((1 - t) * x + t * y) ∧ x ∈ table ∧ y ∈ table
      ∧ 0 ≤ t ∧ t < 1 := by
  obtain ⟨ha, ha0, ha1, -, hb0, hb1⟩ := sine_indices_bounds table.length hn p hp0 hp1
  obtain ⟨x, hx, hxm⟩ := list_at_of_bounds table _ ha0 ha1
  obtain ⟨y, hy, hym⟩ := list_at_of_bounds table _ hb0 hb1
  refine ⟨x, y, p * ((table.length : Int) : R) - ((sine_indices (table.length : Int) p).1 : R),
    ?_, hxm, hym, ?_, ?_⟩
  · simp only [sine, hx, hy]
  · rw [ha, Int.cast_natCast]
    exact Int.fract_nonneg _
  · rw [ha, Int.cast_natCast]
    exact Int.fract_lt_one _

/-- The lookup of a phase in `[0, 1)` in a table with entries in `[-1, 1]`. -/
theorem sine_bounded (table : List R) (hn : 0 < table.length)
    (htab : ∀ x ∈ table, -1 ≤ x ∧ x ≤ 1) (p : R) (hp0 : 0 ≤ p) (hp1 : p < 1) :
    ∃ v, sine table p = some v ∧ -1 ≤ v ∧ v ≤ 1 := by
  obtain ⟨x, y, t, hs, hx, hy, ht0, ht1⟩ := sine_convex table hn p hp0 hp1
  have hx2 := htab x hx
  have hy2 := htab y hy
  refine ⟨_, hs, ?_, ?_⟩
  · nlinarith [mul_nonneg (sub_nonneg.mpr (le_of_lt ht1)) (by linarith : 0 ≤ x + 1),
      mul_nonneg ht0 (by linarith : 0 ≤ y + 1)]
  · nlinarith [mul_nonneg (sub_nonneg.mpr (le_of_lt ht1)) (by linarith : 0 ≤ 1 - x),
      mul_nonneg ht0 (by linarith : 0 ≤ 1 - y)]

/-- The indices of sample `s < frame_limit * 1024` in exact arithmetic. -/
theorem frame_indices_exact (frame_limit s : Nat) (hs : s < frame_limit * 1024) :
    frame_indices frame_limit ((s : R) / 1024)
      = (((s / 1024 : Nat) : Int), ((min (s / 1024 + 1) (frame_limit - 1) : Nat) : Int)) := by
  have hlow : s / 1024 < frame_limit := by omega
  simp only [frame_indices, cast_int_div_1024]
  have h1 : ¬ (((s / 1024 : Nat) : Int) ≥ (frame_limit : Int)) := by omega
  rw [if_neg h1]
  by_cases h2 : ((s / 1024 : Nat) : Int) + 1 ≥ (frame_limit : Int)
  · rw [if_pos h2]
    have : min (s / 1024 + 1) (frame_limit - 1) = frame_limit - 1 := by omega
    rw [this]
    congr 1
    omega
  · rw [if_neg h2]
    have : min (s / 1024 + 1) (frame_limit - 1) = s / 1024 + 1 := by omega
    rw [this]
    congr 1

theorem getD_eq_of_getElem? {α : Type} (l : List α) (i : Nat) (d x : α) (h : l[i]? = some x) :
    l.getD i d = x := by
  simp [List.getD, h]

theorem getElem?_getD_of_lt {α : Type} (l : List α) (i : Nat) (d : α) (h : i < l.length) :
    l[i]? = some (l.getD i d) ∧ l.getD i d ∈ l := by
  have h1 : l[i]? = some l[i] := List.getElem?_eq_getElem h
  rw [getD_eq_of_getElem? l i d _ h1]
  exact ⟨h1, List.getElem_mem _⟩

theorem next_s_lt (s s_limit : Nat) (h : s < s_limit) : next_s s s_limit < s_limit := by
  unfold next_s
  split <;> omega

theorem next_s_eq_mod (s s_limit : Nat) (h : s < s_limit) :
    next_s s s_limit = (s + 1) % s_limit := by
  unfold next_s
  split
  · next h1 => rw [h1, Nat.mod_self]
  · rw [Nat.mod_eq_of_lt (by omega)]

end EngineLemmas

/-! ## Lemmas: table shape and loader -/

section TableLemmas

variable {R : Type} [LinearOrderedField R] {C : Type} [CommRing C]

/-- Every entry of a frame holds a frequency in `[0, SAMPLE_RATE / 2]`. -/
theorem frame_entries_frequency (mag : Nat → R) (N : Nat) (e : Entry R)
    (he : e ∈ frame_entries nfft mag N) :
    0 ≤ e.frequency ∧ e.frequency ≤ SAMPLE_RATE / 2 := by
  unfold frame_entries at he
  simp only [mem_std_sort] at he
  rw [select_entries_eq, List.mem_append] at he
  rcases he with he | he
  · obtain ⟨p, hp, rfl⟩ := List.mem_map.mp he
    have hp2 : p ∈ find_peaks nfft (SAMPLE_RATE / (nfft : R)) mag :=
      (mem_std_sort _ _ _).mp (List.mem_of_mem_take hp)
    refine ⟨?_, le_of_lt (find_peaks_frequency_lt nfft mag p hp2)⟩
    rw [mem_find_peaks] at hp2
    obtain ⟨j, -, -, -, rfl⟩ := hp2
    simp only [entry_of_peak, SAMPLE_RATE]
    positivity
  · rw [List.eq_of_mem_replicate he]
    simp only [sentinel, SAMPLE_RATE]
    norm_num

/-- The table of `stft_peaks` is well formed. -/
theorem table_ok_stft_peaks (P : Numerics R C) (data : Nat → R) (data_length N : Nat) :
    table_ok N (stft_peaks P data data_length N) := by
  intro frame hframe
  rw [stft_peaks_eq] at hframe
  obtain ⟨fr, -, rfl⟩ := List.mem_map.mp hframe
  exact ⟨length_frame_entries _ _ _, fun e he => frame_entries_frequency _ _ e he⟩

theorem normalize_frames_no_voice (m : R) (peaks : List (List (Entry R))) :
    normalize_frames m 0 peaks = some peaks := by
  induction peaks with
  | nil => rfl
  | cons frame rest ih =>
    have h : normalize_frame m 0 frame = some frame := by
      simp [normalize_frame]
    simp only [normalize_frames, h, ih]

theorem mem_scale_frame (m : R) (N : Nat) (frame : List (Entry R)) (e : Entry R)
    (he : e ∈ scale_frame m N frame) : ∃ e0 ∈ frame, e.frequency = e0.frequency := by
  unfold scale_frame at he
  rcases List.mem_append.mp he with he | he
  · obtain ⟨e0, h0, rfl⟩ := List.mem_map.mp he
    exact ⟨e0, List.mem_of_mem_take h0, rfl⟩
  · exact ⟨e, List.mem_of_mem_drop he, rfl⟩

/-- The normalisation pass keeps a well-formed table well formed. -/
theorem table_ok_normalize (N : Nat) (peaks t : List (List (Entry R)))
    (h : table_ok N peaks) (ht : normalize peaks N = some t) : table_ok N t := by
  by_cases hm : max_amp peaks N = 0
  · rcases Nat.eq_zero_or_pos N with hN | hN
    · subst hN
      rw [normalize, normalize_frames_no_voice] at ht
      rw [← Option.some.inj ht]
      exact h
    · cases peaks with
      | nil =>
        have : t = [] := by
          simpa [normalize, normalize_frames] using ht.symm
        subst this
        exact h
      | cons frame rest =>
        rw [normalize, hm, normalize_frames_zero N hN] at ht
        exact Option.noConfusion ht
  · rw [normalize_eq peaks N hm] at ht
    rw [← Option.some.inj ht]
    intro frame hframe
    obtain ⟨f0, hf0, rfl⟩ := List.mem_map.mp hframe
    refine ⟨by rw [length_scale_frame]; exact (h f0 hf0).1, ?_⟩
    intro e he
    obtain ⟨e0, he0, heq⟩ := mem_scale_frame _ _ _ e he
    rw [heq]
    exact (h f0 hf0).2 e0 he0

end TableLemmas

section SampleData

theorem table_ok_ramp_table : table_ok 1 ramp_table := by
  intro frame hframe
  simp only [ramp_table, List.mem_cons, List.mem_singleton, List.not_mem_nil, or_false]
    at hframe
  rcases hframe with rfl | rfl
  · refine ⟨rfl, ?_⟩
    intro e he
    rw [List.mem_singleton.mp he]
    simp only [SAMPLE_RATE]
    norm_num
  · refine ⟨rfl, ?_⟩
    intro e he
    rw [List.mem_singleton.mp he]
    simp only [SAMPLE_RATE]
    norm_num

theorem amplitudes_ok_ramp_table : amplitudes_ok ramp_table := by
  intro frame hframe
  simp only [ramp_table, List.mem_cons, List.mem_singleton, List.not_mem_nil, or_false]
    at hframe
  rcases hframe with rfl | rfl
  · intro e he
    rw [List.mem_singleton.mp he]
    norm_num
  · intro e he
    rw [List.mem_singleton.mp he]
    norm_num

theorem quarter_table_bounded : ∀ x ∈ quarter_table, -1 ≤ x ∧ x ≤ 1 := by
  intro x hx
  simp only [quarter_table, List.mem_cons, List.mem_singleton, List.not_mem_nil, or_false]
    at hx
  rcases hx with rfl | rfl | rfl | rfl <;> norm_num

end SampleData

/-! ## Lemmas: frame position and weights in single precision -/

section PositionLemmas

variable {R : Type} [LinearOrderedField R] [FloorRing R]

/-- For a counter inside the loop the quotient `t_val` is a `float` in `[0, 1]`. -/
theorem t_val_bounds (s s_limit : Nat) (h1 : 1 ≤ s_limit) (hs : s < s_limit) :
    ∃ t : R, t_val s s_limit = some t ∧ 0 ≤ t ∧ t ≤ 1 ∧ to_float t = t := by
  have hL1 : (1 : R) ≤ to_float (s_limit : R) :=
    le_to_float _ 1 (by exact_mod_cast h1) to_float_one
  have hLpos : (0 : R) < to_float (s_limit : R) := by linarith
  have hS0 : (0 : R) ≤ to_float (s : R) := to_float_nonneg _ (by positivity)
  have hSL : to_float (s : R) ≤ to_float (s_limit : R) :=
    to_float_mono _ _ (by exact_mod_cast le_of_lt hs)
  refine ⟨to_float (to_float (s : R) / to_float (s_limit : R)), ?_, ?_, ?_, to_float_idem _⟩
  · simp [t_val, fdiv, ne_of_gt hLpos]
  · exact to_float_nonneg _ (div_nonneg hS0 (le_of_lt hLpos))
  · exact to_float_le _ 1 ((div_le_one hLpos).mpr hSL) to_float_one

/-- The frame position is a non-negative `float`, at most the `float` of the
frame count. -/
theorem frac_ind_bounds (t : R) (frame_limit : Nat) (h0 : 0 ≤ t) (h1 : t ≤ 1) :
    0 ≤ frac_ind t frame_limit ∧ frac_ind t frame_limit ≤ to_float (frame_limit : R)
    ∧ to_float (frac_ind t frame_limit) = frac_ind t frame_limit := by
  have hF0 : (0 : R) ≤ to_float (frame_limit : R) := to_float_nonneg _ (by positivity)
  refine ⟨to_float_nonneg _ (mul_nonneg h0 hF0), ?_, to_float_idem _⟩
  apply to_float_le _ _ _ (to_float_idem _)
  nlinarith

theorem frame_indices_of_lt (frame_limit : Nat) (frac : R)
    (h : cast_int frac < (frame_limit : Int)) :
    (frame_indices frame_limit frac).1 = cast_int frac := by
  simp only [frame_indices]
  rw [if_neg (by omega)]

theorem frame_indices_of_ge (frame_limit : Nat) (frac : R)
    (h : (frame_limit : Int) ≤ cast_int frac) :
    frame_indices frame_limit frac = ((frame_limit : Int) - 1, (frame_limit : Int) - 1) := by
  simp only [frame_indices]
  rw [if_pos (by omega), if_pos (by omega)]

theorem upper_weight_idem (frac : R) (low : Int) :
    to_float (upper_weight frac low) = upper_weight frac low :=
  to_float_idem _

/-- A weight `uw` in `[0, 1]` and its complement `lower_weight uw`. -/
theorem weights_convex_of_unit (uw : R) (h0 : 0 ≤ uw) (h1 : uw ≤ 1) :
    weights_convex (lower_weight uw) uw := by
  have hx0 : (0 : R) ≤ 1 - uw := by linarith
  have hx1 : (1 : R) - uw ≤ 1 := by linarith
  obtain ⟨he, -⟩ := to_float_unit_error (1 - uw) hx0 hx1
  refine ⟨to_float_nonneg _ hx0, to_float_le _ 1 hx1 to_float_one, h0, h1, ?_⟩
  unfold lower_weight
  linarith

/-- The weights of one sample: either they are a convex pair up to rounding,
or `low_ind` was clamped, both indices are `frame_limit - 1`, and the weights
sum to a value in `[0, 2]`. Up to `2^24` frames they are always a convex pair. -/
theorem weights_cases (frame_limit : Nat) (frac : R) (hfl : 1 ≤ frame_limit)
    (h0 : 0 ≤ frac) (hF : to_float frac = frac) (hle : frac ≤ to_float (frame_limit : R)) :
    (weights_convex
        (lower_weight (upper_weight frac (frame_indices frame_limit frac).1))
        (upper_weight frac (frame_indices frame_limit frac).1)
      ∨ ((frame_indices frame_limit frac).1 = (frame_indices frame_limit frac).2
          ∧ 0 ≤ lower_weight (upper_weight frac (frame_indices frame_limit frac).1)
                + upper_weight frac (frame_indices frame_limit frac).1
          ∧ lower_weight (upper_weight frac (frame_indices frame_limit frac).1)
                + upper_weight frac (frame_indices frame_limit frac).1 ≤ 2))
    ∧ (frame_limit ≤ 16777216 →
        weights_convex
          (lower_weight (upper_weight frac (frame_indices frame_limit frac).1))
          (upper_weight frac (frame_indices frame_limit frac).1)) := by
  have hci : cast_int frac = ⌊frac⌋ := cast_int_of_nonneg frac h0
  by_cases hcl : cast_int frac < (frame_limit : Int)
  · -- low_ind is the integer part of the position
    have hidx := frame_indices_of_lt frame_limit frac hcl
    have hflo := to_float_floor frac h0 hF
    have huw : upper_weight frac (frame_indices frame_limit frac).1
        = to_float (frac - ((⌊frac⌋ : Int) : R)) := by
      rw [hidx, hci, upper_weight, hflo]
    have hfr0 : (0 : R) ≤ frac - ((⌊frac⌋ : Int) : R) := by
      have := Int.floor_le frac
      linarith
    have hfr1 : frac - ((⌊frac⌋ : Int) : R) ≤ 1 := by
      have := Int.lt_floor_add_one frac
      linarith
    have hconv : weights_convex
        (lower_weight (upper_weight frac (frame_indices frame_limit frac).1))
        (upper_weight frac (frame_indices frame_limit frac).1) := by
      apply weights_convex_of_unit
      · rw [huw]
        exact to_float_nonneg _ hfr0
      · rw [huw]
        exact to_float_le _ 1 hfr1 to_float_one
    exact ⟨Or.inl hconv, fun _ => hconv⟩
  · -- low_ind is clamped to frame_limit - 1
    have hge : (frame_limit : Int) ≤ cast_int frac := by omega
    have hidx := frame_indices_of_ge frame_limit frac hge
    have hfrac : ((frame_limit : Nat) : R) ≤ frac := by
      have h1 : (((frame_limit : Int)) : R) ≤ ((⌊frac⌋ : Int) : R) := by
        rw [hci] at hge
        exact_mod_cast hge
      have h2 := Int.floor_le frac
      have h3 : (((frame_limit : Int)) : R) = ((frame_limit : Nat) : R) := by push_cast; rfl
      linarith
    have hlow : (((frame_limit : Int) - 1 : Int) : R) ≤ frac := by
      push_cast
      linarith
    have hlowf : to_float (((frame_limit : Int) - 1 : Int) : R) ≤ frac :=
      to_float_le _ frac hlow hF
    have huw0 : 0 ≤ upper_weight frac ((frame_limit : Int) - 1) :=
      to_float_nonneg _ (by linarith)
    have hnear := to_float_nearest (1 - upper_weight frac ((frame_limit : Int) - 1))
      (-upper_weight frac ((frame_limit : Int) - 1))
      (by rw [to_float_neg, upper_weight_idem])
    have e : -upper_weight frac ((frame_limit : Int) - 1)
        - (1 - upper_weight frac ((frame_limit : Int) - 1)) = -1 := by ring
    rw [e, abs_neg, abs_one, abs_le] at hnear
    constructor
    · right
      rw [hidx]
      refine ⟨rfl, ?_, ?_⟩
      · show 0 ≤ lower_weight _ + _
        unfold lower_weight
        linarith
      · show lower_weight _ + _ ≤ 2
        unfold lower_weight
        linarith
    · intro h24
      have hFl : to_float ((frame_limit : Nat) : R) = ((frame_limit : Nat) : R) :=
        to_float_natCast frame_limit h24
      have hfeq : frac = ((frame_limit : Nat) : R) := le_antisymm (by rw [← hFl]; exact hle) hfrac
      have hlowx : to_float (((frame_limit : Int) - 1 : Int) : R)
          = (((frame_limit : Int) - 1 : Int) : R) :=
        to_float_intCast _ (by rw [abs_of_nonneg (by omega)]; omega)
      have huw1 : upper_weight frac ((frame_limit : Int) - 1) = 1 := by
        rw [upper_weight, hlowx, hfeq]
        push_cast
        have : ((frame_limit : Nat) : R) - (((frame_limit : Nat) : R) - 1) = 1 := by ring
        rw [this, to_float_one]
      rw [hidx]
      show weights_convex (lower_weight (upper_weight frac ((frame_limit : Int) - 1)))
        (upper_weight frac ((frame_limit : Int) - 1))
      rw [huw1]
      exact weights_convex_of_unit 1 (by norm_num) (le_refl 1)

end PositionLemmas

/-! ## Lemmas: one sample of the audio callback -/

section SampleLemmas

variable {R : Type} [LinearOrderedField R] [FloorRing R]

theorem to_float_48000 : to_float (48000 : R) = 48000 := by
  have := @to_float_natCast R _ _ 48000 (by norm_num)
  simpa using this

/-- Under the weights of `weights_cases` the interpolated frequency of two
entries with frequencies in `[0, 24000]` is in `[0, 48000]`. -/
theorem freq_safe (lw uw a b : R) (ha : 0 ≤ a ∧ a ≤ SAMPLE_RATE / 2)
    (hb : 0 ≤ b ∧ b ≤ SAMPLE_RATE / 2)
    (hw : weights_convex lw uw ∨ (a = b ∧ 0 ≤ lw + uw ∧ lw + uw ≤ 2)) :
    0 ≤ to_float (lw * a + uw * b) ∧ to_float (lw * a + uw * b) ≤ 48000 := by
  have hhalf : (SAMPLE_RATE : R) / 2 = 24000 := by simp only [SAMPLE_RATE]; norm_num
  rw [hhalf] at ha hb
  have hsum : 0 ≤ lw * a + uw * b ∧ lw * a + uw * b ≤ 48000 := by
    rcases hw with ⟨h1, h2, h3, h4, -⟩ | ⟨hab, h1, h2⟩
    · constructor
      · nlinarith [mul_nonneg h1 ha.1, mul_nonneg h3 hb.1]
      · nlinarith [mul_le_mul h2 ha.2 ha.1 (by norm_num : (0 : R) ≤ 1),
          mul_le_mul h4 hb.2 hb.1 (by norm_num : (0 : R) ≤ 1)]
    · subst hab
      have e : lw * a + uw * a = (lw + uw) * a := by ring
      rw [e]
      constructor
      · exact mul_nonneg h1 ha.1
      · nlinarith [mul_le_mul h2 ha.2 ha.1 (by norm_num : (0 : R) ≤ 2)]
  exact ⟨to_float_nonneg _ hsum.1, to_float_le _ 48000 hsum.2 to_float_48000⟩

/-- With a convex pair of weights the interpolated frequency stays in
`[0, 24000]`: the excess of the weights over 1 is lost in the rounding. -/
theorem freq_tight (lw uw a b : R) (ha : 0 ≤ a ∧ a ≤ SAMPLE_RATE / 2)
    (hb : 0 ≤ b ∧ b ≤ SAMPLE_RATE / 2) (hw : weights_convex lw uw) :
    0 ≤ to_float (lw * a + uw * b) ∧ to_float (lw * a + uw * b) ≤ 24000 := by
  have hhalf : (SAMPLE_RATE : R) / 2 = 24000 := by simp only [SAMPLE_RATE]; norm_num
  rw [hhalf] at ha hb
  obtain ⟨h1, h2, h3, h4, h5⟩ := hw
  constructor
  · exact to_float_nonneg _ (by nlinarith [mul_nonneg h1 ha.1, mul_nonneg h3 hb.1])
  · apply to_float_le_24000
    have e1 : lw * a ≤ lw * 24000 := mul_le_mul_of_nonneg_left ha.2 h1
    have e2 : uw * b ≤ uw * 24000 := mul_le_mul_of_nonneg_left hb.2 h3
    nlinarith

/-- With a convex pair of weights the interpolated amplitude of two
amplitudes in `[0, 1]` stays in `[0, 1]`. -/
theorem amp_tight (lw uw a b : R) (ha : 0 ≤ a ∧ a ≤ 1) (hb : 0 ≤ b ∧ b ≤ 1)
    (hw : weights_convex lw uw) :
    0 ≤ to_float (lw * a + uw * b) ∧ to_float (lw * a + uw * b) ≤ 1 := by
  obtain ⟨h1, h2, h3, h4, h5⟩ := hw
  constructor
  · exact to_float_nonneg _ (by nlinarith [mul_nonneg h1 ha.1, mul_nonneg h3 hb.1])
  · apply to_float_le_one
    have e1 : lw * a ≤ lw * 1 := mul_le_mul_of_nonneg_left ha.2 h1
    have e2 : uw * b ≤ uw * 1 := mul_le_mul_of_nonneg_left hb.2 h3
    nlinarith

/-- One voice: with a phase in `[0, 1)` and a frequency in `[0, 48000]` the
lookup succeeds, and the oscillator keeps its phase in `[0, 1)`. -/
theorem voice_spec (table : List R) (hn : 0 < table.length) (lw uw : R) (el eh : Entry R)
    (osc : Phasor R) (hp0 : 0 ≤ osc.phase) (hp1 : osc.phase < 1)
    (hf0 : 0 ≤ to_float (lw * el.frequency + uw * eh.frequency))
    (hf1 : to_float (lw * el.frequency + uw * eh.frequency) ≤ 48000) :
    ∃ v osc2, sine table osc.phase = some v
      ∧ voice table lw uw el eh osc
          = some (to_float (lw * el.amplitude + uw * eh.amplitude) * v, osc2)
      ∧ osc2.increment = to_float (lw * el.frequency + uw * eh.frequency) / 48000
      ∧ 0 ≤ osc2.phase ∧ osc2.phase < 1 := by
  obtain ⟨x, y, t, hs, -⟩ := sine_convex table hn osc.phase hp0 hp1
  have hinc : (osc.frequency (to_float (lw * el.frequency + uw * eh.frequency))).increment
      = to_float (lw * el.frequency + uw * eh.frequency) / 48000 := rfl
  obtain ⟨a, -, c, d, e⟩ := phasor_step
    (osc.frequency (to_float (lw * el.frequency + uw * eh.frequency))) hp0 hp1
    (by rw [hinc]; positivity)
    (by rw [hinc, div_le_one (by norm_num)]; exact hf1)
  have ha : (osc.frequency (to_float (lw * el.frequency + uw * eh.frequency))).operator_call.1
      = osc.phase := a
  refine ⟨_, _, hs, ?_, ?_, c, d⟩
  · simp only [voice, Sine.operator_call, ha, hs]
  · rw [e, hinc]

/-- The loop over the voices with an invariant `I` of the running sum and a
property `Qo` that every retuned oscillator obtains. -/
theorem voices_loop (table : List R) (lw uw : R) (lo hi : List (Entry R))
    (sines : List (Phasor R)) (N : Nat) (I : Nat → R → Prop) (Qo : Phasor R → Prop)
    (hstep : ∀ n, n < N → ∀ f, I n f →
      ∃ el eh osc x osc2, lo[n]? = some el ∧ hi[n]? = some eh ∧ sines[n]? = some osc
        ∧ voice table lw uw el eh osc = some (x, osc2)
        ∧ I (n + 1) (to_float (f + x)) ∧ Qo osc2)
    (f0 : R) (h0 : I 0 f0) (k : Nat) (hk : k ≤ N) :
    ∃ f bank, (List.range k).foldlM (voice_step table lw uw lo hi) (f0, sines)
        = some (f, bank)
      ∧ I k f ∧ bank.length = sines.length
      ∧ (∀ i, k ≤ i → bank[i]? = sines[i]?)
      ∧ (∀ i, i < k → ∃ o, bank[i]? = some o ∧ Qo o) := by
  induction k with
  | zero =>
    exact ⟨f0, sines, by simp, h0, rfl, fun _ _ => rfl, fun i hi => absurd hi (by omega)⟩
  | succ k ih =>
    obtain ⟨f, bank, hrun, hI, hlen, hrest, hdone⟩ := ih (by omega)
    obtain ⟨el, eh, osc, x, osc2, hlo, hhi, hs, hv, hI2, hQ⟩ := hstep k (by omega) f hI
    have hbk : bank[k]? = some osc := by rw [hrest k (le_refl k)]; exact hs
    have hklt : k < bank.length := by
      obtain ⟨h, -⟩ := List.getElem?_eq_some_iff.mp hbk
      exact h
    have hst : voice_step table lw uw lo hi (f, bank) k
        = some (to_float (f + x), bank.set k osc2) := by
      simp only [voice_step, hlo, hhi, hbk, hv]
    refine ⟨to_float (f + x), bank.set k osc2, ?_, hI2, by simp [hlen], ?_, ?_⟩
    · rw [List.range_succ, List.foldlM_append, hrun]
      simp [hst]
    · intro i hi
      rw [List.getElem?_set]
      have hne : ¬ k = i := by omega
      simp only [hne, if_false]
      exact hrest i (by omega)
    · intro i hi
      rw [List.getElem?_set]
      by_cases hik : k = i
      · subst hik
        exact ⟨osc2, by simp [hklt], hQ⟩
      · simp only [hik, if_false]
        exact hdone i (by omega)

theorem mem_of_list_at {α : Type} (v : List α) (i : Int) (x : α) (h : list_at v i = some x) :
    x ∈ v := by
  unfold list_at at h
  split at h
  · obtain ⟨hlt, heq⟩ := List.getElem?_eq_some_iff.mp h
    rw [← heq]
    exact List.getElem_mem _
  · exact Option.noConfusion h

/-- The frames and weights of one sample in a safe state. -/
theorem interpolation_spec (table : List R) (app : MyApp R) (h : engine_ok table app) :
    ∃ lo hi lw uw, interpolation app = some (lo, hi, lw, uw)
      ∧ lo ∈ app.peaks1 ∧ hi ∈ app.peaks1
      ∧ (weights_convex lw uw ∨ (lo = hi ∧ 0 ≤ lw + uw ∧ lw + uw ≤ 2))
      ∧ (app.frame_limit ≤ 16777216 → weights_convex lw uw) := by
  obtain ⟨hn, hfl, hsl, hs, hp1, htab, hlen, hph⟩ := h
  obtain ⟨t, ht, ht0, ht1, -⟩ := @t_val_bounds R _ _ app.s app.s_limit (by omega) hs
  obtain ⟨hf0, hfle, hff⟩ := frac_ind_bounds t app.frame_limit ht0 ht1
  obtain ⟨i0, i1, i2, -⟩ := frame_indices_bounds app.frame_limit (frac_ind t app.frame_limit)
    hfl hf0
  obtain ⟨hw1, hw2⟩ := weights_cases app.frame_limit (frac_ind t app.frame_limit) hfl hf0 hff hfle
  have hc : ((app.frame_limit : Nat) : Int) ≤ (app.peaks1.length : Int) := by
    exact_mod_cast hp1
  obtain ⟨lo, hlo, hlom⟩ := list_at_of_bounds app.peaks1
    (frame_indices app.frame_limit (frac_ind t app.frame_limit)).1 i0 (by omega)
  obtain ⟨hi, hhi, hhim⟩ := list_at_of_bounds app.peaks1
    (frame_indices app.frame_limit (frac_ind t app.frame_limit)).2 (by omega) (by omega)
  refine ⟨lo, hi, _, _, ?_, hlom, hhim, ?_, hw2⟩
  · simp only [interpolation, ht, hlo, hhi]
  · rcases hw1 with hw | ⟨heq, ha, hb⟩
    · exact Or.inl hw
    · right
      refine ⟨?_, ha, hb⟩
      rw [heq, hhi] at hlo
      exact (Option.some.inj hlo).symm

end SampleLemmas

section StepLemmas

variable {R : Type} [LinearOrderedField R] [FloorRing R]

theorem mem_bank {α : Type} (bank : List α) (N : Nat) (P : α → Prop) (hlen : bank.length = N)
    (h : ∀ i, i < N → ∃ o, bank[i]? = some o ∧ P o) : ∀ o ∈ bank, P o := by
  intro o ho
  obtain ⟨i, hi, heq⟩ := List.getElem_of_mem ho
  obtain ⟨o2, ho2, hP⟩ := h i (by omega)
  rw [List.getElem?_eq_getElem hi, heq] at ho2
  rw [Option.some.inj ho2]
  exact hP

/-- One sample in a safe state: the sample is produced, it is the rounded
running sum of the voice products divided by `N`, and every oscillator is
left with a phase in `[0, 1)`; up to `2^24` frames the weights are a convex
pair and every oscillator was given a frequency in `[0, 24000]`. -/
theorem onSound_sample_ok (table : List R) (app : MyApp R) (h : engine_ok table app) :
    ∃ lo hi lw uw bank,
      interpolation app = some (lo, hi, lw, uw) ∧ lo ∈ app.peaks1 ∧ hi ∈ app.peaks1
      ∧ (app.frame_limit ≤ 16777216 → weights_convex lw uw)
      ∧ onSound_sample table app
          = some ((output_sample
                    (accumulate (voice_product table lw uw lo hi app.sine) app.N) app.N,
                   output_sample
                    (accumulate (voice_product table lw uw lo hi app.sine) app.N) app.N),
              MyApp.mk app.N (next_s app.s app.s_limit) app.s_limit app.frame_limit bank
                app.peaks1 app.peaks2)
      ∧ bank.length = app.N
      ∧ (∀ o ∈ bank, 0 ≤ o.phase ∧ o.phase < 1)
      ∧ (app.frame_limit ≤ 16777216 →
          ∀ o ∈ bank, ∃ hz : R, 0 ≤ hz ∧ hz ≤ 24000 ∧ o.increment = hz / 48000) := by
  obtain ⟨lo, hi, lw, uw, hint, hlom, hhim, hw, hw24⟩ := interpolation_spec table app h
  obtain ⟨hn, hfl, hsl, hs, hp1, htab, hlen, hph⟩ := h
  have hloop := voices_loop table lw uw lo hi app.sine app.N
    (fun n f => f = accumulate (voice_product table lw uw lo hi app.sine) n)
    (fun o => (0 ≤ o.phase ∧ o.phase < 1)
      ∧ (app.frame_limit ≤ 16777216 →
          ∃ hz : R, 0 ≤ hz ∧ hz ≤ 24000 ∧ o.increment = hz / 48000))
    (by
      intro n hnN f hf
      have hl1 : n < lo.length := by rw [(htab _ hlom).1]; exact hnN
      have hl2 : n < hi.length := by rw [(htab _ hhim).1]; exact hnN
      have hl3 : n < app.sine.length := by rw [hlen]; exact hnN
      obtain ⟨he1, hm1⟩ := getElem?_getD_of_lt lo n (Entry.mk 0 0) hl1
      obtain ⟨he2, hm2⟩ := getElem?_getD_of_lt hi n (Entry.mk 0 0) hl2
      obtain ⟨he3, hm3⟩ := getElem?_getD_of_lt app.sine n (Phasor.mk 0 0) hl3
      have hfa := (htab _ hlom).2 _ hm1
      have hfb := (htab _ hhim).2 _ hm2
      have hsafe := freq_safe lw uw _ _ hfa hfb (by
        rcases hw with hw | ⟨heq, ha, hb⟩
        · exact Or.inl hw
        · right
          rw [heq]
          exact ⟨rfl, ha, hb⟩)
      obtain ⟨v, osc2, hv, hvoice, hinc, hq0, hq1⟩ := voice_spec table hn lw uw
        (lo.getD n (Entry.mk 0 0)) (hi.getD n (Entry.mk 0 0))
        (app.sine.getD n (Phasor.mk 0 0)) (hph _ hm3).1 (hph _ hm3).2 hsafe.1 hsafe.2
      refine ⟨_, _, _, _, osc2, he1, he2, he3, hvoice, ?_, ⟨hq0, hq1⟩, ?_⟩
      · show to_float (f + _) = accumulate (voice_product table lw uw lo hi app.sine) (n + 1)
        rw [accumulate, hf]
        congr 2
        simp only [voice_product, entry_at, hv, Option.getD_some]
      · intro h24
        obtain ⟨ht0, ht1⟩ := freq_tight lw uw _ _ hfa hfb (hw24 h24)
        exact ⟨_, ht0, ht1, hinc⟩)
    0 rfl app.N (le_refl _)
  obtain ⟨f, bank, hrun, hf, hbl, -, hdone⟩ := hloop
  have hbl2 : bank.length = app.N := by rw [hbl, hlen]
  refine ⟨lo, hi, lw, uw, bank, hint, hlom, hhim, hw24, ?_, hbl2, ?_, ?_⟩
  · simp only [onSound_sample, hint, hrun, hf]
  · exact mem_bank bank app.N _ hbl2 (fun i hi => by
      obtain ⟨o, ho, hq, -⟩ := hdone i hi
      exact ⟨o, ho, hq⟩)
  · intro h24
    exact mem_bank bank app.N _ hbl2 (fun i hi => by
      obtain ⟨o, ho, -, hq⟩ := hdone i hi
      exact ⟨o, ho, hq h24⟩)

/-- One sample keeps the engine inside its safe states and advances the
counter. -/
theorem onSound_sample_next (table : List R) (app : MyApp R) (h : engine_ok table app) :
    ∃ r, onSound_sample table app = some r ∧ engine_ok table r.2
      ∧ r.1.1 = r.1.2
      ∧ r.2.N = app.N ∧ r.2.s = next_s app.s app.s_limit ∧ r.2.s_limit = app.s_limit
      ∧ r.2.frame_limit = app.frame_limit ∧ r.2.peaks1 = app.peaks1
      ∧ r.2.peaks2 = app.peaks2 := by
  obtain ⟨lo, hi, lw, uw, bank, -, -, -, -, hres, hbl, hph2, -⟩ := onSound_sample_ok table app h
  obtain ⟨hn, hfl, hsl, hs, hp1, htab, hlen, hph⟩ := h
  exact ⟨_, hres, ⟨hn, hfl, hsl, next_s_lt _ _ hs, hp1, htab, hbl, hph2⟩,
    rfl, rfl, rfl, rfl, rfl, rfl, rfl⟩

/-- Induction principle for runs of the audio callback: from a safe state a
block of any length is produced; a property `Q` of the states that every
sample preserves and a property `T` of the written pair that every sample
establishes hold along the whole run. -/
theorem onSound_run (table : List R) (Q : MyApp R → Prop) (T : Option R × Option R → Prop)
    (hstep : ∀ app r, engine_ok table app → Q app → onSound_sample table app = some r →
      Q r.2 ∧ T r.1)
    (k : Nat) (app : MyApp R) (h : engine_ok table app) (hQ : Q app) :
    ∃ out app2, onSound table k app = some (out, app2) ∧ engine_ok table app2 ∧ Q app2
      ∧ out.length = k ∧ app2.s = (app.s + k) % app.s_limit
      ∧ app2.s_limit = app.s_limit ∧ app2.frame_limit = app.frame_limit
      ∧ app2.N = app.N ∧ app2.peaks1 = app.peaks1 ∧ app2.peaks2 = app.peaks2
      ∧ ∀ o ∈ out, T o := by
  induction k generalizing app with
  | zero =>
    refine ⟨[], app, rfl, h, hQ, rfl, ?_, rfl, rfl, rfl, rfl, rfl, by simp⟩
    rw [Nat.add_zero, Nat.mod_eq_of_lt h.2.2.2.1]
  | succ k ih =>
    obtain ⟨r, hr, hok, -, hN, hs, hsl, hfl, hp1, hp2⟩ := onSound_sample_next table app h
    obtain ⟨hQ2, hT⟩ := hstep app r h hQ hr
    obtain ⟨out, app2, hrun, hok2, hQ3, hlen, hs2, hsl2, hfl2, hN2, hp12, hp22, hall⟩ :=
      ih r.2 hok hQ2
    refine ⟨r.1 :: out, app2, ?_, hok2, hQ3, by simp [hlen], ?_, by rw [hsl2, hsl],
      by rw [hfl2, hfl], by rw [hN2, hN], by rw [hp12, hp1], by rw [hp22, hp2], ?_⟩
    · simp only [onSound, hr, hrun]
    · rw [hs2, hs, hsl, next_s_eq_mod _ _ h.2.2.2.1, Nat.mod_add_mod]
      congr 1
      omega
    · intro o ho
      rcases List.mem_cons.mp ho with rfl | ho
      · exact hT
      · exact hall o ho

theorem engine_ok_start (table : List R) (N : Nat) (peaks1 peaks2 : List (List (Entry R)))
    (hn : 0 < table.length) (hfl : 1 ≤ min peaks1.length peaks2.length)
    (htab : table_ok N peaks1) : engine_ok table (MyApp.start N peaks1 peaks2) := by
  refine ⟨hn, hfl, rfl, ?_, Nat.min_le_left _ _, htab, ?_, ?_⟩
  · simp only [MyApp.start]
    omega
  · show ((List.range N).map _).length = N
    rw [List.length_map, List.length_range]
  · intro osc hosc
    simp only [MyApp.start, List.mem_map] at hosc
    obtain ⟨n, -, rfl⟩ := hosc
    simp [Phasor.frequency]

theorem interpolation_replace_peaks2 (app : MyApp R) (q : List (List (Entry R))) :
    interpolation (app.replace_peaks2 q) = interpolation app := rfl

theorem onSound_sample_replace_peaks2 (table : List R) (app : MyApp R)
    (q : List (List (Entry R))) :
    onSound_sample table (app.replace_peaks2 q)
      = (onSound_sample table app).map fun r => (r.1, r.2.replace_peaks2 q) := by
  simp only [onSound_sample, interpolation_replace_peaks2]
  cases interpolation app with
  | none => rfl
  | some w =>
    obtain ⟨lo, hi, lw, uw⟩ := w
    simp only [MyApp.replace_peaks2]
    cases (List.range app.N).foldlM (voice_step table lw uw lo hi) (0, app.sine) with
    | none => rfl
    | some r => rfl

theorem onSound_replace_peaks2 (table : List R) (k : Nat) (app : MyApp R)
    (q : List (List (Entry R))) :
    onSound table k (app.replace_peaks2 q)
      = (onSound table k app).map fun r => (r.1, r.2.replace_peaks2 q) := by
  induction k generalizing app with
  | zero => rfl
  | succ k ih =>
    simp only [onSound, onSound_sample_replace_peaks2]
    cases h1 : onSound_sample table app with
    | none => rfl
    | some r =>
      simp only [Option.map_some', ih]
      cases h2 : onSound table k r.2 with
      | none => rfl
      | some rest => rfl

/-- With an empty table the callback writes nothing: the frame position of
the first sample is `0 / 0`. -/
theorem onSound_no_frame (table : List R) (N : Nat) (peaks1 peaks2 : List (List (Entry R)))
    (h : min peaks1.length peaks2.length = 0) (k : Nat)
    (r : List (Option R × Option R) × MyApp R)
    (hr : onSound table k (MyApp.start N peaks1 peaks2) = some r) : r.1 = [] := by
  cases k with
  | zero =>
    simp only [onSound] at hr
    rw [← Option.some.inj hr]
  | succ k =>
    have hnone : onSound_sample table (MyApp.start N peaks1 peaks2) = none := by
      simp [onSound_sample, interpolation, t_val, MyApp.start, h, fdiv, to_float_zero]
    simp only [onSound, hnone] at hr
    exact Option.noConfusion hr

end StepLemmas

section BoundLemmas

variable {R : Type} [LinearOrderedField R] [FloorRing R]

theorem to_float_16777216 : to_float (16777216 : R) = 16777216 := by
  have := @to_float_natCast R _ _ 16777216 (by norm_num)
  simpa using this

/-- The running sum of `n` products in `[-1, 1]`, every sum rounded to
`float`, stays within `min(n, 2^24)` in absolute value. -/
theorem accumulate_bound (x : Nat → R) (N : Nat) (hx : ∀ n, n < N → -1 ≤ x n ∧ x n ≤ 1)
    (n : Nat) (hn : n ≤ N) :
    -((min n 16777216 : Nat) : R) ≤ accumulate x n
    ∧ accumulate x n ≤ ((min n 16777216 : Nat) : R) := by
  induction n with
  | zero => simp [accumulate]
  | succ n ih =>
    obtain ⟨h1, h2⟩ := ih (by omega)
    obtain ⟨hx1, hx2⟩ := hx n (by omega)
    rw [accumulate]
    rcases Nat.lt_or_ge n 16777216 with hlt | hge
    · have e1 : min n 16777216 = n := by omega
      have e2 : min (n + 1) 16777216 = n + 1 := by omega
      rw [e1] at h1 h2
      rw [e2]
      have hex : to_float (((n + 1 : Nat)) : R) = ((n + 1 : Nat) : R) :=
        to_float_natCast (n + 1) (by omega)
      constructor
      · apply le_to_float
        · push_cast
          linarith
        · rw [to_float_neg, hex]
      · apply to_float_le _ _ _ hex
        push_cast
        linarith
    · have e1 : min n 16777216 = 16777216 := by omega
      have e2 : min (n + 1) 16777216 = 16777216 := by omega
      rw [e1] at h1 h2
      rw [e2]
      push_cast at h1 h2 ⊢
      constructor
      · have := to_float_le_16777216 (-(accumulate x n + x n)) (by linarith)
        rw [to_float_neg] at this
        linarith
      · exact to_float_le_16777216 _ (by linarith)

/-- The sample written for a running sum within `min(N, 2^24)`. -/
theorem output_sample_bound (f : R) (N : Nat) (hN : 1 ≤ N)
    (h1 : -((min N 16777216 : Nat) : R) ≤ f) (h2 : f ≤ ((min N 16777216 : Nat) : R)) :
    ∃ g, output_sample f N = some g ∧ g = to_float (f / to_float (N : R))
      ∧ -1 ≤ g ∧ g ≤ 1 := by
  have hL1 : (1 : R) ≤ to_float (N : R) :=
    le_to_float _ 1 (by exact_mod_cast hN) to_float_one
  have hLpos : (0 : R) < to_float (N : R) := by linarith
  have hmin : ((min N 16777216 : Nat) : R) ≤ to_float (N : R) := by
    rcases Nat.le_total N 16777216 with h | h
    · rw [Nat.min_eq_left h, to_float_natCast N h]
    · rw [Nat.min_eq_right h]
      push_cast
      exact le_to_float _ _ (by exact_mod_cast h) to_float_16777216
  refine ⟨to_float (f / to_float (N : R)), ?_, rfl, ?_, ?_⟩
  · simp [output_sample, fdiv, ne_of_gt hLpos]
  · apply le_to_float
    · rw [le_div_iff₀ hLpos]
      linarith
    · rw [to_float_neg, to_float_one]
  · apply to_float_le _ 1 _ to_float_one
    rw [div_le_one hLpos]
    linarith

/-- A voice product with a convex pair of weights, amplitudes in `[0, 1]` and
a table with values in `[-1, 1]`. -/
theorem voice_product_bound (table : List R) (hn : 0 < table.length)
    (htab : ∀ x ∈ table, -1 ≤ x ∧ x ≤ 1) (lw uw : R) (hw : weights_convex lw uw)
    (lo hi : List (Entry R)) (sines : List (Phasor R)) (n : Nat)
    (hlo : 0 ≤ (entry_at lo n).amplitude ∧ (entry_at lo n).amplitude ≤ 1)
    (hhi : 0 ≤ (entry_at hi n).amplitude ∧ (entry_at hi n).amplitude ≤ 1)
    (hp0 : 0 ≤ (sines.getD n (Phasor.mk 0 0)).phase)
    (hp1 : (sines.getD n (Phasor.mk 0 0)).phase < 1) :
    ∃ v, sine table (sines.getD n (Phasor.mk 0 0)).phase = some v ∧ -1 ≤ v ∧ v ≤ 1
      ∧ voice_product table lw uw lo hi sines n
          = to_float (lw * (entry_at lo n).amplitude + uw * (entry_at hi n).amplitude) * v
      ∧ 0 ≤ to_float (lw * (entry_at lo n).amplitude + uw * (entry_at hi n).amplitude)
      ∧ to_float (lw * (entry_at lo n).amplitude + uw * (entry_at hi n).amplitude) ≤ 1
      ∧ -1 ≤ voice_product table lw uw lo hi sines n
      ∧ voice_product table lw uw lo hi sines n ≤ 1 := by
  obtain ⟨v, hv, hv0, hv1⟩ := sine_bounded table hn htab _ hp0 hp1
  obtain ⟨ha0, ha1⟩ := amp_tight lw uw _ _ hlo hhi hw
  have hvp : voice_product table lw uw lo hi sines n
      = to_float (lw * (entry_at lo n).amplitude + uw * (entry_at hi n).amplitude) * v := by
    simp only [voice_product, hv, Option.getD_some]
  refine ⟨v, hv, hv0, hv1, hvp, ha0, ha1, ?_, ?_⟩
  · rw [hvp]
    nlinarith
  · rw [hvp]
    nlinarith

/-- The sample written in a safe state with a convex pair of weights,
amplitudes in `[0, 1]` and a sine table with values in `[-1, 1]`. -/
theorem sample_bounded (table : List R) (app : MyApp R) (h : engine_ok table app)
    (hamp : amplitudes_ok app.peaks1) (hN : 1 ≤ app.N) (h24 : app.frame_limit ≤ 16777216)
    (htab : ∀ x ∈ table, -1 ≤ x ∧ x ≤ 1) :
    ∃ lo hi lw uw f app2,
      interpolation app = some (lo, hi, lw, uw)
      ∧ onSound_sample table app = some ((some f, some f), app2)
      ∧ f = to_float (accumulate (voice_product table lw uw lo hi app.sine) app.N
                        / to_float (app.N : R))
      ∧ -1 ≤ f ∧ f ≤ 1
      ∧ ∀ n, n < app.N →
          ∃ v, sine table (app.sine.getD n (Phasor.mk 0 0)).phase = some v
            ∧ -1 ≤ v ∧ v ≤ 1
            ∧ voice_product table lw uw lo hi app.sine n
                = to_float (lw * (entry_at lo n).amplitude + uw * (entry_at hi n).amplitude)
                  * v
            ∧ 0 ≤ to_float (lw * (entry_at lo n).amplitude + uw * (entry_at hi n).amplitude)
            ∧ to_float (lw * (entry_at lo n).amplitude + uw * (entry_at hi n).amplitude)
                ≤ 1 := by
  obtain ⟨lo, hi, lw, uw, bank, hint, hlom, hhim, hw, hres, -⟩ := onSound_sample_ok table app h
  obtain ⟨hn, hfl, hsl, hs, hp1, htabk, hlen, hph⟩ := h
  have hvp : ∀ n, n < app.N →
      ∃ v, sine table (app.sine.getD n (Phasor.mk 0 0)).phase = some v ∧ -1 ≤ v ∧ v ≤ 1
        ∧ voice_product table lw uw lo hi app.sine n
            = to_float (lw * (entry_at lo n).amplitude + uw * (entry_at hi n).amplitude) * v
        ∧ 0 ≤ to_float (lw * (entry_at lo n).amplitude + uw * (entry_at hi n).amplitude)
        ∧ to_float (lw * (entry_at lo n).amplitude + uw * (entry_at hi n).amplitude) ≤ 1
        ∧ -1 ≤ voice_product table lw uw lo hi app.sine n
        ∧ voice_product table lw uw lo hi app.sine n ≤ 1 := by
    intro n hnN
    have hl1 : n < lo.length := by rw [(htabk _ hlom).1]; exact hnN
    have hl2 : n < hi.length := by rw [(htabk _ hhim).1]; exact hnN
    have hl3 : n < app.sine.length := by rw [hlen]; exact hnN
    obtain ⟨-, hm1⟩ := getElem?_getD_of_lt lo n (Entry.mk 0 0) hl1
    obtain ⟨-, hm2⟩ := getElem?_getD_of_lt hi n (Entry.mk 0 0) hl2
    obtain ⟨-, hm3⟩ := getElem?_getD_of_lt app.sine n (Phasor.mk 0 0) hl3
    exact voice_product_bound table hn htab lw uw (hw h24) lo hi app.sine n
      (hamp _ hlom _ hm1) (hamp _ hhim _ hm2) (hph _ hm3).1 (hph _ hm3).2
  obtain ⟨b1, b2⟩ := accumulate_bound (voice_product table lw uw lo hi app.sine) app.N
    (fun n hnN => by
      obtain ⟨v, -, -, -, -, -, -, h1, h2⟩ := hvp n hnN
      exact ⟨h1, h2⟩) app.N (le_refl _)
  obtain ⟨g, hg, hgeq, hg0, hg1⟩ := output_sample_bound _ app.N hN b1 b2
  refine ⟨lo, hi, lw, uw, g,
    MyApp.mk app.N (next_s app.s app.s_limit) app.s_limit app.frame_limit bank
      app.peaks1 app.peaks2, hint, ?_, hgeq, hg0, hg1, ?_⟩
  · rw [hres, hg]
  · intro n hnN
    obtain ⟨v, h1, h2, h3, h4, h5, h6, -⟩ := hvp n hnN
    exact ⟨v, h1, h2, h3, h4, h5, h6⟩

end BoundLemmas

section AgreementLemmas

variable {R : Type} [LinearOrderedField R] [FloorRing R]

/-- The position, indices and weights of `onSound` for `frame_limit = 22` and
`s = 13312`, with `to_float`: the values of the single-precision model
(`t_val_f32`, `frac_ind_f32`, `low_ind_f32`, `upper_weight_f32`). -/
theorem interpolation_at_13312 :
    t_val 13312 22528 = some (9913809 / 16777216 : R)
    ∧ frac_ind (9913809 / 16777216 : R) 22 = 13631487 / 1048576
    ∧ frame_indices 22 (13631487 / 1048576 : R) = (12, 13)
    ∧ upper_weight (13631487 / 1048576 : R) 12 = 1048575 / 1048576
    ∧ lower_weight (1048575 / 1048576 : R) = 1 / 1048576 := by
  have hs : to_float (((13312 : Nat)) : R) = ((13312 : Nat) : R) :=
    to_float_natCast 13312 (by norm_num)
  have hl : to_float (((22528 : Nat)) : R) = ((22528 : Nat) : R) :=
    to_float_natCast 22528 (by norm_num)
  have hfl : to_float (((22 : Nat)) : R) = ((22 : Nat) : R) :=
    to_float_natCast 22 (by norm_num)
  have h12 : to_float (((12 : Int)) : R) = ((12 : Int) : R) :=
    to_float_intCast 12 (by norm_num)
  have hp24 : (2 : R) ^ (-24 : Int) = 1 / 16777216 := by norm_num
  have hp20 : (2 : R) ^ (-20 : Int) = 1 / 1048576 := by norm_num
  have ht : to_float ((13312 : R) / 22528) = 9913809 / 16777216 := by
    have := to_float_eq_of ((13312 : R) / 22528) (-24) 9913809 (by norm_num) (by norm_num)
      (by
        left
        rw [hp24, abs_lt]
        constructor <;> norm_num)
    rw [this, hp24]
    norm_num
  have hf : to_float ((9913809 : R) / 16777216 * 22) = 13631487 / 1048576 := by
    have := to_float_eq_of ((9913809 : R) / 16777216 * 22) (-20) 13631487 (by norm_num)
      (by norm_num)
      (by
        left
        rw [hp20, abs_lt]
        constructor <;> norm_num)
    rw [this, hp20]
    norm_num
  have hu : to_float ((1048575 : R) / 1048576) = 1048575 / 1048576 := by
    have := @to_float_exact R _ _ 1048575 (-20) (by norm_num)
    rw [hp20] at this
    norm_num at this ⊢
    exact this
  have hw : to_float ((1 : R) / 1048576) = 1 / 1048576 := by
    have := @to_float_exact R _ _ 1 (-20) (by norm_num)
    rw [hp20] at this
    norm_num at this ⊢
    exact this
  refine ⟨?_, ?_, ?_, ?_, ?_⟩
  · have hne : ((22528 : Nat) : R) ≠ 0 := by norm_num
    simp only [t_val, hs, hl, fdiv, if_neg hne, Option.map_some']
    push_cast
    rw [ht]
  · simp only [frac_ind, hfl]
    push_cast
    rw [hf]
  · have hfloor : ⌊(13631487 / 1048576 : R)⌋ = 12 := by
      rw [Int.floor_eq_iff]
      constructor <;> norm_num
    have hc : cast_int (13631487 / 1048576 : R) = 12 := by
      rw [cast_int_of_nonneg _ (by norm_num), hfloor]
    simp only [frame_indices, hc]
    norm_num
  · simp only [upper_weight, h12]
    push_cast
    have : (13631487 / 1048576 : R) - 12 = 1048575 / 1048576 := by norm_num
    rw [this, hu]
  · simp only [lower_weight]
    have : (1 : R) - 1048575 / 1048576 = 1 / 1048576 := by norm_num
    rw [this, hw]

end AgreementLemmas

/-! ## Resynthesis engine: indices, counter, table 2 -/

section EngineTheorems

variable {R : Type} [LinearOrderedField R] [FloorRing R]

/-- C11: for every `frame_limit >= 1` and every sample counter
`s < s_limit = frame_limit * 1024` (in particular `s = s_limit - 1`), the frame
position `s / s_limit * frame_limit` is a number and is not negative, and for
every non-negative frame position `frac_ind` (the exact one and any rounded
value of it) the indices computed by `onSound` satisfy
`0 <= low_ind <= high_ind <= frame_limit - 1` with `high_ind` equal to
`low_ind` or `low_ind + 1`; when table 1 has at least `frame_limit` frames of
`N` entries each, both indices select a frame of table 1 and every voice index
`n < N` is a valid index into both frames. -/
theorem onSound_indices_valid (frame_limit s N : Nat) (peaks1 : List (List (Entry R)))
    (frac_ind : R) (hfl : 1 ≤ frame_limit) (hs : s < frame_limit * 1024)
    (hfrac : 0 ≤ frac_ind) (hcount : frame_limit ≤ peaks1.length)
    (hN : ∀ frame ∈ peaks1, frame.length = N) :
    (∃ t_val, fdiv (s : R) ((frame_limit * 1024 : Nat) : R) = some t_val
      ∧ 0 ≤ t_val * (frame_limit : R)
      ∧ frame_indices frame_limit (t_val * (frame_limit : R))
          = (((s / 1024 : Nat) : Int), ((min (s / 1024 + 1) (frame_limit - 1) : Nat) : Int)))
    ∧ 0 ≤ (frame_indices frame_limit frac_ind).1
    ∧ (frame_indices frame_limit frac_ind).1 ≤ (frame_indices frame_limit frac_ind).2
    ∧ (frame_indices frame_limit frac_ind).2 ≤ (frame_limit : Int) - 1
    ∧ ((frame_indices frame_limit frac_ind).2 = (frame_indices frame_limit frac_ind).1
      ∨ (frame_indices frame_limit frac_ind).2 = (frame_indices frame_limit frac_ind).1 + 1)
    ∧ ∃ lo hi, list_at peaks1 (frame_indices frame_limit frac_ind).1 = some lo
        ∧ list_at peaks1 (frame_indices frame_limit frac_ind).2 = some hi
        ∧ ∀ n, n < N → (∃ el, lo[n]? = some el) ∧ (∃ eh, hi[n]? = some eh) := by
  obtain ⟨h0, h1, h2, h3⟩ := frame_indices_bounds frame_limit frac_ind hfl hfrac
  obtain ⟨hdiv, hpos⟩ := @frame_position_exact R _ _ frame_limit s hfl
  refine ⟨⟨_, hdiv, ?_, ?_⟩, h0, h1, h2, h3, ?_⟩
  · rw [hpos]
    positivity
  · rw [hpos]
    exact frame_indices_exact frame_limit s hs
  · have hc : ((frame_limit : Nat) : Int) ≤ (peaks1.length : Int) := by exact_mod_cast hcount
    obtain ⟨lo, hlo, hlom⟩ :=
      list_at_of_bounds peaks1 (frame_indices frame_limit frac_ind).1 h0 (by omega)
    obtain ⟨hi, hhi, hhim⟩ :=
      list_at_of_bounds peaks1 (frame_indices frame_limit frac_ind).2 (by omega) (by omega)
    refine ⟨lo, hi, hlo, hhi, ?_⟩
    intro n hn
    have hl1 : n < lo.length := by rw [hN lo hlom]; exact hn
    have hl2 : n < hi.length := by rw [hN hi hhim]; exact hn
    exact ⟨⟨_, List.getElem?_eq_getElem hl1⟩, ⟨_, List.getElem?_eq_getElem hl2⟩⟩

/-- Witness of C11: two frames of one voice, the last sample `s = 2047` of the
loop, and its exact frame position `2047 / 1024`. -/
theorem onSound_indices_valid_witness :
    0 ≤ (frame_indices 2 ((2047 : ℚ) / 1024)).1
    ∧ (frame_indices 2 ((2047 : ℚ) / 1024)).2 ≤ ((2 : Nat) : Int) - 1
    ∧ ∃ lo hi, list_at ramp_table (frame_indices 2 ((2047 : ℚ) / 1024)).1 = some lo
        ∧ list_at ramp_table (frame_indices 2 ((2047 : ℚ) / 1024)).2 = some hi
        ∧ ∀ n, n < 1 → (∃ el, lo[n]? = some el) ∧ (∃ eh, hi[n]? = some eh) :=
  have h := onSound_indices_valid 2 2047 1 ramp_table ((2047 : ℚ) / 1024) (by decide)
    (by decide) (by norm_num) (by decide) (by decide)
  ⟨h.2.1, h.2.2.2.1, h.2.2.2.2.2⟩

/-- C12 (as stated, refuted): a recording without samples has no frame
(`nframes 0 = 0`), and with an empty table the constructor leaves `s = 0` and
`s_limit = 0`, so the initial state does not satisfy `s < s_limit`; the frame
position of the first sample is `0 / 0` and no sample is produced. -/
theorem counter_range_empty_table :
    nframes 0 = 0
    ∧ (MyApp.start 1 ([] : List (List (Entry ℚ))) ramp_table).s = 0
    ∧ (MyApp.start 1 ([] : List (List (Entry ℚ))) ramp_table).s_limit = 0
    ∧ ¬ (MyApp.start 1 ([] : List (List (Entry ℚ))) ramp_table).s
        < (MyApp.start 1 ([] : List (List (Entry ℚ))) ramp_table).s_limit
    ∧ onSound_sample quarter_table (MyApp.start 1 ([] : List (List (Entry ℚ))) ramp_table)
        = none := by
  refine ⟨by decide, rfl, rfl, by decide, ?_⟩
  simp [onSound_sample, interpolation, t_val, MyApp.start, fdiv, to_float_zero]

/-- C12 (amended): when both analysis tables have at least one frame (and
table 1 is well formed and the sine table is not empty, so that the callback
runs), the constructor leaves
`s = 0` and `s_limit = min(frameCount1, frameCount2) * 1024`, a block of `k`
samples from that state is produced, and the state reached keeps `s_limit`
and satisfies `s < s_limit` (with `s = k mod s_limit`); one more sample maps
`s` to `s + 1`, or to 0 when `s + 1 = s_limit`. -/
theorem sample_counter_in_range (table : List R) (N : Nat)
    (peaks1 peaks2 : List (List (Entry R))) (h1 : 1 ≤ peaks1.length)
    (h2 : 1 ≤ peaks2.length) (htab : table_ok N peaks1) (hn : 0 < table.length) (k : Nat) :
    (MyApp.start N peaks1 peaks2).s = 0
    ∧ (MyApp.start N peaks1 peaks2).s_limit = min peaks1.length peaks2.length * 1024
    ∧ ∃ out app, onSound table k (MyApp.start N peaks1 peaks2) = some (out, app)
        ∧ app.s_limit = min peaks1.length peaks2.length * 1024
        ∧ app.s < app.s_limit
        ∧ app.s = k % app.s_limit
        ∧ ∃ r, onSound_sample table app = some r
            ∧ r.2.s_limit = app.s_limit
            ∧ r.2.s = (if app.s + 1 = app.s_limit then 0 else app.s + 1)
            ∧ r.2.s < r.2.s_limit := by
  have hfl : 1 ≤ min peaks1.length peaks2.length := le_min h1 h2
  have hstart := engine_ok_start table N peaks1 peaks2 hn hfl htab
  obtain ⟨out, app, hrun, hok, -, -, hs, hsl, -, -, -, -, -⟩ :=
    onSound_run table (fun _ => True) (fun _ => True) (fun _ _ _ _ _ => ⟨trivial, trivial⟩)
      k _ hstart trivial
  obtain ⟨r, hr, hok2, -, -, hrs, hrsl, -, -, -⟩ := onSound_sample_next table app hok
  refine ⟨rfl, rfl, out, app, hrun, hsl, hok.2.2.2.1, ?_, r, hr, hrsl, hrs, hok2.2.2.2.1⟩
  rw [hs, hsl]
  simp [MyApp.start]

/-- Witness of C12 (amended): two tables of two frames and a block of 2049
samples, with a sine table of four entries. -/
theorem sample_counter_in_range_witness :
    1 ≤ ramp_table.length ∧ 1 ≤ zero_table.length
    ∧ ∃ out app, onSound quarter_table 2049 (MyApp.start 1 ramp_table zero_table)
          = some (out, app)
        ∧ app.s_limit = min ramp_table.length zero_table.length * 1024
        ∧ app.s < app.s_limit
        ∧ app.s = 2049 % app.s_limit
        ∧ ∃ r, onSound_sample quarter_table app = some r
            ∧ r.2.s_limit = app.s_limit
            ∧ r.2.s = (if app.s + 1 = app.s_limit then 0 else app.s + 1)
            ∧ r.2.s < r.2.s_limit :=
  ⟨by decide, by decide,
   (sample_counter_in_range quarter_table 1 ramp_table zero_table (by decide) (by decide)
      table_ok_ramp_table (by decide) 2049).2.2⟩

/-- C13: the samples written by `onSound` depend on table 2 only through its
frame count: for every sine table, every `N`, every table 1 and every two
tables 2 with the same number of frames, the blocks of `k` samples produced
from the constructor's state are identical, sample for sample and on both
channels (and a block is produced for the one exactly when it is for the
other). -/
theorem onSound_ignores_peaks2 (table : List R) (N : Nat)
    (peaks1 peaks2 peaks2b : List (List (Entry R))) (h : peaks2.length = peaks2b.length)
    (k : Nat) :
    (onSound table k (MyApp.start N peaks1 peaks2)).map Prod.fst
      = (onSound table k (MyApp.start N peaks1 peaks2b)).map Prod.fst := by
  have hstart : MyApp.start N peaks1 peaks2b
      = (MyApp.start N peaks1 peaks2).replace_peaks2 peaks2b := by
    simp only [MyApp.start, MyApp.replace_peaks2, h]
  rw [hstart, onSound_replace_peaks2, Option.map_map]
  rfl

/-- Witness of C13: two different tables of two frames as table 2; a block of
three samples is produced and is the same for both. -/
theorem onSound_ignores_peaks2_witness :
    zero_table.length = ramp_table.length
    ∧ (∃ r, onSound quarter_table 3 (MyApp.start 1 ramp_table zero_table) = some r)
    ∧ (onSound quarter_table 3 (MyApp.start 1 ramp_table zero_table)).map Prod.fst
        = (onSound quarter_table 3 (MyApp.start 1 ramp_table ramp_table)).map Prod.fst := by
  refine ⟨by decide, ?_, onSound_ignores_peaks2 quarter_table 1 ramp_table zero_table
    ramp_table (by decide) 3⟩
  obtain ⟨out, app, hrun, -⟩ :=
    onSound_run quarter_table (fun _ => True) (fun _ => True)
      (fun _ _ _ _ _ => ⟨trivial, trivial⟩)
      3 _ (engine_ok_start quarter_table 1 ramp_table zero_table (by decide) (by decide)
        table_ok_ramp_table) trivial
  exact ⟨_, hrun⟩

end EngineTheorems

/-! ## Oscillator, command line, loader, frame buffer -/

section OscillatorTheorems

variable {R : Type} [LinearOrderedField R] [FloorRing R]

end OscillatorTheorems

section CommandLineTheorems

/-- C15: `main` prints the usage message (and returns 1) exactly when
`argc < 3`, not when `argc < 4`. For the invocation
`analysis-resynthesis a.wav b.wav` (`argc = 3`, two files that can be opened,
no voice count) `main` does not print the usage message: it constructs
`MyApp`, and the constructor reads `argv[3]`, which is absent. -/
theorem main_reads_absent_voice_count (atoi : String → Int) :
    main (fun _ => true) atoi ["analysis-resynthesis", "a.wav", "b.wav"]
      = Outcome.absent_argument 3
    ∧ main (fun _ => true) atoi ["analysis-resynthesis", "a.wav", "b.wav"] ≠ Outcome.usage 1
    ∧ ∀ (can_open : String → Bool) (argv : List String),
        main can_open atoi argv = Outcome.usage 1 ↔ argv.length < 3 := by
  have h : main (fun _ => true) atoi ["analysis-resynthesis", "a.wav", "b.wav"]
      = Outcome.absent_argument 3 := rfl
  refine ⟨h, by rw [h]; exact Outcome.noConfusion, ?_⟩
  intro can_open argv
  constructor
  · intro hm
    by_contra hlen
    simp only [main, if_neg hlen, MyApp.MyApp] at hm
    repeat' split at hm
    all_goals exact Outcome.noConfusion hm
  · intro hlen
    simp only [main, if_pos hlen]

end CommandLineTheorems

section LoaderTheorems

variable {R : Type} [LinearOrderedField R]

end LoaderTheorems

section FrameBufferTheorems

variable {R : Type} [LinearOrderedField R] {C : Type} [CommRing C]

end FrameBufferTheorems

/-! ## Resynthesis engine: frame position, oscillator safety, output bound -/

section PositionTheorems

/-- C18: the frame position is computed in single precision and is not always
`s / 1024`. For `frame_limit = 22` (`s_limit = 22528`) and `s = 13312`, a
multiple of 1024 with `s div 1024 = 13` and `s mod 1024 = 0`: `t_val` is the
`float` `9913809 / 2^24`, `frac_ind` is the `float` `13631487 / 2^20`, which
is below 13, so `low_ind` is 12 rather than 13 and `upper_weight` is
`1 - 2^-20` rather than 0. -/
theorem frame_position_rounds_below :
    t_val_f32 13312 22528 = (9913809, 16777216)
    ∧ frac_ind_f32 13312 22528 22 = (13631487, 1048576)
    ∧ 13631487 < 13 * 1048576
    ∧ low_ind_f32 13312 22528 22 = 12
    ∧ 13312 / 1024 = 13
    ∧ 13312 % 1024 = 0
    ∧ upper_weight_f32 13312 22528 22 = (16777200, 16777216) := by
  decide

end PositionTheorems

section SafetyTheorems

variable {R : Type} [LinearOrderedField R] [FloorRing R] {C : Type} [CommRing C]

/-- C19: the table of `stft_peaks` has `N` entries per frame and all its
frequencies in `[0, 24000]`, also after normalisation. For every table 1 of
that kind, every table 2 and `frame_limit >= 1`, with the `float` variables of
`onSound` rounded to single precision: every block of `k` samples is produced
from the constructor's state, and in the state reached every oscillator has
its phase in `[0, 1)`; one more sample is produced, after it every oscillator
again has its phase in `[0, 1)`, and (for at most `2^24` frames, which every
`s_limit` in the range of `int` satisfies) every oscillator holds an increment
`hz / 48000` for the frequency `hz` in `[0, 24000]` it was given, so an
increment in `[0, 1/2]`. The sine table has 16384 entries, and for every phase
`p` in `[0, 1)` the lookup uses the indices `a = floor(p * 16384)` and
`b = (a + 1) mod 16384`, both within `[0, 16383]`. -/
theorem oscillators_stay_in_range (P : Numerics R C) (data : Nat → R) (data_length : Nat)
    (sin : R → R) (pi : R) (N : Nat) (peaks1 peaks2 : List (List (Entry R)))
    (hfl : 1 ≤ min peaks1.length peaks2.length) (htab : table_ok N peaks1) (k : Nat) :
    (∀ frame ∈ stft_peaks P data data_length N, frame.length = N
        ∧ ∀ e ∈ frame, 0 ≤ e.frequency ∧ e.frequency ≤ 24000)
    ∧ (∀ t, normalize (stft_peaks P data data_length N) N = some t → table_ok N t)
    ∧ (SineTable sin pi 16384).length = 16384
    ∧ (∀ p : R, 0 ≤ p → p < 1 →
        (sine_indices (16384 : Int) p).1 = ⌊p * 16384⌋
        ∧ 0 ≤ (sine_indices (16384 : Int) p).1 ∧ (sine_indices (16384 : Int) p).1 ≤ 16383
        ∧ (sine_indices (16384 : Int) p).2 = ((sine_indices (16384 : Int) p).1 + 1) % 16384
        ∧ 0 ≤ (sine_indices (16384 : Int) p).2 ∧ (sine_indices (16384 : Int) p).2 ≤ 16383)
    ∧ ∃ out app, onSound (SineTable sin pi 16384) k (MyApp.start N peaks1 peaks2)
          = some (out, app)
        ∧ (∀ osc ∈ app.sine, 0 ≤ osc.phase ∧ osc.phase < 1)
        ∧ ∃ r, onSound_sample (SineTable sin pi 16384) app = some r
            ∧ r.2.sine.length = N
            ∧ (∀ osc ∈ r.2.sine, 0 ≤ osc.phase ∧ osc.phase < 1)
            ∧ (min peaks1.length peaks2.length ≤ 16777216 →
                ∀ osc ∈ r.2.sine,
                  (∃ hz : R, 0 ≤ hz ∧ hz ≤ 24000 ∧ osc.increment = hz / 48000)
                  ∧ 0 ≤ osc.increment ∧ osc.increment ≤ 1 / 2) := by
  have hlen : (SineTable sin pi 16384).length = 16384 := by simp [SineTable]
  have hhalf : (SAMPLE_RATE : R) / 2 = 24000 := by simp only [SAMPLE_RATE]; norm_num
  refine ⟨?_, fun t ht => table_ok_normalize N _ t (table_ok_stft_peaks P data data_length N) ht,
    hlen, ?_, ?_⟩
  · intro frame hframe
    have h := table_ok_stft_peaks P data data_length N frame hframe
    rw [hhalf] at h
    exact h
  · intro p hp0 hp1
    have h := sine_indices_bounds 16384 (by norm_num) p hp0 hp1
    simpa using h
  · have hstart := engine_ok_start (SineTable sin pi 16384) N peaks1 peaks2
      (by rw [hlen]; norm_num) hfl htab
    obtain ⟨out, app, hrun, hok, -, -, -, -, hflim, hN, -, -, -⟩ :=
      onSound_run (SineTable sin pi 16384) (fun _ => True) (fun _ => True)
        (fun _ _ _ _ _ => ⟨trivial, trivial⟩) k _ hstart trivial
    obtain ⟨lo, hi, lw, uw, bank, -, -, -, -, hres, hbl, hph, hfreq⟩ :=
      onSound_sample_ok (SineTable sin pi 16384) app hok
    refine ⟨out, app, hrun, hok.2.2.2.2.2.2.2, _, hres, ?_, hph, ?_⟩
    · rw [hbl]
      exact hN
    · intro h24 osc hosc
      obtain ⟨hz, h0, h1, hinc⟩ := hfreq (by rw [hflim]; exact h24) osc hosc
      refine ⟨⟨hz, h0, h1, hinc⟩, ?_, ?_⟩
      · rw [hinc]
        positivity
      · rw [hinc, div_le_iff₀ (by norm_num)]
        linarith

/-- Witness of C19: a table of one frame and one voice at 440 Hz over the real
numbers, the sine table of the real sine, and a block of two samples. -/
theorem oscillators_stay_in_range_witness :
    1 ≤ min ([[Entry.mk (440 : ℝ) 1]] : List (List (Entry ℝ))).length
          ([[Entry.mk (440 : ℝ) 1]] : List (List (Entry ℝ))).length
    ∧ table_ok 1 ([[Entry.mk (440 : ℝ) 1]] : List (List (Entry ℝ)))
    ∧ ∃ out app, onSound (SineTable Real.sin Real.pi 16384) 2
          (MyApp.start 1 [[Entry.mk (440 : ℝ) 1]] [[Entry.mk (440 : ℝ) 1]]) = some (out, app)
        ∧ (∀ osc ∈ app.sine, 0 ≤ osc.phase ∧ osc.phase < 1)
        ∧ ∃ r, onSound_sample (SineTable Real.sin Real.pi 16384) app = some r
            ∧ r.2.sine.length = 1
            ∧ (∀ osc ∈ r.2.sine, 0 ≤ osc.phase ∧ osc.phase < 1)
            ∧ (min ([[Entry.mk (440 : ℝ) 1]] : List (List (Entry ℝ))).length
                  ([[Entry.mk (440 : ℝ) 1]] : List (List (Entry ℝ))).length ≤ 16777216 →
                ∀ osc ∈ r.2.sine,
                  (∃ hz : ℝ, 0 ≤ hz ∧ hz ≤ 24000 ∧ osc.increment = hz / 48000)
                  ∧ 0 ≤ osc.increment ∧ osc.increment ≤ 1 / 2) :=
  have htab : table_ok 1 ([[Entry.mk (440 : ℝ) 1]] : List (List (Entry ℝ))) := by
    intro frame hframe
    rw [List.mem_singleton.mp hframe]
    refine ⟨rfl, ?_⟩
    intro e he
    rw [List.mem_singleton.mp he]
    simp only [SAMPLE_RATE]
    norm_num
  ⟨by decide, htab,
   (oscillators_stay_in_range
      (Numerics.mk Real.cos Real.pi (fun r θ => (r : ℂ) * Complex.exp (θ * Complex.I))
        (fun z => Complex.abs z) (fun r => (r : ℂ)))
      (fun _ => 0) 1 Real.sin Real.pi 1 [[Entry.mk (440 : ℝ) 1]] [[Entry.mk (440 : ℝ) 1]]
      (by decide) htab 2).2.2.2.2⟩

/-- C20: for every `N >= 1`, every sine table with entries in `[-1, 1]` and
every well-formed table 1 whose amplitudes all lie in `[0, 1]` (with at most
`2^24` frames, which every `s_limit` in the range of `int` satisfies), with
the `float` variables of `onSound` rounded to single precision: the lookup
`sine(p)` for a phase `p` in `[0, 1)` is a convex combination
`(1 - t) * x + t * y` of two table values with `0 <= t < 1`, so it lies in
`[-1, 1]`; every sample of every block that `onSound` produces is written
with the same value `f` to both channels and `-1 <= f <= 1`; and when
`frame_limit >= 1` every block of `k` samples is produced, and the next sample
written is the sum over `n < N` of `amp_n * sine(phase_n)` divided by `N` as
the code evaluates it (the running sum and the quotient rounded to `float`),
with every rounded interpolated amplitude `amp_n` in `[0, 1]` and every
`sine(phase_n)` in `[-1, 1]`. -/
theorem output_bounded (table : List R) (N : Nat) (peaks1 peaks2 : List (List (Entry R)))
    (hN : 1 ≤ N) (htab : table_ok N peaks1) (hamp : amplitudes_ok peaks1)
    (h24 : min peaks1.length peaks2.length ≤ 16777216)
    (hn : 0 < table.length) (hsin : ∀ x ∈ table, -1 ≤ x ∧ x ≤ 1) (k : Nat) :
    (∀ p : R, 0 ≤ p → p < 1 →
        ∃ x y t, sine table p = some ((1 - t) * x + t * y) ∧ x ∈ table ∧ y ∈ table
          ∧ 0 ≤ t ∧ t < 1 ∧ -1 ≤ (1 - t) * x + t * y ∧ (1 - t) * x + t * y ≤ 1)
    ∧ (∀ r, onSound table k (MyApp.start N peaks1 peaks2) = some r →
        ∀ o ∈ r.1, ∃ f, o = (some f, some f) ∧ -1 ≤ f ∧ f ≤ 1)
    ∧ (1 ≤ min peaks1.length peaks2.length →
        ∃ out app, onSound table k (MyApp.start N peaks1 peaks2) = some (out, app)
          ∧ out.length = k
          ∧ app.N = N
          ∧ ∃ lo hi lw uw f app2,
              interpolation app = some (lo, hi, lw, uw)
              ∧ onSound_sample table app = some ((some f, some f), app2)
              ∧ f = to_float (accumulate (voice_product table lw uw lo hi app.sine) app.N
                                / to_float (app.N : R))
              ∧ -1 ≤ f ∧ f ≤ 1
              ∧ ∀ n, n < app.N →
                  ∃ v, sine table (app.sine.getD n (Phasor.mk 0 0)).phase = some v
                    ∧ -1 ≤ v ∧ v ≤ 1
                    ∧ voice_product table lw uw lo hi app.sine n
                        = to_float (lw * (entry_at lo n).amplitude
                                    + uw * (entry_at hi n).amplitude) * v
                    ∧ 0 ≤ to_float (lw * (entry_at lo n).amplitude
                                    + uw * (entry_at hi n).amplitude)
                    ∧ to_float (lw * (entry_at lo n).amplitude
                                + uw * (entry_at hi n).amplitude) ≤ 1) := by
  have hrun : 1 ≤ min peaks1.length peaks2.length →
      ∃ out app, onSound table k (MyApp.start N peaks1 peaks2) = some (out, app)
        ∧ engine_ok table app
        ∧ (amplitudes_ok app.peaks1 ∧ 1 ≤ app.N ∧ app.frame_limit ≤ 16777216)
        ∧ out.length = k ∧ app.N = N
        ∧ ∀ o ∈ out, ∃ f, o = (some f, some f) ∧ -1 ≤ f ∧ f ≤ 1 := by
    intro hfl
    have hstart := engine_ok_start table N peaks1 peaks2 hn hfl htab
    obtain ⟨out, app, hrun, hok, hQ, hlen, -, -, -, hN2, -, -, hall⟩ :=
      onSound_run table
        (fun app => amplitudes_ok app.peaks1 ∧ 1 ≤ app.N ∧ app.frame_limit ≤ 16777216)
        (fun o => ∃ f, o = (some f, some f) ∧ -1 ≤ f ∧ f ≤ 1)
        (fun app r hok hQ hr => by
          obtain ⟨-, -, -, -, f, app2, -, hres, -, hf0, hf1, -⟩ :=
            sample_bounded table app hok hQ.1 hQ.2.1 hQ.2.2 hsin
          obtain ⟨r2, hr2, -, -, e1, -, -, e2, e3, -⟩ := onSound_sample_next table app hok
          rw [hr] at hres hr2
          have h1 := Option.some.inj hres
          have h2 := Option.some.inj hr2
          refine ⟨?_, f, by rw [h1], hf0, hf1⟩
          rw [h2]
          show amplitudes_ok r2.2.peaks1 ∧ 1 ≤ r2.2.N ∧ r2.2.frame_limit ≤ 16777216
          rw [e1, e2, e3]
          exact hQ)
        k _ hstart ⟨hamp, hN, h24⟩
    exact ⟨out, app, hrun, hok, hQ, hlen, hN2, hall⟩
  refine ⟨?_, ?_, ?_⟩
  · intro p hp0 hp1
    obtain ⟨x, y, t, hs, hx, hy, ht0, ht1⟩ := sine_convex table hn p hp0 hp1
    obtain ⟨v, hv, hv0, hv1⟩ := sine_bounded table hn hsin p hp0 hp1
    rw [hs] at hv
    have hveq : (1 - t) * x + t * y = v := Option.some.inj hv
    exact ⟨x, y, t, hs, hx, hy, ht0, ht1, by rw [hveq]; exact hv0, by rw [hveq]; exact hv1⟩
  · intro r hr o ho
    by_cases hfl : 1 ≤ min peaks1.length peaks2.length
    · obtain ⟨out, app, hrun2, -, -, -, -, hall⟩ := hrun hfl
      rw [hrun2] at hr
      rw [← Option.some.inj hr] at ho
      exact hall o ho
    · have h0 : min peaks1.length peaks2.length = 0 := by omega
      rw [onSound_no_frame table N peaks1 peaks2 h0 k r hr] at ho
      exact absurd ho (List.not_mem_nil o)
  · intro hfl
    obtain ⟨out, app, hrun2, hok, hQ, hlen, hN2, -⟩ := hrun hfl
    exact ⟨out, app, hrun2, hlen, hN2, sample_bounded table app hok hQ.1 hQ.2.1 hQ.2.2 hsin⟩

/-- Witness of C20: one voice, the table of two frames with the amplitudes 1
and `1/2`, the sine table of four entries, and a block of three samples. -/
theorem output_bounded_witness :
    amplitudes_ok ramp_table
    ∧ (∀ x ∈ quarter_table, -1 ≤ x ∧ x ≤ 1)
    ∧ (∃ out app, onSound quarter_table 3 (MyApp.start 1 ramp_table ramp_table)
          = some (out, app) ∧ out.length = 3)
    ∧ ∀ r, onSound quarter_table 3 (MyApp.start 1 ramp_table ramp_table) = some r →
        ∀ o ∈ r.1, ∃ f, o = (some f, some f) ∧ -1 ≤ f ∧ f ≤ 1 :=
  have h := output_bounded quarter_table 1 ramp_table ramp_table (by decide)
    table_ok_ramp_table amplitudes_ok_ramp_table (by decide) (by decide)
    quarter_table_bounded 3
  ⟨amplitudes_ok_ramp_table, quarter_table_bounded,
   (h.2.2 (by decide)).imp fun _ hout => hout.imp fun _ happ => ⟨happ.1, happ.2.1⟩,
   h.2.1⟩

end SafetyTheorems

end Interstrapolator
